import Mathlib

/-!
Verification of the rustautomod module-declaration manager.

Shallow embedding of the core text-transform, configuration-resolution and
event-coalescing logic of the repository.  JavaScript strings are modelled as
`List Char`; arrays of lines as `List (List Char)`; the mutable coalescer
state as an explicit record threaded through the handler functions.  All
definitions are executable so that concrete witnesses can be checked by
evaluation.
-/

set_option maxHeartbeats 1600000
set_option maxRecDepth 4000

namespace RustAutomod

/-- A JavaScript string: a sequence of (UTF-16-ish) characters. -/
abbrev JStr := List Char

/-- Characters counted as whitespace by `String.prototype.trim` (modelled via
`Char.isWhitespace`, which covers space, tab, CR and LF). -/
def isWs (c : Char) : Bool := c.isWhitespace

/-- Embedding of `s.trim()`: drop leading and trailing whitespace. -/
def trimL (s : JStr) : JStr :=
  ((s.dropWhile isWs).reverse.dropWhile isWs).reverse

/-- Embedding of `s.startsWith(p)`. -/
def startsW (p s : JStr) : Bool := p.isPrefixOf s

/-- Embedding of `s.endsWith(p)`. -/
def endsW (p s : JStr) : Bool := p.reverse.isPrefixOf s.reverse

/-- Embedding of `s.includes(p)`: substring containment. -/
def hasSub (p : JStr) : JStr → Bool
  | [] => p.isPrefixOf []
  | c :: cs => p.isPrefixOf (c :: cs) || hasSub p cs

/-- Embedding of `s.split("//")[0]`: the prefix of `s` before the first
occurrence of `//`. -/
def beforeComment : JStr → JStr
  | [] => []
  | c :: cs => if c = '/' ∧ cs.headD ' ' = '/' then [] else c :: beforeComment cs

/-- Embedding of `content.split(/\r?\n/)`: split on newlines, where a newline
optionally preceded by a carriage return consumes the carriage return too. -/
def splitRN : JStr → List JStr
  | [] => [[]]
  | '\r' :: '\n' :: cs => [] :: splitRN cs
  | '\n' :: cs => [] :: splitRN cs
  | c :: cs =>
    match splitRN cs with
    | s :: ss => (c :: s) :: ss
    | [] => [[c]]

/-- Embedding of `lines.join("\n")`. -/
def joinNL : List JStr → JStr
  | [] => []
  | [l] => l
  | l :: l2 :: ls => l ++ '\n' :: joinNL (l2 :: ls)

/-- `true` iff the string ends with a newline character
(embedding of `content.endsWith("\n")`). -/
def endsNL (s : JStr) : Bool := s.getLast? = some '\n'

/-- Shorthand turning a Lean string literal into the `JStr` model. -/
def js (s : String) : JStr := s.data

/-- Prepend a character to the first element of a list of strings
(helper for the character-by-character splitters). -/
def consHd (c : Char) : List JStr → List JStr
  | s :: ss => (c :: s) :: ss
  | [] => [[c]]

/-- Embedding of `s.split(sep)` for a single-character separator. -/
def splitCh (sep : Char) : JStr → List JStr
  | [] => [[]]
  | c :: cs => if c = sep then [] :: splitCh sep cs else consHd c (splitCh sep cs)

/-- Index of the last newline character of a string, if any
(used to model the greedy match of the separator regex of `parseRautomod`). -/
def lastNLIdx : JStr → Option Nat
  | [] => none
  | c :: cs =>
    match lastNLIdx cs with
    | some i => some (i + 1)
    | none => if c = '\n' then some 0 else none

/-- Fuel-indexed worker for `splitBlocks` (the fuel strictly dominates the
length of the string, so the base case is never reached from `splitBlocks`). -/
def splitBlocksGo : Nat → JStr → List JStr
  | 0, s => [s]
  | _ + 1, [] => [[]]
  | fuel + 1, c :: cs =>
    if c = '\n' then
      match lastNLIdx (cs.takeWhile isWs) with
      | some m => [] :: splitBlocksGo fuel (cs.drop (m + 1))
      | none => consHd '\n' (splitBlocksGo fuel cs)
    else consHd c (splitBlocksGo fuel cs)

/-- Embedding of `content.split(/\n\s*\n/)`: blocks are separated by a newline,
optional interior whitespace, and a further newline; the regex is greedy, so a
separator extends to the last newline inside the whitespace run. -/
def splitBlocks (s : JStr) : List JStr := splitBlocksGo (s.length + 1) s

/-- First index of a character in a string (`s.indexOf(c)`, with `none`
standing for JavaScript's `-1`). -/
def idxOf1 (t : Char) : JStr → Option Nat
  | [] => none
  | c :: cs => if c = t then some 0 else (idxOf1 t cs).map (· + 1)

/-! ### Paths

Embeddings of the Node `path.posix` functions used by the extension. -/

/-- Embedding of `path.dirname(p)` (POSIX). -/
def dirnameL (p : JStr) : JStr :=
  if p = [] then js "." else
  let hasRoot := p.headD ' ' = '/'
  let r2 := (p.reverse.dropWhile (fun c => c = '/')).dropWhile (fun c => c ≠ '/')
  if r2.length ≤ 1 then (if hasRoot then js "/" else js ".")
  else if hasRoot ∧ r2.length = 2 then js "//"
  else p.take (r2.length - 1)

/-- Embedding of `path.basename(p)` (POSIX): last path segment, ignoring
trailing slashes. -/
def basenameL (p : JStr) : JStr :=
  ((p.reverse.dropWhile (fun c => c = '/')).takeWhile (fun c => c ≠ '/')).reverse

/-- Embedding of `path.basename(p, ext)`: the basename with the extension
removed when it is a proper suffix. -/
def basenameExtL (p ext : JStr) : JStr :=
  let b := basenameL p
  if endsW ext b ∧ b ≠ ext then b.take (b.length - ext.length) else b

/-- Embedding of `path.join(dir, name)` for the directory/file-name case used
by the configuration walk (no `..` or `.` normalisation is ever needed there). -/
def joinPath (dir name : JStr) : JStr :=
  if endsW (js "/") dir then dir ++ name else dir ++ '/' :: name

/-! ### ConfigResolver (`automodConfigFile.ts`) -/

/-- The `visibility` field of a rule. -/
inductive Visibility | pub | priv
deriving DecidableEq, Repr

/-- The `sort` field of a rule. -/
inductive SortMode | alpha | nosort
deriving DecidableEq, Repr

/-- The `fmt` field of a rule. -/
inductive FmtMode | enabled | disabled
deriving DecidableEq, Repr

/-- Embedding of the `AutomodRule` interface.  The defaults are the ones the
parser starts each block from: `visibility=pub`, `sort=none`, `fmt=disabled`. -/
structure AutomodRule where
  visibility : Visibility := .pub
  sort : SortMode := .nosort
  fmt : FmtMode := .disabled
  pattern : Option (List JStr) := Option.none
  cfg : Option (List JStr) := Option.none
deriving DecidableEq, Repr

/-- The loop body of `smartSplitCfg`: the running state is
(collected parts, current part, parenthesis depth); the depth is updated
first, and a comma splits only at depth zero. -/
def smartSplitStep (acc : List JStr × JStr × Int) (c : Char) : List JStr × JStr × Int :=
  let depth2 := if c = '(' then acc.2.2 + 1 else if c = ')' then acc.2.2 - 1 else acc.2.2
  if c = ',' ∧ depth2 = 0 then (acc.1 ++ [trimL acc.2.1], [], depth2)
  else (acc.1, acc.2.1 ++ [c], depth2)

/-- Embedding of `smartSplitCfg`: split a `cfg` value on commas, but only at
parenthesis depth zero; each part is trimmed and empty parts are dropped. -/
def smartSplitCfg (value : JStr) : List JStr :=
  let fin := value.foldl smartSplitStep ([], [], 0)
  (fin.1 ++ [trimL fin.2.1]).filter (fun p => p ≠ [])

/-- Embedding of the per-line `switch` of `parseRautomod`: apply one
configuration line to a rule under construction. -/
def applyConfigLine (r : AutomodRule) (line : JStr) : AutomodRule :=
  if startsW (js "#") line then r
  else
    match idxOf1 '=' line with
    | none => r
    | some i =>
      let key := trimL (line.take i)
      let rawValue := trimL (line.drop (i + 1))
      if key = [] then r
      else if key = js "visibility" then
        if rawValue = js "pub" then { r with visibility := .pub }
        else if rawValue = js "private" then { r with visibility := .priv }
        else r
      else if key = js "sort" then
        if rawValue = js "alpha" then { r with sort := .alpha }
        else if rawValue = js "none" then { r with sort := .nosort }
        else r
      else if key = js "pattern" then
        { r with pattern := some (((splitCh ',' rawValue).map trimL).filter (fun s => s ≠ [])) }
      else if key = js "cfg" then
        { r with cfg := some (smartSplitCfg rawValue) }
      else if key = js "fmt" then
        if rawValue = js "enabled" then { r with fmt := .enabled }
        else if rawValue = js "disabled" then { r with fmt := .disabled }
        else r
      else r

/-- Parse one blank-line-separated block into a rule, starting from the
default rule. -/
def ruleOfBlock (block : JStr) : AutomodRule :=
  (splitCh '\n' block).foldl applyConfigLine {}

/-- Embedding of `parseRautomod` (the `automodConfigFile.ts` version): split
the file into blank-line-separated blocks and parse each block. -/
def parseRautomod (content : JStr) : List AutomodRule :=
  (splitBlocks content).map ruleOfBlock

/-- A pattern-bearing rule matches when some pattern is a substring of the
full path or equals the basename; pattern-less rules never match here. -/
def ruleMatches (filePath fileName : JStr) (r : AutomodRule) : Bool :=
  match r.pattern with
  | some ps => ps.any (fun p => hasSub p filePath || fileName = p)
  | none => false

/-- Embedding of `findConfigForFile`: first pattern-matching rule in file
order, else the first pattern-less rule, else nothing. -/
def findConfigForFile (rules : List AutomodRule) (filePath : JStr) : Option AutomodRule :=
  let fileName := basenameL filePath
  match rules.find? (ruleMatches filePath fileName) with
  | some r => some r
  | none => rules.find? (fun r => r.pattern.isNone)

/-- The process-wide default configuration source (the editor settings), with
its documented defaults `visibility=pub`, `sort=none`, `fmt=disabled`. -/
def vscodeDefaultRule : AutomodRule := {}

/-- Fuel-indexed embedding of the ancestor walk of `getProjectConfig`.  The
file system is abstracted as a partial map `fscfg` from paths to the contents
of an existing `.rautomod` file. -/
def getProjectConfigGo (fscfg : JStr → Option JStr) (filePath : JStr) :
    Nat → JStr → AutomodRule
  | 0, _ => vscodeDefaultRule
  | fuel + 1, dir =>
    if dir = dirnameL dir then vscodeDefaultRule
    else
      match fscfg (joinPath dir (js ".rautomod")) with
      | some content =>
        match findConfigForFile (parseRautomod content) filePath with
        | some r => r
        | none => getProjectConfigGo fscfg filePath fuel (dirnameL dir)
      | none => getProjectConfigGo fscfg filePath fuel (dirnameL dir)

/-- Embedding of `getProjectConfig`: walk the directory ancestry of
`filePath` upward, returning the first applicable rule, and the process-wide
defaults when the walk reaches the root without one. -/
def getProjectConfig (fscfg : JStr → Option JStr) (filePath : JStr) : AutomodRule :=
  getProjectConfigGo fscfg filePath (filePath.length + 2) (dirnameL filePath)

/-- The chain of directories visited by the configuration walk. -/
def ancestorsFrom : Nat → JStr → List JStr
  | 0, _ => []
  | fuel + 1, dir =>
    if dir = dirnameL dir then [] else dir :: ancestorsFrom fuel (dirnameL dir)

/-- The rule a `.rautomod` file at directory `d` yields for `filePath`,
if the file exists and one of its rules applies. -/
def configYield (fscfg : JStr → Option JStr) (filePath d : JStr) : Option AutomodRule :=
  (fscfg (joinPath d (js ".rautomod"))).bind
    (fun content => findConfigForFile (parseRautomod content) filePath)

/-- Specification-style formulation of resolution: the first ancestor whose
configuration file yields an applicable rule wins; otherwise the defaults. -/
def resolveViaChain (fscfg : JStr → Option JStr) (filePath : JStr) : AutomodRule :=
  ((ancestorsFrom (filePath.length + 2) (dirnameL filePath)).findSome?
      (configYield fscfg filePath)).getD vscodeDefaultRule

/-- Concrete two-level file system used to analyse the resolution order:
the directory nearest to the file has a configuration whose only rule bears a
non-matching pattern, while the parent directory has a pattern-less rule. -/
def fscfgC3 : JStr → Option JStr := fun p =>
  if p = js "/p/c/.rautomod" then some (js "pattern=zzz\nvisibility=private")
  else if p = js "/p/.rautomod" then some (js "visibility=private")
  else none

/-! ### EventCoalescer (`activate` in `automodModFile.ts`)

The module-level mutable sets and maps of the watcher handlers are modelled
as an explicit state record.  JavaScript `Set` and `Map` preserve insertion
order, so they are modelled as ordered association lists with unique keys;
`Date.now()` is an explicit `now` parameter. -/

/-- The debounce delay of the coalescer, in milliseconds. -/
def debounceDelay : Int := 500

/-- The rename detection window of the coalescer, in milliseconds. -/
def renameDetectionWindow : Int := 300

/-- The value stored in `recentDeletes`: deletion timestamp and file stem. -/
structure RDInfo where
  timestamp : Int
  fileName : JStr
deriving DecidableEq, Repr

/-- Insertion-ordered `Set.add`: a present element keeps its position. -/
def setAdd (s : List JStr) (x : JStr) : List JStr := if x ∈ s then s else s ++ [x]

/-- Insertion-ordered `Map.set`: a present key is updated in place. -/
def mapSet {α : Type} (m : List (JStr × α)) (k : JStr) (v : α) : List (JStr × α) :=
  if k ∈ m.map Prod.fst then m.map (fun p => if p.1 = k then (k, v) else p)
  else m ++ [(k, v)]

/-- `Map.delete`: remove the entry with the given key. -/
def mapDelete {α : Type} (m : List (JStr × α)) (k : JStr) : List (JStr × α) :=
  m.filter (fun p => p.1 ≠ k)

/-- The coalescer state: `pendingCreatedUris`, `pendingDeletedUris`,
`pendingRenames` (old path → new path) and `recentDeletes`. -/
structure CoState where
  pendingCreated : List JStr := []
  pendingDeleted : List JStr := []
  pendingRenames : List (JStr × JStr) := []
  recentDeletes : List (JStr × RDInfo) := []
deriving DecidableEq, Repr

/-- The empty coalescer state at activation time. -/
def emptyCoState : CoState := {}

/-- Embedding of the similarity loop: number of matching leading characters
of the two stems. -/
def commonPrefixLen : JStr → JStr → Nat
  | a :: as, b :: bs => if a = b then commonPrefixLen as bs + 1 else 0
  | _, _ => 0

/-- The scoring formula of the create handler, as inlined in the loop:
`nameScore * 10 + timeScore` where `nameScore` is the common-prefix length of
the two stems and `timeScore = 1 − timeDiff / renameDetectionWindow`. -/
def candScore (info : RDInfo) (now : Int) (fileName : JStr) : ℚ :=
  let nameScore := commonPrefixLen info.fileName fileName
  let timeScore : ℚ := 1 - ((now - info.timestamp : Int) : ℚ) / ((renameDetectionWindow : Int) : ℚ)
  (nameScore : ℚ) * 10 + timeScore

/-- An entry of `recentDeletes` that the create handler actually scores:
unexpired, same directory, and a `.rs` path. -/
def applicableCand (e : JStr × RDInfo) (now : Int) (dirPath : JStr) : Bool :=
  now - e.2.timestamp < renameDetectionWindow
    ∧ dirnameL e.1 = dirPath ∧ endsW (js ".rs") e.1

/-- One iteration of the candidate loop of the create handler: drop the entry
if expired, skip it if in another directory or not a `.rs` file, otherwise
score it and keep it as the best match when its score strictly exceeds the
best so far. -/
def scanStep (now : Int) (dirPath fileName : JStr)
    (acc : List (JStr × RDInfo) × Option JStr × ℚ) (e : JStr × RDInfo) :
    List (JStr × RDInfo) × Option JStr × ℚ :=
  let timeDiff := now - e.2.timestamp
  if renameDetectionWindow ≤ timeDiff then acc
  else if dirnameL e.1 ≠ dirPath ∨ ¬ endsW (js ".rs") e.1 then (acc.1 ++ [e], acc.2)
  else
    let totalScore := candScore e.2 now fileName
    if acc.2.2 < totalScore then (acc.1 ++ [e], some e.1, totalScore)
    else (acc.1 ++ [e], acc.2)

/-- Embedding of the candidate loop of the create handler: iterate
`recentDeletes` in insertion order, dropping expired entries, skipping
other-directory or non-`.rs` entries, and tracking the strictly best score.
Returns the surviving entries, the best match and the best score (the
initial best score is `-1`). -/
def scanRecent (entries : List (JStr × RDInfo)) (now : Int) (dirPath fileName : JStr) :
    List (JStr × RDInfo) × Option JStr × ℚ :=
  entries.foldl (scanStep now dirPath fileName) ([], none, (-1 : ℚ))

/-- The best-match tracking of the candidate loop in isolation: replace the
best candidate exactly when the new score strictly exceeds the best score. -/
def bestStep (now : Int) (fileName : JStr) (acc : Option JStr × ℚ) (e : JStr × RDInfo) :
    Option JStr × ℚ :=
  if acc.2 < candScore e.2 now fileName then (some e.1, candScore e.2 now fileName) else acc

/-- Best match and score among a list of already-filtered candidates. -/
def bestOf (entries : List (JStr × RDInfo)) (now : Int) (fileName : JStr) : Option JStr × ℚ :=
  entries.foldl (bestStep now fileName) (none, (-1 : ℚ))

/-- Embedding of the `watcher.onDidCreate` handler.  The returned `Bool`
records whether a flush was scheduled. -/
def onDidCreate (s : CoState) (filePath : JStr) (now : Int) : CoState × Bool :=
  if filePath ∈ s.pendingDeleted then
    ({ s with pendingDeleted := s.pendingDeleted.erase filePath }, false)
  else if filePath ∈ s.pendingRenames.map Prod.snd then (s, false)
  else
    let fileName := basenameExtL filePath (js ".rs")
    let dirPath := dirnameL filePath
    let scan := scanRecent s.recentDeletes now dirPath fileName
    match scan.2.1 with
    | some bestMatch =>
      if 0 < scan.2.2 then
        ({ s with pendingRenames := mapSet s.pendingRenames bestMatch filePath,
                  recentDeletes := mapDelete scan.1 bestMatch }, true)
      else
        ({ s with pendingCreated := setAdd s.pendingCreated filePath,
                  recentDeletes := scan.1 }, true)
    | none =>
      ({ s with pendingCreated := setAdd s.pendingCreated filePath,
                recentDeletes := scan.1 }, true)

/-- Embedding of the `watcher.onDidDelete` handler.  The first returned
`Bool` records whether a flush was scheduled, the second whether the
promotion timer of the rename-detection window was armed. -/
def onDidDelete (s : CoState) (filePath : JStr) (now : Int) : CoState × Bool × Bool :=
  if filePath ∈ s.pendingCreated then
    ({ s with pendingCreated := s.pendingCreated.erase filePath }, false, false)
  else if filePath ∈ s.pendingRenames.map Prod.fst then (s, false, false)
  else if endsW (js ".rs") filePath then
    ({ s with recentDeletes :=
        mapSet s.recentDeletes filePath ⟨now, basenameExtL filePath (js ".rs")⟩ }, false, true)
  else ({ s with pendingDeleted := setAdd s.pendingDeleted filePath }, true, false)

/-- Embedding of the promotion-timer callback armed by the delete handler:
after the detection window, a still-unmatched recent delete becomes a real
pending deletion.  The returned `Bool` records whether a flush was
scheduled. -/
def promoteDelete (s : CoState) (filePath : JStr) : CoState × Bool :=
  if filePath ∈ s.recentDeletes.map Prod.fst then
    let s2 := { s with recentDeletes := mapDelete s.recentDeletes filePath }
    if filePath ∈ s2.pendingRenames.map Prod.fst then (s2, false)
    else ({ s2 with pendingDeleted := setAdd s2.pendingDeleted filePath }, true)
  else (s, false)

/-- The batch snapshot taken by `processBatch`: the created, deleted and
rename intents of one flush. -/
def flushIntents (s : CoState) : List JStr × List JStr × List (JStr × JStr) :=
  (s.pendingCreated, s.pendingDeleted, s.pendingRenames)

/-- Concrete coalescer state used to analyse the exact-stem clause of the
rename scoring: two unexpired same-directory candidates, the first of which
has exactly the stem of the created file, the second a more recent deletion
sharing a two-character prefix. -/
def stateC6 : CoState :=
  { recentDeletes := [(js "/d/ab.rs", ⟨0, js "ab"⟩), (js "/d/abc.rs", ⟨100, js "abc"⟩)] }

/-! Concrete event sequence used to analyse the ambiguous three-deletes/one-
create scenario: three `.rs` files of one directory are deleted at times
0, 10 and 20, then a file with an unrelated stem is created at time 100,
within the rename-detection window of all three. -/

/-- State after `delete(/d/a.rs)` at time 0. -/
def c8s1 : CoState := (onDidDelete emptyCoState (js "/d/a.rs") 0).1

/-- State after a further `delete(/d/b.rs)` at time 10. -/
def c8s2 : CoState := (onDidDelete c8s1 (js "/d/b.rs") 10).1

/-- State after a further `delete(/d/c.rs)` at time 20. -/
def c8s3 : CoState := (onDidDelete c8s2 (js "/d/c.rs") 20).1

/-- State after `create(/d/x.rs)` at time 100. -/
def c8s4 : CoState := (onDidCreate c8s3 (js "/d/x.rs") 100).1

/-- State after the promotion timer for `/d/a.rs` fires. -/
def c8s5 : CoState := (promoteDelete c8s4 (js "/d/a.rs")).1

/-- State after the promotion timer for `/d/b.rs` fires. -/
def c8s6 : CoState := (promoteDelete c8s5 (js "/d/b.rs")).1

/-! ### Legacy SyncEngine delete handler (`automod.ts`) -/

/-- The effect of a delete intent on its resolved target file. -/
inductive FileAction where
  | unlink
  | write (content : JStr)
deriving DecidableEq, Repr

/-- Embedding of the legacy `getModDeclaration`: the declaration line for a
module under the resolved visibility. -/
def getModDeclaration (visibility : Visibility) (name : JStr) : JStr :=
  if visibility = .priv then js "mod " ++ name ++ js ";"
  else js "pub mod " ++ name ++ js ";"

/-- Embedding of the `mod.rs` branch of the legacy `handleFileDelete`
(`automod.ts`): drop blank lines and lines whose trimmed content equals the
declaration to remove; delete the file itself when nothing non-blank
remains, otherwise write back the filtered content with a trailing
newline. -/
def handleModRsDelete (content : JStr) (lineToRemove : JStr) : FileAction :=
  let newContent := joinNL ((splitRN content).filter
    (fun line => trimL line ≠ [] ∧ trimL line ≠ lineToRemove))
  if trimL newContent = [] then .unlink else .write (newContent ++ js "\n")

/-- Embedding of the legacy `handleFileDelete` after the reserved-name guard:
three-case target resolution (crate root, program entry, directory index).
The file system is abstracted by the three existence flags and the contents
of the candidate target files; `none` means no target exists and nothing is
written. -/
def handleFileDeleteLegacy (libExists mainExists modExists : Bool)
    (rootContent modContent lineToRemove : JStr) : Option FileAction :=
  if libExists || mainExists then
    let newContent := joinNL ((splitRN rootContent).filter
      (fun line => trimL line ≠ [] ∧ trimL line ≠ lineToRemove))
    some (.write (newContent ++ (if trimL newContent ≠ [] then js "\n" else [])))
  else if modExists then some (handleModRsDelete modContent lineToRemove)
  else none

/-! ### DeclarationStore (`automodModFile.ts`) -/

/-- Embedding of the `ModDeclaration` interface: a parsed declaration block. -/
structure ModDecl where
  attributes : List JStr
  modLine : JStr
  fullBlock : List JStr
  startIndex : Nat
  endIndex : Nat
deriving DecidableEq, Repr

/-- A line whose instruction (trimmed, with a trailing `//` comment removed)
is an external module declaration: starts with `mod ` or `pub mod ` and ends
with the statement terminator. -/
def isDeclLine (l : JStr) : Bool :=
  let instructionOnly := trimL (beforeComment (trimL l))
  (startsW (js "mod ") instructionOnly || startsW (js "pub mod ") instructionOnly)
    && endsW (js ";") instructionOnly

/-- A line recognised as an attribute by the backward scan. -/
def isAttrLine (l : JStr) : Bool :=
  startsW (js "#[") (trimL l) || startsW (js "#!") (trimL l)

/-- A line the backward scan skips: blank or a line comment. -/
def isSkipLine (l : JStr) : Bool :=
  trimL l = [] || startsW (js "//") (trimL l)

/-- The backward scan of `parseModDeclarations`: walk upward from the
declaration line collecting attribute lines (which update the block start)
and skipping blank and comment lines, stopping at the first other line.
The first component of the accumulator is the current start index, the
second the collected attribute lines. -/
def scanAttrs (lines : List JStr) : Nat → Nat × List JStr → Nat × List JStr
  | 0, acc => acc
  | j + 1, acc =>
    let prev := lines.getD j []
    if isAttrLine prev then scanAttrs lines j (j, prev :: acc.2)
    else if isSkipLine prev then scanAttrs lines j acc
    else acc

/-- The declaration block rooted at line `i`. -/
def mkDecl (lines : List JStr) (i : Nat) : ModDecl :=
  let sa := scanAttrs lines i (i, [])
  { attributes := sa.2
    modLine := lines.getD i []
    fullBlock := sa.2 ++ [lines.getD i []]
    startIndex := sa.1
    endIndex := i }

/-- Embedding of `parseModDeclarations`: one `ModDecl` per declaration line,
in line order. -/
def parseModDeclarations (lines : List JStr) : List ModDecl :=
  (List.range lines.length).filterMap
    (fun i => if isDeclLine (lines.getD i []) then some (mkDecl lines i) else none)

/-- A word character of the regular-expression class `\w`, i.e.
`[A-Za-z0-9_]`. -/
def isWordChar (c : Char) : Bool :=
  (65 ≤ c.toNat ∧ c.toNat ≤ 90) ∨ (97 ≤ c.toNat ∧ c.toNat ≤ 122)
    ∨ (48 ≤ c.toNat ∧ c.toNat ≤ 57) ∨ c.toNat = 95

/-- Anchored literal match: consume the pattern, returning the rest. -/
def matchLit : JStr → JStr → Option JStr
  | [], s => some s
  | _ :: _, [] => none
  | p :: ps, c :: cs => if p = c then matchLit ps cs else none

/-- Anchored `\s+`: require at least one whitespace character and consume
the maximal whitespace run. -/
def dropWsPlus : JStr → Option JStr
  | [] => none
  | c :: cs => if isWs c then some (cs.dropWhile isWs) else none

/-- Anchored `(\w+)`: require at least one word character and capture the
maximal word run. -/
def takeWordPlus : JStr → Option JStr
  | [] => none
  | c :: cs => if isWordChar c then some (c :: cs.takeWhile isWordChar) else none

/-- The regular expression `(?:pub\s+)?mod\s+(\w+)` anchored at the start of
`s`: first try with the optional `pub`, then without. -/
def matchModHere (s : JStr) : Option JStr :=
  match (matchLit (js "pub") s).bind
      (fun r1 => (dropWsPlus r1).bind
        (fun r2 => (matchLit (js "mod") r2).bind
          (fun r3 => (dropWsPlus r3).bind takeWordPlus))) with
  | some w => some w
  | none =>
    (matchLit (js "mod") s).bind (fun r3 => (dropWsPlus r3).bind takeWordPlus)

/-- Leftmost match of the declaration-name regular expression. -/
def findModName : JStr → Option JStr
  | [] => none
  | c :: cs =>
    match matchModHere (c :: cs) with
    | some w => some w
    | none => findModName cs

/-- Embedding of `extractModuleName`: the identifier of the first match of
`(?:pub\s+)?mod\s+(\w+)`, or the empty string. -/
def extractModuleName (modLine : JStr) : JStr := (findModName modLine).getD []

/-- The extracted names of the declarations of a list of lines, in order. -/
def declNames (lines : List JStr) : List JStr :=
  (parseModDeclarations lines).map (fun d => extractModuleName d.modLine)

/-- Brace-depth counting of `findInsertionPoint` over one line. -/
def countBraces (t : JStr) (d : Int) : Int :=
  t.foldl
    (fun d c =>
      if c = Char.ofNat 123 then d + 1 else if c = Char.ofNat 125 then d - 1 else d) d

/-- The `use`-block scan of `findInsertionPoint`: find the line index ending
the contiguous leading block of `use` statements (tracking multi-line grouped
imports by brace depth), stopping at the first other code line. -/
def findUseEnd : List JStr → Nat → Bool → Int → Option Nat → Option Nat
  | [], _, _, _, useEnd => useEnd
  | l :: ls, i, inUse, depth, useEnd =>
    let t := trimL l
    if startsW (js "use ") t then
      let d := countBraces t 0
      if endsW (js ";") t ∧ d = 0 then findUseEnd ls (i + 1) false d (some i)
      else findUseEnd ls (i + 1) true d useEnd
    else if inUse then
      let d := countBraces t depth
      if endsW (js ";") t ∧ d = 0 then findUseEnd ls (i + 1) false d (some i)
      else findUseEnd ls (i + 1) true d useEnd
    else if t ≠ [] ∧ ¬ startsW (js "//") t ∧ ¬ startsW (js "/*") t then useEnd
    else findUseEnd ls (i + 1) inUse depth useEnd

/-- The header scan of `findInsertionPoint`: skip file-level doc comments,
file-level attributes and blank lines. -/
def skipHeader : List JStr → Nat → Nat
  | [], i => i
  | l :: ls, i =>
    let t := trimL l
    if startsW (js "//!") t || startsW (js "/*!") t || startsW (js "#!") t || t = [] then
      skipHeader ls (i + 1)
    else i

/-- Fuel-indexed embedding of the trailing-blank-line skip of
`findInsertionPoint` (the fuel dominates the number of lines). -/
def skipBlanks (lines : List JStr) : Nat → Nat → Nat
  | 0, i => i
  | fuel + 1, i =>
    if i < lines.length ∧ trimL (lines.getD i []) = [] then skipBlanks lines fuel (i + 1)
    else i

/-- Embedding of `findInsertionPoint`: after the leading `use` block
(skipping subsequent blank lines), else right after the file header. -/
def findInsertionPoint (lines : List JStr) : Nat :=
  let afterHeaderIndex := skipHeader lines 0
  match findUseEnd (lines.drop afterHeaderIndex) afterHeaderIndex false 0 none with
  | some useBlockEnd => skipBlanks lines (lines.length + 1) (useBlockEnd + 1)
  | none => afterHeaderIndex

/-- Embedding of `getModDeclarations` (the block builder): one declaration
line under the resolved visibility, or one attribute/declaration pair per
`cfg` condition. -/
def getModDeclarations (name : JStr) (config : AutomodRule) : List JStr :=
  let visibility := if config.visibility = .priv then js "mod" else js "pub mod"
  let modLine := visibility ++ ' ' :: name ++ js ";"
  match config.cfg with
  | none => [modLine]
  | some cfgs =>
    if cfgs.length = 0 then [modLine]
    else cfgs.flatMap (fun condition => [js "#[cfg(" ++ condition ++ js ")]", modLine])

/-- `lines.splice(start, count)`: remove `count` lines at `start`. -/
def spliceRemove (lines : List JStr) (start count : Nat) : List JStr :=
  lines.take start ++ lines.drop (start + count)

/-- `lines.splice(start, 0, ...newLines)`: insert lines at `start`. -/
def spliceInsert (lines : List JStr) (start : Nat) (newLines : List JStr) : List JStr :=
  lines.take start ++ newLines ++ lines.drop start

/-- Primary collation weight of a character, modelling the root-locale
collation used by `localeCompare` on the alphabet of extracted module names.
Those names consist only of word characters (`\w` = `[A-Za-z0-9_]`, see
`extractModuleName`), and root-locale collation orders that alphabet as
punctuation (`_`) before digits before letters, with upper- and lowercase
letters sharing one primary weight (case is decided only at the tertiary
level).  Characters outside `\w`, which no extracted name contains, are
placed after all word characters. -/
def primW (c : Char) : Nat :=
  if c.toNat = 95 then 1
  else if 48 ≤ c.toNat ∧ c.toNat ≤ 57 then 10 + (c.toNat - 48)
  else if 65 ≤ c.toNat ∧ c.toNat ≤ 90 then 100 + (c.toNat - 65)
  else if 97 ≤ c.toNat ∧ c.toNat ≤ 122 then 100 + (c.toNat - 97)
  else 1000 + c.toNat

/-- Tertiary (case) collation weight: in root-locale collation a lowercase
letter precedes its uppercase form when the primary weights tie. -/
def tertW (c : Char) : Nat :=
  if 65 ≤ c.toNat ∧ c.toNat ≤ 90 then 1 else 0

/-- Lexicographic three-way comparison of weight lists; a proper prefix
compares less, as in collation-key comparison. -/
def cmpNatList : List Nat → List Nat → Ordering
  | [], [] => .eq
  | [], _ :: _ => .lt
  | _ :: _, [] => .gt
  | x :: xs, y :: ys =>
    if x < y then .lt else if y < x then .gt else cmpNatList xs ys

/-- The model of `nameA.localeCompare(nameB) ≤ 0` (root-locale collation):
compare the full primary-weight sequences first; only on a primary tie is the
tertiary (case) sequence consulted, with lowercase before uppercase.  This is
the two-pass structure of collation — an early case difference never outranks
a later letter difference. -/
def leLex (a b : JStr) : Bool :=
  match cmpNatList (a.map primW) (b.map primW) with
  | .lt => true
  | .gt => false
  | .eq =>
    match cmpNatList (a.map tertW) (b.map tertW) with
    | .gt => false
    | _ => true

/-- The sort comparator of `sortModDeclarations`: by extracted name. -/
def declLe (a b : ModDecl) : Bool :=
  leLex (extractModuleName a.modLine) (extractModuleName b.modLine)

/-- The reverse-order removal loop of `sortModDeclarations`: splice out every
declaration block, processing the last block first so earlier indices stay
valid. -/
def removeDecls (lines : List JStr) (decls : List ModDecl) : List JStr :=
  decls.reverse.foldl
    (fun ls d => spliceRemove ls d.startIndex (d.endIndex - d.startIndex + 1)) lines

/-- Embedding of `sortModDeclarations`: no-op with fewer than two
declarations; otherwise remove all declaration blocks, sort them by extracted
name (stable), and re-insert the concatenated sorted blocks at the start
index of the first declaration in original order. -/
def sortModDeclarations (lines : List JStr) : List JStr :=
  let modDeclarations := parseModDeclarations lines
  if modDeclarations.length ≤ 1 then lines
  else
    let insertionIndex := (modDeclarations.headD ⟨[], [], [], 0, 0⟩).startIndex
    let sortedDeclarations := modDeclarations.mergeSort declLe
    let newBlockContent := (sortedDeclarations.map ModDecl.fullBlock).flatten
    spliceInsert (removeDecls lines modDeclarations) insertionIndex newBlockContent

/-- The insertion index of `addModLine`: one past the last existing
declaration block, or the computed insertion point when none exists. -/
def addInsertIndex (lines : List JStr) : Nat :=
  if parseModDeclarations lines ≠ [] then
    ((parseModDeclarations lines).getLastD ⟨[], [], [], 0, 0⟩).endIndex + 1
  else findInsertionPoint lines

/-- The separating-blank-line test of `addModLine`: the previous line exists,
is not blank and is not a `use` statement. -/
def addNeedBlank (lines : List JStr) (insertIndex : Nat) : Bool :=
  decide (0 < insertIndex) && decide (trimL (lines.getD (insertIndex - 1) []) ≠ [])
    && decide (¬ startsW (js "use ") (trimL (lines.getD (insertIndex - 1) [])))

/-- The line-array edit of `addModLine` (the non-duplicate path): insert an
optional separating blank line and then the new block lines at the insertion
index, re-sorting afterwards when the resolved configuration says so. -/
def addLines4 (rule : AutomodRule) (lines : List JStr) (newLines : List JStr) : List JStr :=
  let insertIndex := addInsertIndex lines
  let lines2 := if addNeedBlank lines insertIndex
    then spliceInsert lines insertIndex [[]] else lines
  let insertIndex2 := if addNeedBlank lines insertIndex then insertIndex + 1 else insertIndex
  let lines3 := spliceInsert lines2 insertIndex2 newLines
  if rule.sort = .alpha then sortModDeclarations lines3 else lines3

/-- Embedding of `addModLine`: no-op when a declaration with the new module's
name already exists; otherwise insert the new block after the last existing
declaration (or at the computed insertion point), preceded by a separating
blank line when needed, optionally re-sort, and preserve the trailing-newline
convention of the original content.  The resolved configuration is passed
explicitly (`getProjectConfig` reads the file system). -/
def addModLine (rule : AutomodRule) (content : JStr) (newLines : List JStr) : JStr :=
  let lines := splitRN content
  let existingMods := parseModDeclarations lines
  let modLine := (newLines.find? (fun line => hasSub (js "mod ") line)).getD []
  let newModuleName := extractModuleName modLine
  if newModuleName ≠ []
      ∧ existingMods.filter (fun m => extractModuleName m.modLine = newModuleName) ≠ [] then
    content
  else
    let result := joinNL (addLines4 rule lines newLines)
    if endsNL content then result ++ js "\n" else result

/-- `f` applied to every element but the last. -/
def mapExceptLast (f : JStr → JStr) : List JStr → List JStr
  | [] => []
  | [a] => [a]
  | a :: b :: rest => f a :: mapExceptLast f (b :: rest)

/-- Drop one trailing carriage return, the per-line effect of joining with
`\n` and re-splitting with `/\r?\n/`. -/
def dropCR1 (l : JStr) : JStr :=
  if l.getLast? = some '\r' then l.dropLast else l

/-- The indices of the declaration lines. -/
def declIdxs (lines : List JStr) : List Nat :=
  (List.range lines.length).filter (fun i => isDeclLine (lines.getD i []))

/-- The lines outside the declaration-block spans, from position `pos` on:
for each block, the gap before its span, then everything after the last
span. -/
def outsideAfter (lines : List JStr) : List ModDecl → Nat → List JStr
  | [], pos => lines.drop pos
  | d :: ds, pos => (lines.drop pos).take (d.startIndex - pos) ++ outsideAfter lines ds (d.endIndex + 1)

/-- The declaration-block spans are ordered, disjoint and well-formed. -/
def SpansOrdered (decls : List ModDecl) : Prop :=
  decls.Pairwise (fun a b => a.endIndex < b.startIndex)
    ∧ ∀ d ∈ decls, d.startIndex ≤ d.endIndex

/-- The per-block facts `parseModDeclarations` guarantees relative to its
input lines. -/
def GoodDecl (lines : List JStr) (d : ModDecl) : Prop :=
  d.startIndex ≤ d.endIndex
    ∧ d.endIndex < lines.length
    ∧ isDeclLine (lines.getD d.endIndex []) = true
    ∧ d.modLine = lines.getD d.endIndex []
    ∧ d.fullBlock = d.attributes ++ [d.modLine]
    ∧ ∀ a ∈ d.attributes, isAttrLine a = true

/-- The expected parse of a run of declaration blocks laid out consecutively
from position `p`: block `k` occupies its attribute lines followed by its
declaration line. -/
def layout : List ModDecl → Nat → List ModDecl
  | [], _ => []
  | d :: ds, p =>
    { attributes := d.attributes
      modLine := d.modLine
      fullBlock := d.fullBlock
      startIndex := p
      endIndex := p + d.attributes.length } :: layout ds (p + d.attributes.length + 1)

/-- Embedding of the current `handleFileDelete` (`automodModFile.ts`) after
the reserved-name guard and target resolution: parse the target's lines,
remove every declaration block whose extracted module name equals the deleted
file's stem (splicing the last block first), and write the joined result back,
re-appending a trailing newline when the original content had one; when no
declaration matches, nothing is written.  This handler only ever writes — it
never deletes the target file itself. -/
def handleFileDeleteCurrent (content targetModuleName : JStr) : Option FileAction :=
  let lines := splitRN content
  let modDeclarations := parseModDeclarations lines
  let modsToRemove := modDeclarations.filter
    (fun m => extractModuleName m.modLine = targetModuleName)
  if modsToRemove ≠ [] then
    let newContent := joinNL (removeDecls lines modsToRemove)
    some (.write (if endsNL content then newContent ++ js "\n" else newContent))
  else none

end RustAutomod

namespace RustAutomod

/-! ## Lemmas and theorems -/

theorem getProjectConfigGo_eq_chain (fscfg : JStr → Option JStr) (filePath : JStr) :
    ∀ fuel dir, getProjectConfigGo fscfg filePath fuel dir =
      ((ancestorsFrom fuel dir).findSome? (configYield fscfg filePath)).getD vscodeDefaultRule := by
  intro fuel
  induction fuel with
  | zero => intro dir; rfl
  | succ n ih =>
    intro dir
    by_cases h : dir = dirnameL dir
    · simp only [getProjectConfigGo, ancestorsFrom, if_pos h, List.findSome?_nil]
      rfl
    · simp only [getProjectConfigGo, ancestorsFrom, if_neg h, List.findSome?_cons]
      cases hf : fscfg (joinPath dir (js ".rautomod")) with
      | none =>
        have hcy : configYield fscfg filePath dir = none := by
          simp only [configYield, hf, Option.none_bind]
        simp [hcy, ih]
      | some content =>
        cases hr : findConfigForFile (parseRautomod content) filePath with
        | none =>
          have hcy : configYield fscfg filePath dir = none := by
            simp only [configYield, hf, Option.some_bind, hr]
          simp [hcy, hr, ih]
        | some r =>
          have hcy : configYield fscfg filePath dir = some r := by
            simp only [configYield, hf, Option.some_bind, hr]
          simp [hcy, hr]

/-- C3: the claim asserts that resolution stops at the first ancestor
directory containing a configuration file and falls back to the process-wide
defaults when that file yields no applicable rule.  Counterexample: for
`/p/c/f.rs` the nearest ancestor `/p/c` has a configuration file whose only
rule carries a non-matching pattern (so it yields no applicable rule), yet
resolution does not fall through to the defaults — it continues upward and
returns the private rule of `/p/.rautomod`. -/
theorem automod_C3_counterexample :
    fscfgC3 (joinPath (js "/p/c") (js ".rautomod")) ≠ Option.none
    ∧ findConfigForFile (parseRautomod (js "pattern=zzz\nvisibility=private"))
        (js "/p/c/f.rs") = Option.none
    ∧ dirnameL (js "/p/c/f.rs") = js "/p/c"
    ∧ getProjectConfig fscfgC3 (js "/p/c/f.rs") ≠ vscodeDefaultRule := by
  refine ⟨by decide, by decide, by decide, by decide⟩

/-- C3 (amended): `getProjectConfig` evaluates the ancestor directories
nearest-first and returns the rule of the first ancestor whose configuration
file yields an applicable rule (first pattern match in file order, else the
first pattern-less rule); a configuration file that yields no applicable rule
does not stop the walk; only when no ancestor yields a rule does resolution
fall through to the process-wide defaults `visibility=pub`, `sort=none`,
`fmt=disabled`. -/
theorem automod_C3_theorem (fscfg : JStr → Option JStr) (filePath : JStr) :
    getProjectConfig fscfg filePath = resolveViaChain fscfg filePath :=
  getProjectConfigGo_eq_chain fscfg filePath (filePath.length + 2) (dirnameL filePath)

theorem smartSplitStep_keep (parts : List JStr) (cur : JStr) (depth : Int) (c : Char)
    (h1 : c ≠ '(') (h2 : c ≠ ')') (h3 : c = ',' → depth ≠ 0) :
    smartSplitStep (parts, cur, depth) c = (parts, cur ++ [c], depth) := by
  unfold smartSplitStep
  simp only [if_neg h1, if_neg h2]
  have hnz : ¬(c = ',' ∧ depth = 0) := by
    rintro ⟨hcm, h0⟩; exact h3 hcm h0
  simp only [if_neg hnz]

theorem smartSplitCfg_go_ge_one (cs : JStr) : ∀ parts cur depth, 1 ≤ depth →
    (∀ c ∈ cs, c ≠ '(' ∧ c ≠ ')') →
    cs.foldl smartSplitStep (parts, cur, depth) = (parts, cur ++ cs, depth) := by
  induction cs with
  | nil => intro parts cur depth _ _; simp
  | cons c cs ih =>
    intro parts cur depth hd hc
    obtain ⟨h1, h2⟩ := hc c (List.mem_cons_self c cs)
    have hrest : ∀ x ∈ cs, x ≠ '(' ∧ x ≠ ')' := fun x hx => hc x (List.mem_cons_of_mem c hx)
    rw [List.foldl_cons, smartSplitStep_keep parts cur depth c h1 h2 (fun _ => by omega)]
    rw [ih parts (cur ++ [c]) depth hd hrest]
    simp

theorem smartSplitCfg_go_zero (cs : JStr) : ∀ parts cur,
    (∀ c ∈ cs, c ≠ '(' ∧ c ≠ ')' ∧ c ≠ ',') →
    cs.foldl smartSplitStep (parts, cur, 0) = (parts, cur ++ cs, 0) := by
  induction cs with
  | nil => intro parts cur _; simp
  | cons c cs ih =>
    intro parts cur hc
    obtain ⟨h1, h2, h3⟩ := hc c (List.mem_cons_self c cs)
    have hrest : ∀ x ∈ cs, x ≠ '(' ∧ x ≠ ')' ∧ x ≠ ',' :=
      fun x hx => hc x (List.mem_cons_of_mem c hx)
    rw [List.foldl_cons, smartSplitStep_keep parts cur 0 c h1 h2 (fun hcm => absurd hcm h3)]
    rw [ih parts (cur ++ [c]) hrest]
    simp

/-- C9: `parseRules` splits the `cfg` value in a parenthesis-aware way: on the
concrete input the two conditions survive with the internal comma of the
second retained; empty split segments are always dropped; and in general a
comma nested inside a balanced parenthesis group never splits the value. -/
theorem automod_C9_theorem :
    smartSplitCfg (js "feature=\"x\",all(unix, width=\"64\")")
      = [js "feature=\"x\"", js "all(unix, width=\"64\")"]
    ∧ (∀ value : JStr, [] ∉ smartSplitCfg value)
    ∧ (∀ u v w : JStr,
        (∀ c ∈ u, c ≠ '(' ∧ c ≠ ')' ∧ c ≠ ',') →
        (∀ c ∈ v, c ≠ '(' ∧ c ≠ ')') →
        (∀ c ∈ w, c ≠ '(' ∧ c ≠ ')' ∧ c ≠ ',') →
        smartSplitCfg (u ++ '(' :: v ++ ')' :: w)
          = ([trimL (u ++ '(' :: v ++ ')' :: w)]).filter (fun p => p ≠ [])) := by
  refine ⟨by decide, ?_, ?_⟩
  · intro value hmem
    have h2 := (List.mem_filter.mp hmem).2
    simp at h2
  · intro u v w hu hv hw
    have hopen : smartSplitStep ([], u, 0) '(' = ([], u ++ ['('], 1) := by
      simp [smartSplitStep]
    have hclose : smartSplitStep ([], (u ++ ['(']) ++ v, 1) ')'
        = ([], ((u ++ ['(']) ++ v) ++ [')'], 0) := by
      simp [smartSplitStep]
    have e1 : List.foldl smartSplitStep ([], [], 0) u = ([], u, 0) := by
      simpa using smartSplitCfg_go_zero u [] [] hu
    have e2 : List.foldl smartSplitStep ([], [], 0) (u ++ '(' :: v)
        = ([], (u ++ ['(']) ++ v, 1) := by
      rw [List.foldl_append, e1, List.foldl_cons, hopen]
      exact smartSplitCfg_go_ge_one v [] (u ++ ['(']) 1 (by omega) hv
    have e3 : List.foldl smartSplitStep ([], [], 0) ((u ++ '(' :: v) ++ ')' :: w)
        = ([], (((u ++ ['(']) ++ v) ++ [')']) ++ w, 0) := by
      rw [List.foldl_append, e2, List.foldl_cons, hclose]
      exact smartSplitCfg_go_zero w [] (((u ++ ['(']) ++ v) ++ [')']) hw
    simp only [smartSplitCfg]
    rw [e3]
    simp

/-- Witness for C9: instantiating the parenthesis-awareness part at a value
whose only comma lies inside the parenthesis group yields a single condition. -/
theorem automod_C9_witness :
    smartSplitCfg (js "a" ++ '(' :: js "x,y" ++ ')' :: js "b")
      = ([trimL (js "a" ++ '(' :: js "x,y" ++ ')' :: js "b")]).filter (fun p => p ≠ []) :=
  automod_C9_theorem.2.2 (js "a") (js "x,y") (js "b") (by decide) (by decide) (by decide)

/-- C5: in the event coalescer, a create event for a path in `pendingDeleted`
only removes the path from `pendingDeleted` and schedules nothing; a delete
event for a path in `pendingCreated` only removes it from `pendingCreated`
and schedules nothing; and create followed by delete of the same path from
the idle state returns to the idle state, so the flush produces zero
create/delete/rename intents. -/
theorem automod_C5_theorem :
    (∀ (s : CoState) (p : JStr) (now : Int), p ∈ s.pendingDeleted →
      onDidCreate s p now = ({ s with pendingDeleted := s.pendingDeleted.erase p }, false))
    ∧ (∀ (s : CoState) (p : JStr) (now : Int), p ∈ s.pendingCreated →
      onDidDelete s p now = ({ s with pendingCreated := s.pendingCreated.erase p }, false, false))
    ∧ (∀ (p : JStr) (now1 now2 : Int),
        (onDidDelete (onDidCreate emptyCoState p now1).1 p now2).1 = emptyCoState
        ∧ (onDidDelete (onDidCreate emptyCoState p now1).1 p now2).2.1 = false
        ∧ (onDidDelete (onDidCreate emptyCoState p now1).1 p now2).2.2 = false
        ∧ flushIntents (onDidDelete (onDidCreate emptyCoState p now1).1 p now2).1
            = ([], [], [])) := by
  refine ⟨?_, ?_, ?_⟩
  · intro s p now h
    simp [onDidCreate, h]
  · intro s p now h
    simp [onDidDelete, h]
  · intro p now1 now2
    have h1 : onDidCreate emptyCoState p now1
        = ({ emptyCoState with pendingCreated := [p] }, true) := by
      simp [onDidCreate, emptyCoState, scanRecent, setAdd]
    rw [h1]
    simp [onDidDelete, emptyCoState, flushIntents]

/-- Witness for C5: the create-cancels-pending-delete branch at a concrete
state, and the create/delete round trip at a concrete path. -/
theorem automod_C5_witness :
    (onDidCreate { pendingDeleted := [js "/d/a.rs"] } (js "/d/a.rs") 0).2 = false
    ∧ (onDidDelete (onDidCreate emptyCoState (js "/d/a.rs") 0).1 (js "/d/a.rs") 10).1
        = emptyCoState := by
  constructor
  · rw [automod_C5_theorem.1 { pendingDeleted := [js "/d/a.rs"] } (js "/d/a.rs") 0 (by decide)]
  · exact (automod_C5_theorem.2.2 (js "/d/a.rs") 0 10).1

/-- C10: while a rename `old → new` is pending, a duplicate create event for
`new` and a duplicate delete event for `old` add nothing to
`pendingCreated`, `pendingDeleted` or `recentDeletes` and schedule no flush
and arm no timer, so a detected rename never additionally produces a create
or delete intent for its two paths in the same batch. -/
theorem automod_C10_theorem (s : CoState) (pold pnew : JStr) (now : Int)
    (h : (pold, pnew) ∈ s.pendingRenames) :
    ((onDidCreate s pnew now).1.pendingCreated = s.pendingCreated
      ∧ (onDidCreate s pnew now).1.recentDeletes = s.recentDeletes
      ∧ (onDidCreate s pnew now).1.pendingRenames = s.pendingRenames
      ∧ (onDidCreate s pnew now).1.pendingDeleted.Sublist s.pendingDeleted
      ∧ (onDidCreate s pnew now).2 = false)
    ∧ ((onDidDelete s pold now).1.pendingDeleted = s.pendingDeleted
      ∧ (onDidDelete s pold now).1.recentDeletes = s.recentDeletes
      ∧ (onDidDelete s pold now).1.pendingRenames = s.pendingRenames
      ∧ (onDidDelete s pold now).1.pendingCreated.Sublist s.pendingCreated
      ∧ (onDidDelete s pold now).2.1 = false
      ∧ (onDidDelete s pold now).2.2 = false) := by
  have hv : pnew ∈ s.pendingRenames.map Prod.snd := by
    exact List.mem_map_of_mem Prod.snd h
  have hk : pold ∈ s.pendingRenames.map Prod.fst := by
    exact List.mem_map_of_mem Prod.fst h
  constructor
  · by_cases hd : pnew ∈ s.pendingDeleted
    · refine ⟨?_, ?_, ?_, ?_, ?_⟩ <;> simp [onDidCreate, hd]
      exact List.erase_sublist _ _
    · refine ⟨?_, ?_, ?_, ?_, ?_⟩ <;> simp [onDidCreate, hd, hv]
  · by_cases hc : pold ∈ s.pendingCreated
    · refine ⟨?_, ?_, ?_, ?_, ?_, ?_⟩ <;> simp [onDidDelete, hc]
      exact List.erase_sublist _ _
    · refine ⟨?_, ?_, ?_, ?_, ?_, ?_⟩ <;> simp [onDidDelete, hc, hk]

/-- Witness for C10: a concrete state with one pending rename; the duplicate
create and delete are both fully ignored. -/
theorem automod_C10_witness :
    (onDidCreate { pendingRenames := [(js "/d/old.rs", js "/d/new.rs")] } (js "/d/new.rs") 7).2
        = false
    ∧ (onDidDelete { pendingRenames := [(js "/d/old.rs", js "/d/new.rs")] } (js "/d/old.rs") 7).2.1
        = false := by
  constructor
  · exact (automod_C10_theorem { pendingRenames := [(js "/d/old.rs", js "/d/new.rs")] }
      (js "/d/old.rs") (js "/d/new.rs") 7 (by decide)).1.2.2.2.2
  · exact (automod_C10_theorem { pendingRenames := [(js "/d/old.rs", js "/d/new.rs")] }
      (js "/d/old.rs") (js "/d/new.rs") 7 (by decide)).2.2.2.2.2.1

theorem scanStep_expired (now : Int) (dir fn : JStr)
    (acc : List (JStr × RDInfo) × Option JStr × ℚ) (e : JStr × RDInfo)
    (h : renameDetectionWindow ≤ now - e.2.timestamp) :
    scanStep now dir fn acc e = acc := by
  simp [scanStep, h]

theorem scanStep_skip (now : Int) (dir fn : JStr)
    (acc : List (JStr × RDInfo) × Option JStr × ℚ) (e : JStr × RDInfo)
    (h : ¬ renameDetectionWindow ≤ now - e.2.timestamp)
    (h2 : dirnameL e.1 ≠ dir ∨ ¬ endsW (js ".rs") e.1) :
    scanStep now dir fn acc e = (acc.1 ++ [e], acc.2) := by
  rcases h2 with h2 | h2 <;> simp [scanStep, h, h2]

theorem scanStep_app (now : Int) (dir fn : JStr)
    (acc : List (JStr × RDInfo) × Option JStr × ℚ) (e : JStr × RDInfo)
    (h : ¬ renameDetectionWindow ≤ now - e.2.timestamp)
    (h2 : dirnameL e.1 = dir) (h3 : endsW (js ".rs") e.1 = true) :
    scanStep now dir fn acc e = (acc.1 ++ [e], bestStep now fn acc.2 e) := by
  by_cases hb : acc.2.2 < candScore e.2 now fn <;>
    simp [scanStep, bestStep, h, h2, h3, hb]

theorem scanRecent_go (now : Int) (dir fn : JStr) :
    ∀ (entries : List (JStr × RDInfo)) (kept : List (JStr × RDInfo))
      (bmsc : Option JStr × ℚ),
      entries.foldl (scanStep now dir fn) (kept, bmsc)
        = (kept ++ entries.filter (fun e => now - e.2.timestamp < renameDetectionWindow),
           (entries.filter (fun e => applicableCand e now dir)).foldl (bestStep now fn) bmsc) := by
  intro entries
  induction entries with
  | nil => intro kept bmsc; simp
  | cons e es ih =>
    intro kept bmsc
    by_cases hexp : renameDetectionWindow ≤ now - e.2.timestamp
    · have hu : ¬ (now - e.2.timestamp < renameDetectionWindow) := by omega
      have ha : applicableCand e now dir = false := by
        simp [applicableCand]
        intro hlt
        omega
      rw [List.foldl_cons, scanStep_expired now dir fn (kept, bmsc) e hexp, ih]
      simp [hu, ha]
    · have hu : now - e.2.timestamp < renameDetectionWindow := by omega
      by_cases hd : dirnameL e.1 = dir
      · by_cases hrs : endsW (js ".rs") e.1 = true
        · have ha : applicableCand e now dir = true := by
            simp [applicableCand, hu, hd, hrs]
          rw [List.foldl_cons, scanStep_app now dir fn (kept, bmsc) e hexp hd hrs,
            ih (kept ++ [e]) (bestStep now fn bmsc e)]
          simp [hu, ha]
        · have ha : applicableCand e now dir = false := by
            simp [applicableCand, hrs]
          rw [List.foldl_cons,
            scanStep_skip now dir fn (kept, bmsc) e hexp (Or.inr (by simpa using hrs)),
            ih (kept ++ [e]) bmsc]
          simp [hu, ha]
      · have ha : applicableCand e now dir = false := by
          simp [applicableCand, hd]
        rw [List.foldl_cons, scanStep_skip now dir fn (kept, bmsc) e hexp (Or.inl hd),
          ih (kept ++ [e]) bmsc]
        simp [hu, ha]

theorem scanRecent_spec (entries : List (JStr × RDInfo)) (now : Int) (dir fn : JStr) :
    scanRecent entries now dir fn
      = (entries.filter (fun e => now - e.2.timestamp < renameDetectionWindow),
         bestOf (entries.filter (fun e => applicableCand e now dir)) now fn) := by
  unfold scanRecent bestOf
  rw [scanRecent_go]
  simp

theorem foldl_bestStep_char (now : Int) (fn : JStr) :
    ∀ (es : List (JStr × RDInfo)) (acc : Option JStr × ℚ),
      (es.foldl (bestStep now fn) acc = acc ∧ ∀ x ∈ es, candScore x.2 now fn ≤ acc.2)
      ∨ (∃ pre e post, es = pre ++ e :: post
          ∧ acc.2 < candScore e.2 now fn
          ∧ (∀ x ∈ pre, candScore x.2 now fn < candScore e.2 now fn)
          ∧ (∀ x ∈ post, candScore x.2 now fn ≤ candScore e.2 now fn)
          ∧ es.foldl (bestStep now fn) acc = (some e.1, candScore e.2 now fn)) := by
  intro es
  induction es with
  | nil => intro acc; left; exact ⟨rfl, by simp⟩
  | cons e0 es ih =>
    intro acc
    by_cases h0 : acc.2 < candScore e0.2 now fn
    · have hstep : bestStep now fn acc e0 = (some e0.1, candScore e0.2 now fn) := by
        simp [bestStep, h0]
      rcases ih (some e0.1, candScore e0.2 now fn) with ⟨heq, hall⟩ |
        ⟨pre, e, post, hsplit, hlt, hpre, hpost, heq⟩
      · right
        refine ⟨[], e0, es, by simp, h0, by simp, ?_, ?_⟩
        · intro x hx
          simpa using hall x hx
        · rw [List.foldl_cons, hstep, heq]
      · right
        refine ⟨e0 :: pre, e, post, by simp [hsplit], ?_, ?_, hpost, ?_⟩
        · calc acc.2 < candScore e0.2 now fn := h0
            _ < candScore e.2 now fn := by simpa using hlt
        · intro x hx
          rcases List.mem_cons.mp hx with hx | hx
          · subst hx; simpa using hlt
          · exact hpre x hx
        · rw [List.foldl_cons, hstep, heq]
    · have hstep : bestStep now fn acc e0 = acc := by
        simp [bestStep, h0]
      rcases ih acc with ⟨heq, hall⟩ | ⟨pre, e, post, hsplit, hlt, hpre, hpost, heq⟩
      · left
        constructor
        · rw [List.foldl_cons, hstep, heq]
        · intro x hx
          rcases List.mem_cons.mp hx with hx | hx
          · subst hx; exact le_of_not_lt h0
          · exact hall x hx
      · right
        refine ⟨e0 :: pre, e, post, by simp [hsplit], hlt, ?_, hpost,
          by rw [List.foldl_cons, hstep, heq]⟩
        intro x hx
        rcases List.mem_cons.mp hx with hx | hx
        · subst hx
          exact lt_of_le_of_lt (le_of_not_lt h0) hlt
        · exact hpre x hx

theorem candScore_pos (e : JStr × RDInfo) (now : Int) (dir fn : JStr)
    (h : applicableCand e now dir = true) : 0 < candScore e.2 now fn := by
  have h' : now - e.2.timestamp < renameDetectionWindow
      ∧ dirnameL e.1 = dir ∧ endsW (js ".rs") e.1 = true := by
    simpa [applicableCand] using h
  have hlt : now - e.2.timestamp < renameDetectionWindow := h'.1
  unfold candScore
  have hw : ((renameDetectionWindow : Int) : ℚ) = 300 := by
    norm_num [renameDetectionWindow]
  have htd : ((now - e.2.timestamp : Int) : ℚ) < 300 := by
    have : (now - e.2.timestamp : Int) < 300 := by
      simpa [renameDetectionWindow] using hlt
    exact_mod_cast this
  have hdiv : ((now - e.2.timestamp : Int) : ℚ) / ((renameDetectionWindow : Int) : ℚ) < 1 := by
    rw [hw, div_lt_one (by norm_num)]
    exact htd
  have hns : (0 : ℚ) ≤ (commonPrefixLen e.2.fileName fn : ℚ) * 10 := by positivity
  simp only []
  nlinarith

/-- C6: the claim asserts that an exact-stem match is forced to the maximum
score and short-circuits the candidate search.  Counterexample: the first
candidate of `stateC6` was deleted earlier and has exactly the stem `ab` of
the created file `/d/ab.rs`, yet the handler records the more recently
deleted `/d/abc.rs` (same prefix length, higher time score) as the rename
partner — no forcing and no short-circuit happens. -/
theorem automod_C6_counterexample :
    (stateC6.recentDeletes.map Prod.fst).head? = some (js "/d/ab.rs")
    ∧ (stateC6.recentDeletes.map (fun e => e.2.fileName)).head? = some (js "ab")
    ∧ basenameExtL (js "/d/ab.rs") (js ".rs") = js "ab"
    ∧ (onDidCreate stateC6 (js "/d/ab.rs") 200).1.pendingRenames
        = [(js "/d/abc.rs", js "/d/ab.rs")]
    ∧ js "/d/abc.rs" ≠ js "/d/ab.rs" := by
  have hs1 : candScore ⟨0, js "ab"⟩ 200 (js "ab") = 61 / 3 := by
    unfold candScore
    rw [show commonPrefixLen (RDInfo.mk 0 (js "ab")).fileName (js "ab") = 2 from by decide]
    norm_num [renameDetectionWindow]
  have hs2 : candScore ⟨100, js "abc"⟩ 200 (js "ab") = 62 / 3 := by
    unfold candScore
    rw [show commonPrefixLen (RDInfo.mk 100 (js "abc")).fileName (js "ab") = 2 from by decide]
    norm_num [renameDetectionWindow]
  have hb1 : bestStep 200 (js "ab") (none, (-1 : ℚ)) (js "/d/ab.rs", ⟨0, js "ab"⟩)
      = (some (js "/d/ab.rs"), 61 / 3) := by
    rw [bestStep, hs1]
    norm_num
  have hb2 : bestStep 200 (js "ab") (some (js "/d/ab.rs"), 61 / 3) (js "/d/abc.rs", ⟨100, js "abc"⟩)
      = (some (js "/d/abc.rs"), 62 / 3) := by
    rw [bestStep, hs2]
    norm_num
  have hbo : bestOf stateC6.recentDeletes 200 (js "ab") = (some (js "/d/abc.rs"), 62 / 3) := by
    show List.foldl _ _ _ = _
    rw [show stateC6.recentDeletes
        = [(js "/d/ab.rs", ⟨0, js "ab"⟩), (js "/d/abc.rs", ⟨100, js "abc"⟩)] from rfl]
    rw [List.foldl_cons, hb1, List.foldl_cons, hb2, List.foldl_nil]
  have happ : stateC6.recentDeletes.filter
      (fun e => applicableCand e 200 (dirnameL (js "/d/ab.rs"))) = stateC6.recentDeletes := by
    decide
  have hkeep : stateC6.recentDeletes.filter
      (fun e => 200 - e.2.timestamp < renameDetectionWindow) = stateC6.recentDeletes := by
    decide
  have hscan : scanRecent stateC6.recentDeletes 200 (dirnameL (js "/d/ab.rs"))
      (basenameExtL (js "/d/ab.rs") (js ".rs"))
      = (stateC6.recentDeletes, some (js "/d/abc.rs"), 62 / 3) := by
    rw [scanRecent_spec, happ, hkeep]
    rw [show basenameExtL (js "/d/ab.rs") (js ".rs") = js "ab" from by decide]
    rw [hbo]
  refine ⟨by decide, by decide, by decide, ?_, by decide⟩
  rw [onDidCreate]
  rw [if_neg (by decide : ¬ (js "/d/ab.rs") ∈ stateC6.pendingDeleted)]
  rw [if_neg (by decide : ¬ (js "/d/ab.rs") ∈ stateC6.pendingRenames.map Prod.snd)]
  simp only [hscan]
  rw [if_pos (by norm_num : (0 : ℚ) < 62 / 3)]
  decide

/-- C6 (amended): every unexpired same-directory `.rs` candidate in
`recentDeletes` is scored `10 × (common-prefix length of the stems) +
(1 − elapsed fraction of the window)`; there is no exact-stem forcing or
short-circuit — the strictly highest-scoring candidate wins, with the
earliest-iterated candidate winning ties; every applicable candidate has a
positive score, so whenever one exists the best one is recorded as a pending
rename old→new and removed from `recentDeletes` (with expired entries
pruned), and otherwise the path is added to `pendingCreated`. -/
theorem automod_C6_theorem (s : CoState) (p : JStr) (now : Int)
    (hd : p ∉ s.pendingDeleted) (hr : p ∉ s.pendingRenames.map Prod.snd) :
    (s.recentDeletes.filter (fun e => applicableCand e now (dirnameL p)) = [] →
      onDidCreate s p now
        = ({ s with pendingCreated := setAdd s.pendingCreated p,
                    recentDeletes := s.recentDeletes.filter
                      (fun e => now - e.2.timestamp < renameDetectionWindow) }, true))
    ∧ (s.recentDeletes.filter (fun e => applicableCand e now (dirnameL p)) ≠ [] →
      ∃ pre e post,
        s.recentDeletes.filter (fun x => applicableCand x now (dirnameL p))
            = pre ++ e :: post
        ∧ 0 < candScore e.2 now (basenameExtL p (js ".rs"))
        ∧ (∀ x ∈ pre, candScore x.2 now (basenameExtL p (js ".rs"))
            < candScore e.2 now (basenameExtL p (js ".rs")))
        ∧ (∀ x ∈ post, candScore x.2 now (basenameExtL p (js ".rs"))
            ≤ candScore e.2 now (basenameExtL p (js ".rs")))
        ∧ onDidCreate s p now
          = ({ s with pendingRenames := mapSet s.pendingRenames e.1 p,
                      recentDeletes := mapDelete (s.recentDeletes.filter
                        (fun x => now - x.2.timestamp < renameDetectionWindow)) e.1 }, true)) := by
  constructor
  · intro happ
    rw [onDidCreate, if_neg hd, if_neg hr]
    simp only [scanRecent_spec, happ]
    rw [show bestOf [] now (basenameExtL p (js ".rs")) = (none, (-1 : ℚ)) from rfl]
  · intro happ
    rcases foldl_bestStep_char now (basenameExtL p (js ".rs"))
        (s.recentDeletes.filter (fun x => applicableCand x now (dirnameL p)))
        (none, (-1 : ℚ)) with ⟨heq, hall⟩ | ⟨pre, e, post, hsplit, hlt, hpre, hpost, heq⟩
    · exfalso
      rcases List.exists_mem_of_ne_nil _ happ with ⟨x, hx⟩
      have hxapp : applicableCand x now (dirnameL p) = true := (List.mem_filter.mp hx).2
      have := candScore_pos x now (dirnameL p) (basenameExtL p (js ".rs")) hxapp
      have := hall x hx
      simp only [] at this
      linarith
    · have hemem : e ∈ s.recentDeletes.filter (fun x => applicableCand x now (dirnameL p)) := by
        rw [hsplit]
        exact List.mem_append_right pre (List.mem_cons_self e post)
      have heapp : applicableCand e now (dirnameL p) = true := (List.mem_filter.mp hemem).2
      have hpos := candScore_pos e now (dirnameL p) (basenameExtL p (js ".rs")) heapp
      refine ⟨pre, e, post, hsplit, hpos, hpre, hpost, ?_⟩
      rw [onDidCreate, if_neg hd, if_neg hr]
      simp only [scanRecent_spec]
      rw [show bestOf (s.recentDeletes.filter (fun x => applicableCand x now (dirnameL p)))
          now (basenameExtL p (js ".rs")) = (some e.1, candScore e.2 now (basenameExtL p (js ".rs")))
          from heq]
      simp [hpos]

/-- Witness for C6 (amended): with no recent deletes at all, a create is
treated as a plain new file. -/
theorem automod_C6_witness :
    onDidCreate emptyCoState (js "/d/a.rs") 0
      = ({ emptyCoState with
            pendingCreated := setAdd emptyCoState.pendingCreated (js "/d/a.rs"),
            recentDeletes := emptyCoState.recentDeletes.filter
              (fun e => 0 - e.2.timestamp < renameDetectionWindow) }, true) :=
  (automod_C6_theorem emptyCoState (js "/d/a.rs") 0 (by decide) (by decide)).1 (by decide)

theorem c8_score_a : candScore ⟨0, js "a"⟩ 100 (js "x") = 2 / 3 := by
  unfold candScore
  rw [show commonPrefixLen (RDInfo.mk 0 (js "a")).fileName (js "x") = 0 from by decide]
  norm_num [renameDetectionWindow]

theorem c8_score_b : candScore ⟨10, js "b"⟩ 100 (js "x") = 7 / 10 := by
  unfold candScore
  rw [show commonPrefixLen (RDInfo.mk 10 (js "b")).fileName (js "x") = 0 from by decide]
  norm_num [renameDetectionWindow]

theorem c8_score_c : candScore ⟨20, js "c"⟩ 100 (js "x") = 11 / 15 := by
  unfold candScore
  rw [show commonPrefixLen (RDInfo.mk 20 (js "c")).fileName (js "x") = 0 from by decide]
  norm_num [renameDetectionWindow]

theorem c8s4_eq : c8s4 =
    { pendingRenames := [(js "/d/c.rs", js "/d/x.rs")],
      recentDeletes := [(js "/d/a.rs", ⟨0, js "a"⟩), (js "/d/b.rs", ⟨10, js "b"⟩)] } := by
  have h3 : c8s3.recentDeletes
      = [(js "/d/a.rs", ⟨0, js "a"⟩), (js "/d/b.rs", ⟨10, js "b"⟩),
         (js "/d/c.rs", ⟨20, js "c"⟩)] := by decide
  have hbo : bestOf c8s3.recentDeletes 100 (js "x") = (some (js "/d/c.rs"), 11 / 15) := by
    show List.foldl _ _ _ = _
    rw [h3, List.foldl_cons,
      show bestStep 100 (js "x") (none, (-1 : ℚ)) (js "/d/a.rs", ⟨0, js "a"⟩)
        = (some (js "/d/a.rs"), 2 / 3) from by rw [bestStep, c8_score_a]; norm_num]
    rw [List.foldl_cons,
      show bestStep 100 (js "x") (some (js "/d/a.rs"), 2 / 3) (js "/d/b.rs", ⟨10, js "b"⟩)
        = (some (js "/d/b.rs"), 7 / 10) from by rw [bestStep, c8_score_b]; norm_num]
    rw [List.foldl_cons,
      show bestStep 100 (js "x") (some (js "/d/b.rs"), 7 / 10) (js "/d/c.rs", ⟨20, js "c"⟩)
        = (some (js "/d/c.rs"), 11 / 15) from by rw [bestStep, c8_score_c]; norm_num]
    rw [List.foldl_nil]
  have hscan : scanRecent c8s3.recentDeletes 100 (dirnameL (js "/d/x.rs"))
      (basenameExtL (js "/d/x.rs") (js ".rs"))
      = (c8s3.recentDeletes, some (js "/d/c.rs"), 11 / 15) := by
    rw [scanRecent_spec]
    rw [show c8s3.recentDeletes.filter
        (fun e => applicableCand e 100 (dirnameL (js "/d/x.rs"))) = c8s3.recentDeletes
      from by decide]
    rw [show c8s3.recentDeletes.filter
        (fun e => 100 - e.2.timestamp < renameDetectionWindow) = c8s3.recentDeletes
      from by decide]
    rw [show basenameExtL (js "/d/x.rs") (js ".rs") = js "x" from by decide]
    rw [hbo]
  show (onDidCreate c8s3 (js "/d/x.rs") 100).1 = _
  rw [onDidCreate]
  rw [if_neg (by decide : ¬ (js "/d/x.rs") ∈ c8s3.pendingDeleted)]
  rw [if_neg (by decide : ¬ (js "/d/x.rs") ∈ c8s3.pendingRenames.map Prod.snd)]
  simp only [hscan]
  rw [if_pos (by norm_num : (0 : ℚ) < 11 / 15)]
  decide

/-- C8: the claim asserts that when three deletes in one directory are
followed by one create whose stem overlaps none of them, the
iteration-order-first candidate is the one consumed as rename partner.
Counterexample: the candidates are iterated in insertion order
`/d/a.rs, /d/b.rs, /d/c.rs`, none shares a stem prefix with `x`, yet the
consumed candidate is `/d/c.rs` — the most recently deleted one, whose time
score is highest — and not the iteration-order-first `/d/a.rs`. -/
theorem automod_C8_counterexample :
    c8s3.recentDeletes.map Prod.fst = [js "/d/a.rs", js "/d/b.rs", js "/d/c.rs"]
    ∧ commonPrefixLen (js "a") (js "x") = 0
    ∧ commonPrefixLen (js "b") (js "x") = 0
    ∧ commonPrefixLen (js "c") (js "x") = 0
    ∧ c8s4.pendingRenames = [(js "/d/c.rs", js "/d/x.rs")]
    ∧ js "/d/c.rs" ≠ js "/d/a.rs" := by
  refine ⟨by decide, by decide, by decide, by decide, ?_, by decide⟩
  rw [c8s4_eq]

/-- C8 (amended): in the three-deletes/one-create scenario with no stem
overlap, exactly one candidate is consumed as the rename partner — the
highest-scoring one, which is the most recently deleted candidate (the
candidate scores increase strictly with recency; the iteration-order-first
candidate would win only on equal scores) — and the other two deletes remain
pending and are promoted to real deletions when their detection-window
timers fire, while the already-consumed candidate's timer is a no-op. -/
theorem automod_C8_theorem :
    candScore ⟨0, js "a"⟩ 100 (js "x") < candScore ⟨10, js "b"⟩ 100 (js "x")
    ∧ candScore ⟨10, js "b"⟩ 100 (js "x") < candScore ⟨20, js "c"⟩ 100 (js "x")
    ∧ c8s4.pendingRenames = [(js "/d/c.rs", js "/d/x.rs")]
    ∧ c8s4.recentDeletes.map Prod.fst = [js "/d/a.rs", js "/d/b.rs"]
    ∧ c8s4.pendingCreated = [] ∧ c8s4.pendingDeleted = []
    ∧ (promoteDelete c8s4 (js "/d/a.rs")).2 = true
    ∧ (promoteDelete c8s5 (js "/d/b.rs")).2 = true
    ∧ promoteDelete c8s6 (js "/d/c.rs") = (c8s6, false)
    ∧ flushIntents c8s6
        = ([], [js "/d/a.rs", js "/d/b.rs"], [(js "/d/c.rs", js "/d/x.rs")]) := by
  have h4 := c8s4_eq
  have h5 : c8s5 =
      { pendingDeleted := [js "/d/a.rs"],
        pendingRenames := [(js "/d/c.rs", js "/d/x.rs")],
        recentDeletes := [(js "/d/b.rs", ⟨10, js "b"⟩)] } := by
    show (promoteDelete c8s4 (js "/d/a.rs")).1 = _
    rw [h4]
    decide
  have h6 : c8s6 =
      { pendingDeleted := [js "/d/a.rs", js "/d/b.rs"],
        pendingRenames := [(js "/d/c.rs", js "/d/x.rs")] } := by
    show (promoteDelete c8s5 (js "/d/b.rs")).1 = _
    rw [h5]
    decide
  refine ⟨?_, ?_, ?_, ?_, ?_, ?_, ?_, ?_, ?_, ?_⟩
  · rw [c8_score_a, c8_score_b]; norm_num
  · rw [c8_score_b, c8_score_c]; norm_num
  · rw [h4]
  · rw [h4]; decide
  · rw [h4]
  · rw [h4]
  · rw [show promoteDelete c8s4 (js "/d/a.rs")
      = ({ pendingDeleted := [js "/d/a.rs"],
           pendingRenames := [(js "/d/c.rs", js "/d/x.rs")],
           recentDeletes := [(js "/d/b.rs", ⟨10, js "b"⟩)] }, true) from by rw [h4]; decide]
  · rw [show promoteDelete c8s5 (js "/d/b.rs")
      = ({ pendingDeleted := [js "/d/a.rs", js "/d/b.rs"],
           pendingRenames := [(js "/d/c.rs", js "/d/x.rs")] }, true) from by rw [h5]; decide]
  · rw [h6]; decide
  · rw [h6]; decide

theorem trimL_eq_nil_iff (l : JStr) : trimL l = [] ↔ ∀ c ∈ l, isWs c := by
  unfold trimL
  rw [List.reverse_eq_nil_iff, List.dropWhile_eq_nil_iff]
  constructor
  · intro h c hc
    rw [← List.takeWhile_append_dropWhile (p := isWs) (l := l)] at hc
    rcases List.mem_append.mp hc with hc | hc
    · exact List.mem_takeWhile_imp hc
    · exact h c (by simpa using hc)
  · intro h x hx
    have : x ∈ l.dropWhile isWs := by simpa using hx
    exact h x (List.dropWhile_subset isWs this)

theorem joinNL_all_ws (ls : List JStr) :
    (∀ c ∈ joinNL ls, isWs c) ↔ ∀ l ∈ ls, ∀ c ∈ l, isWs c := by
  induction ls with
  | nil => simp [joinNL]
  | cons l ls ih =>
    cases ls with
    | nil => simp [joinNL]
    | cons l2 ls2 =>
      rw [show joinNL (l :: l2 :: ls2) = l ++ '\n' :: joinNL (l2 :: ls2) from rfl]
      constructor
      · intro h x hx
        rcases List.mem_cons.mp hx with hx | hx
        · subst hx
          intro c hc
          exact h c (List.mem_append_left _ hc)
        · exact ih.mp (fun c hc => h c (List.mem_append_right _ (List.mem_cons_of_mem _ hc))) x hx
      · intro h c hc
        rcases List.mem_append.mp hc with hc | hc
        · exact h l (List.mem_cons_self _ _) c hc
        · rcases List.mem_cons.mp hc with hc | hc
          · subst hc; decide
          · exact ih.mpr (fun x hx => h x (List.mem_cons_of_mem _ hx)) c hc

theorem trimL_joinNL_eq_nil (ls : List JStr) :
    trimL (joinNL ls) = [] ↔ ∀ l ∈ ls, trimL l = [] := by
  rw [trimL_eq_nil_iff, joinNL_all_ws]
  constructor
  · intro h l hl
    exact (trimL_eq_nil_iff l).mpr (h l hl)
  · intro h l hl
    exact (trimL_eq_nil_iff l).mp (h l hl)

/-- C7: the current `handleFileDelete` (`automodModFile.ts`), which serves
the coalescer's delete intents, never deletes the resolved target file — it
either writes the edited content back or does nothing.  The
delete-the-index-file-when-emptied behaviour the claim describes exists only
in the legacy handler (`automod.ts`): there, with the target resolved to the
directory's own index file (case 3, `mod.rs`), the index file is unlinked
exactly when every line of it is blank or equals the declaration line being
removed, and otherwise the surviving lines are written back,
newline-terminated. -/
theorem automod_C7_theorem (rootContent modContent lineToRemove name : JStr) :
    (handleFileDeleteCurrent modContent name = none
      ∨ ∃ s, handleFileDeleteCurrent modContent name = some (FileAction.write s))
    ∧ handleFileDeleteLegacy false false true rootContent modContent lineToRemove
      = some (if ∀ l ∈ splitRN modContent, trimL l = [] ∨ trimL l = lineToRemove
          then FileAction.unlink
          else FileAction.write (joinNL ((splitRN modContent).filter
            (fun line => trimL line ≠ [] ∧ trimL line ≠ lineToRemove)) ++ js "\n")) := by
  constructor
  · simp only [handleFileDeleteCurrent]
    by_cases h : (parseModDeclarations (splitRN modContent)).filter
        (fun m => extractModuleName m.modLine = name) ≠ []
    · rw [if_pos h]
      exact Or.inr ⟨_, rfl⟩
    · rw [if_neg h]
      exact Or.inl rfl
  rw [handleFileDeleteLegacy]
  rw [if_neg (by simp)]
  rw [if_pos rfl]
  rw [handleModRsDelete]
  by_cases h : ∀ l ∈ splitRN modContent, trimL l = [] ∨ trimL l = lineToRemove
  · have hfil : (splitRN modContent).filter
        (fun line => trimL line ≠ [] ∧ trimL line ≠ lineToRemove) = [] := by
      rw [List.filter_eq_nil_iff]
      intro a ha
      rcases h a ha with h1 | h1 <;> simp [h1]
    rw [hfil]
    rw [if_pos h]
    rw [show joinNL [] = [] from rfl]
    rw [if_pos (by decide)]
  · have hfil : ∀ l ∈ (splitRN modContent).filter
        (fun line => trimL line ≠ [] ∧ trimL line ≠ lineToRemove), trimL l ≠ [] := by
      intro l hl
      have := (List.mem_filter.mp hl).2
      simp at this
      exact this.1
    rw [if_neg h]
    rw [if_neg ?_]
    intro hj
    rw [trimL_joinNL_eq_nil] at hj
    push_neg at h
    obtain ⟨l, hmem, hprop⟩ := h
    have hlf : l ∈ (splitRN modContent).filter
        (fun line => trimL line ≠ [] ∧ trimL line ≠ lineToRemove) := by
      rw [List.mem_filter]
      exact ⟨hmem, by simp [hprop.1, hprop.2]⟩
    exact hfil l hlf (hj l hlf)

/-! ### Parser structure lemmas -/

theorem filterMap_if_eq_map_filter {α β : Type} (p : α → Bool) (f : α → β) :
    ∀ l : List α,
      l.filterMap (fun i => if p i then some (f i) else none) = (l.filter p).map f := by
  intro l
  induction l with
  | nil => rfl
  | cons a l ih =>
    by_cases h : p a <;> simp [List.filterMap_cons, List.filter_cons, h, ih]

theorem parse_eq_map_mkDecl (lines : List JStr) :
    parseModDeclarations lines = (declIdxs lines).map (mkDecl lines) := by
  unfold parseModDeclarations declIdxs
  exact filterMap_if_eq_map_filter _ _ _

theorem map_getD_filter_range {α : Type} (d : α) (p : α → Bool) :
    ∀ l : List α,
      ((List.range l.length).filter (fun i => p (l.getD i d))).map (fun i => l.getD i d)
        = l.filter p := by
  intro l
  induction l with
  | nil => rfl
  | cons a l ih =>
    have hco : ((fun i => p ((a :: l).getD i d)) ∘ Nat.succ) = (fun i => p (l.getD i d)) := by
      funext i
      simp
    have hgo : ((fun i => (a :: l).getD i d) ∘ Nat.succ) = (fun i => l.getD i d) := by
      funext i
      simp
    rw [List.length_cons, List.range_succ_eq_map, List.filter_cons, List.filter_map, hco]
    by_cases h : p a
    · simp only [List.getD_cons_zero, h, if_true, List.map_cons, List.map_map, hgo, ih,
        List.filter_cons]
    · simp only [List.getD_cons_zero, h, if_false, List.map_map, hgo, ih, List.filter_cons,
        Bool.false_eq_true]

theorem parse_modLines (lines : List JStr) :
    (parseModDeclarations lines).map ModDecl.modLine = lines.filter isDeclLine := by
  rw [parse_eq_map_mkDecl, List.map_map]
  have : (ModDecl.modLine ∘ mkDecl lines) = fun i => lines.getD i [] := by
    funext i
    rfl
  rw [this]
  unfold declIdxs
  exact map_getD_filter_range [] isDeclLine lines

theorem declNames_eq (lines : List JStr) :
    declNames lines = (lines.filter isDeclLine).map extractModuleName := by
  unfold declNames
  rw [show (fun d : ModDecl => extractModuleName d.modLine)
      = extractModuleName ∘ ModDecl.modLine from rfl]
  rw [← List.map_map, parse_modLines]

/-! ### Line-classification lemmas -/

theorem startsW_cons_ex (c : Char) (p s : JStr) (h : startsW (c :: p) s = true) :
    ∃ t, s = c :: t ∧ startsW p t = true := by
  cases s with
  | nil => simp [startsW, List.isPrefixOf] at h
  | cons a t =>
    simp only [startsW, List.isPrefixOf, Bool.and_eq_true, beq_iff_eq] at h
    exact ⟨t, by rw [h.1], h.2⟩

theorem trimL_head (c : Char) (xs : JStr) (h : isWs c = false) :
    ∃ ys, trimL (c :: xs) = c :: ys := by
  unfold trimL
  rw [List.dropWhile_cons, h]
  simp only [Bool.false_eq_true, if_false]
  rw [List.reverse_cons, List.dropWhile_append]
  cases hsplit : xs.reverse.dropWhile isWs with
  | nil =>
    simp only [List.isEmpty_nil, if_true]
    rw [List.dropWhile_cons, h]
    simp only [Bool.false_eq_true, if_false, List.dropWhile_nil]
    exact ⟨[], by simp⟩
  | cons a rest =>
    simp only [List.isEmpty_cons, Bool.false_eq_true, if_false]
    exact ⟨(a :: rest).reverse, by simp⟩

theorem startsW_cons_head (c d : Char) (p t : JStr) (h : c ≠ d) :
    startsW (c :: p) (d :: t) = false := by
  simp [startsW, List.isPrefixOf, h]

theorem isDeclLine_of_instr (l : JStr) :
    isDeclLine l
      = ((startsW (js "mod ") (trimL (beforeComment (trimL l)))
          || startsW (js "pub mod ") (trimL (beforeComment (trimL l))))
        && endsW (js ";") (trimL (beforeComment (trimL l)))) := rfl

theorem attr_not_decl (l : JStr) (h : isAttrLine l = true) : isDeclLine l = false := by
  have hh : ∃ t, trimL l = '#' :: t := by
    have h' : startsW (js "#[") (trimL l) = true ∨ startsW (js "#!") (trimL l) = true := by
      simpa [isAttrLine] using h
    rcases h' with h1 | h1
    · rw [show js "#[" = '#' :: js "[" from rfl] at h1
      obtain ⟨t, ht, -⟩ := startsW_cons_ex '#' (js "[") (trimL l) h1
      exact ⟨_, ht⟩
    · rw [show js "#!" = '#' :: js "!" from rfl] at h1
      obtain ⟨t, ht, -⟩ := startsW_cons_ex '#' (js "!") (trimL l) h1
      exact ⟨_, ht⟩
  obtain ⟨t, ht⟩ := hh
  have hbc : beforeComment ('#' :: t) = '#' :: beforeComment t := by
    rw [beforeComment]
    rw [if_neg]
    rintro ⟨h1, -⟩
    exact absurd h1 (by decide)
  obtain ⟨ys, hys⟩ := trimL_head '#' (beforeComment t) (by decide)
  rw [isDeclLine_of_instr, ht, hbc, hys]
  rw [show js "mod " = 'm' :: js "od " from rfl,
    show js "pub mod " = 'p' :: js "ub mod " from rfl]
  rw [startsW_cons_head 'm' '#' _ _ (by decide), startsW_cons_head 'p' '#' _ _ (by decide)]
  rfl

theorem skip_not_decl (l : JStr) (h : isSkipLine l = true) : isDeclLine l = false := by
  have h' : trimL l = [] ∨ startsW (js "//") (trimL l) = true := by
    have := h
    unfold isSkipLine at this
    simpa using this
  rcases h' with h1 | h1
  · rw [isDeclLine_of_instr, h1]
    rfl
  · rw [show js "//" = '/' :: js "/" from rfl] at h1
    obtain ⟨t, ht, h2⟩ := startsW_cons_ex '/' (js "/") (trimL l) h1
    rw [show js "/" = '/' :: ([] : JStr) from rfl] at h2
    obtain ⟨t2, ht2, -⟩ := startsW_cons_ex '/' [] t h2
    have hbc : beforeComment ('/' :: '/' :: t2) = [] := by
      rw [beforeComment]
      rw [if_pos]
      exact ⟨rfl, rfl⟩
    rw [isDeclLine_of_instr, ht, ht2, hbc]
    rfl

theorem decl_not_attr (l : JStr) (h : isDeclLine l = true) : isAttrLine l = false := by
  by_cases hA : isAttrLine l = true
  · rw [attr_not_decl l hA] at h
    exact absurd h (by decide)
  · simpa using hA

theorem decl_not_skip (l : JStr) (h : isDeclLine l = true) : isSkipLine l = false := by
  by_cases hS : isSkipLine l = true
  · rw [skip_not_decl l hS] at h
    exact absurd h (by decide)
  · simpa using hS

/-! ### Backward-scan lemmas -/

theorem scanAttrs_step_attr (lines : List JStr) (j st : Nat) (ac : List JStr)
    (hA : isAttrLine (lines.getD j []) = true) :
    scanAttrs lines (j + 1) (st, ac) = scanAttrs lines j (j, lines.getD j [] :: ac) := by
  simp only [scanAttrs]
  rw [if_pos hA]

theorem scanAttrs_step_skip (lines : List JStr) (j st : Nat) (ac : List JStr)
    (hA : isAttrLine (lines.getD j []) = false) (hS : isSkipLine (lines.getD j []) = true) :
    scanAttrs lines (j + 1) (st, ac) = scanAttrs lines j (st, ac) := by
  simp only [scanAttrs]
  rw [if_neg (by rw [hA]; exact (by decide)), if_pos hS]

theorem scanAttrs_step_stop (lines : List JStr) (j st : Nat) (ac : List JStr)
    (hA : isAttrLine (lines.getD j []) = false) (hS : isSkipLine (lines.getD j []) = false) :
    scanAttrs lines (j + 1) (st, ac) = (st, ac) := by
  simp only [scanAttrs]
  rw [if_neg (by rw [hA]; exact (by decide)), if_neg (by rw [hS]; exact (by decide))]

theorem scanAttrs_le (lines : List JStr) :
    ∀ (j st : Nat) (ac : List JStr), j ≤ st → (scanAttrs lines j (st, ac)).1 ≤ st := by
  intro j
  induction j with
  | zero => intro st ac _; simp [scanAttrs]
  | succ j ih =>
    intro st ac hj
    by_cases hA : isAttrLine (lines.getD j []) = true
    · rw [scanAttrs_step_attr lines j _ _ hA]
      have := ih j (lines.getD j [] :: ac) (Nat.le_refl j)
      omega
    · rw [Bool.not_eq_true] at hA
      by_cases hS : isSkipLine (lines.getD j []) = true
      · rw [scanAttrs_step_skip lines j _ _ hA hS]
        exact ih st ac (by omega)
      · rw [Bool.not_eq_true] at hS
        rw [scanAttrs_step_stop lines j _ _ hA hS]

theorem scanAttrs_stop_gt (lines : List JStr) :
    ∀ (j st : Nat) (ac : List JStr) (m : Nat), m < j → m < st →
      isDeclLine (lines.getD m []) = true → m < (scanAttrs lines j (st, ac)).1 := by
  intro j
  induction j with
  | zero => intro st ac m h _ _; omega
  | succ j ih =>
    intro st ac m hmj hmst hdecl
    by_cases hA : isAttrLine (lines.getD j []) = true
    · rcases Nat.lt_or_ge m j with hlt | hge
      · rw [scanAttrs_step_attr lines j _ _ hA]
        exact ih j (lines.getD j [] :: ac) m hlt hlt hdecl
      · have hmeq : m = j := by omega
        rw [← hmeq] at hA
        rw [decl_not_attr _ hdecl] at hA
        exact absurd hA (by decide)
    · rw [Bool.not_eq_true] at hA
      by_cases hS : isSkipLine (lines.getD j []) = true
      · rcases Nat.lt_or_ge m j with hlt | hge
        · rw [scanAttrs_step_skip lines j _ _ hA hS]
          exact ih st ac m hlt hmst hdecl
        · have hmeq : m = j := by omega
          rw [← hmeq] at hS
          rw [decl_not_skip _ hdecl] at hS
          exact absurd hS (by decide)
      · rw [Bool.not_eq_true] at hS
        rw [scanAttrs_step_stop lines j _ _ hA hS]
        exact hmst

theorem scanAttrs_attrs (lines : List JStr) :
    ∀ (j st : Nat) (ac : List JStr), (∀ a ∈ ac, isAttrLine a = true) →
      ∀ a ∈ (scanAttrs lines j (st, ac)).2, isAttrLine a = true := by
  intro j
  induction j with
  | zero => intro st ac hac; simpa [scanAttrs] using hac
  | succ j ih =>
    intro st ac hac
    by_cases hA : isAttrLine (lines.getD j []) = true
    · have hac2 : ∀ a ∈ lines.getD j [] :: ac, isAttrLine a = true := by
        intro a ha
        rcases List.mem_cons.mp ha with ha | ha
        · rw [ha]; exact hA
        · exact hac a ha
      rw [scanAttrs_step_attr lines j _ _ hA]
      exact ih j (lines.getD j [] :: ac) hac2
    · rw [Bool.not_eq_true] at hA
      by_cases hS : isSkipLine (lines.getD j []) = true
      · rw [scanAttrs_step_skip lines j _ _ hA hS]
        exact ih st ac hac
      · rw [Bool.not_eq_true] at hS
        rw [scanAttrs_step_stop lines j _ _ hA hS]
        exact hac

theorem mem_parse_good (lines : List JStr) (d : ModDecl)
    (h : d ∈ parseModDeclarations lines) : GoodDecl lines d := by
  rw [parse_eq_map_mkDecl] at h
  obtain ⟨i, hi, hd⟩ := List.mem_map.mp h
  have hrange : i ∈ List.range lines.length := List.mem_of_mem_filter hi
  have hlen : i < lines.length := List.mem_range.mp hrange
  have hdecl : isDeclLine (lines.getD i []) = true := by
    have := List.of_mem_filter hi
    simpa using this
  subst hd
  refine ⟨scanAttrs_le lines i i [] (Nat.le_refl i), hlen, hdecl, rfl, rfl, ?_⟩
  exact scanAttrs_attrs lines i i [] (by intro a ha; cases ha)

theorem parse_spans_ordered (lines : List JStr) :
    SpansOrdered (parseModDeclarations lines) := by
  constructor
  · rw [parse_eq_map_mkDecl, List.pairwise_map]
    have hpw : (declIdxs lines).Pairwise (· < ·) :=
      (List.pairwise_lt_range _).filter _
    refine List.Pairwise.imp_of_mem ?_ hpw
    intro i j hi hj hij
    have hdecli : isDeclLine (lines.getD i []) = true := by
      have := List.of_mem_filter hi
      simpa using this
    show i < (scanAttrs lines j (j, [])).1
    exact scanAttrs_stop_gt lines j j [] i hij hij hdecli
  · intro d hd
    exact (mem_parse_good lines d hd).1

/-! ### Span-removal lemmas -/

theorem getD_mem_of_lt {α : Type} (l : List α) (i : Nat) (d : α) (h : i < l.length) :
    l.getD i d ∈ l := by
  rw [List.getD_eq_getElem?_getD, List.getElem?_eq_getElem h]
  exact List.getElem_mem h

theorem getD_drop {α : Type} (l : List α) (a b : Nat) (d : α) :
    (l.drop a).getD b d = l.getD (a + b) d := by
  rw [List.getD_eq_getElem?_getD, List.getD_eq_getElem?_getD, List.getElem?_drop]

theorem removeDecls_snoc (lines : List JStr) (ds : List ModDecl) (d : ModDecl) :
    removeDecls lines (ds ++ [d])
      = removeDecls (spliceRemove lines d.startIndex (d.endIndex - d.startIndex + 1)) ds := by
  unfold removeDecls
  rw [List.reverse_append]
  rfl

theorem spliceRemove_span (lines : List JStr) (d : ModDecl) (h : d.startIndex ≤ d.endIndex) :
    spliceRemove lines d.startIndex (d.endIndex - d.startIndex + 1)
      = lines.take d.startIndex ++ lines.drop (d.endIndex + 1) := by
  unfold spliceRemove
  congr 2
  omega

theorem outsideAfter_cut (lines : List JStr) (d : ModDecl)
    (hlen : d.endIndex < lines.length) (hse : d.startIndex ≤ d.endIndex) :
    ∀ (ds : List ModDecl) (pos : Nat), pos ≤ d.startIndex →
      (∀ e ∈ ds, e.endIndex < d.startIndex ∧ e.startIndex ≤ e.endIndex) →
      outsideAfter (lines.take d.startIndex ++ lines.drop (d.endIndex + 1)) ds pos
        = outsideAfter lines (ds ++ [d]) pos := by
  intro ds
  induction ds with
  | nil =>
    intro pos hpos _
    show (lines.take d.startIndex ++ lines.drop (d.endIndex + 1)).drop pos
      = (lines.drop pos).take (d.startIndex - pos) ++ lines.drop (d.endIndex + 1)
    have hz : pos - (lines.take d.startIndex).length = 0 := by
      rw [List.length_take]
      omega
    rw [List.drop_append_eq_append_drop, hz, List.drop_zero, List.drop_take]
  | cons d0 ds ih =>
    intro pos hpos hds
    obtain ⟨hd0e, hd0se⟩ := hds d0 (List.mem_cons_self d0 ds)
    have hds' : ∀ e ∈ ds, e.endIndex < d.startIndex ∧ e.startIndex ≤ e.endIndex :=
      fun e he => hds e (List.mem_cons_of_mem d0 he)
    show (((lines.take d.startIndex ++ lines.drop (d.endIndex + 1)).drop pos).take
        (d0.startIndex - pos))
        ++ outsideAfter (lines.take d.startIndex ++ lines.drop (d.endIndex + 1)) ds (d0.endIndex + 1)
      = (lines.drop pos).take (d0.startIndex - pos) ++ outsideAfter lines (ds ++ [d]) (d0.endIndex + 1)
    congr 1
    · rw [List.drop_append_eq_append_drop]
      have hz : pos - (lines.take d.startIndex).length = 0 := by
        rw [List.length_take]
        omega
      rw [hz, List.drop_zero, List.take_append_eq_append_take]
      have hz2 : d0.startIndex - pos - ((lines.take d.startIndex).drop pos).length = 0 := by
        rw [List.length_drop, List.length_take]
        omega
      rw [hz2, List.take_zero, List.append_nil]
      rw [List.drop_take, List.take_take]
      congr 1
      omega
    · exact ih (d0.endIndex + 1) (by omega) hds'

theorem removeDecls_eq_outside :
    ∀ (decls : List ModDecl) (lines : List JStr), SpansOrdered decls →
      (∀ d ∈ decls, d.endIndex < lines.length) →
      removeDecls lines decls = outsideAfter lines decls 0 := by
  intro decls
  induction decls using List.reverseRecOn with
  | nil => intro lines _ _; rfl
  | append_singleton ds d ih =>
    intro lines hord hbound
    have hde : d.endIndex < lines.length := hbound d (by simp)
    have hdse : d.startIndex ≤ d.endIndex := hord.2 d (by simp)
    have hpre : ∀ e ∈ ds, e.endIndex < d.startIndex ∧ e.startIndex ≤ e.endIndex := by
      intro e he
      refine ⟨?_, hord.2 e (List.mem_append_left _ he)⟩
      exact (List.pairwise_append.mp hord.1).2.2 e he d (List.mem_singleton_self d)
    rw [removeDecls_snoc, spliceRemove_span lines d hdse]
    have hord' : SpansOrdered ds :=
      ⟨(List.pairwise_append.mp hord.1).1, fun e he => hord.2 e (List.mem_append_left _ he)⟩
    have hbound' : ∀ e ∈ ds,
        e.endIndex < (lines.take d.startIndex ++ lines.drop (d.endIndex + 1)).length := by
      intro e he
      rw [List.length_append, List.length_take]
      have := (hpre e he).1
      omega
    rw [ih _ hord' hbound']
    exact outsideAfter_cut lines d hde hdse ds 0 (Nat.zero_le _) hpre

theorem getD_take {α : Type} (l : List α) (n b : Nat) (d : α) (h : b < n) :
    (l.take n).getD b d = l.getD b d := by
  rw [List.getD_eq_getElem?_getD, List.getD_eq_getElem?_getD, List.getElem?_take, if_pos h]

theorem drop_eq_gap_append (lines : List JStr) (pos s : Nat) (h : pos ≤ s) :
    lines.drop pos = (lines.drop pos).take (s - pos) ++ lines.drop s := by
  conv_lhs => rw [← List.take_append_drop (s - pos) (lines.drop pos)]
  rw [List.drop_drop]
  congr 2
  omega

theorem span_has_decl (lines : List JStr) (d : ModDecl)
    (hse : d.startIndex ≤ d.endIndex) (hlen : d.endIndex < lines.length)
    (hdecl : isDeclLine (lines.getD d.endIndex []) = true) :
    1 ≤ (((lines.drop d.startIndex).take (d.endIndex + 1 - d.startIndex)).filter
      isDeclLine).length := by
  have hmem : lines.getD d.endIndex []
      ∈ (lines.drop d.startIndex).take (d.endIndex + 1 - d.startIndex) := by
    have hlt : d.endIndex - d.startIndex
        < ((lines.drop d.startIndex).take (d.endIndex + 1 - d.startIndex)).length := by
      rw [List.length_take, List.length_drop]
      omega
    have hval : ((lines.drop d.startIndex).take (d.endIndex + 1 - d.startIndex)).getD
        (d.endIndex - d.startIndex) [] = lines.getD d.endIndex [] := by
      rw [getD_take _ _ _ _ (by omega), getD_drop]
      congr 1
      omega
    have := getD_mem_of_lt _ (d.endIndex - d.startIndex) [] hlt
    rw [hval] at this
    exact this
  have : lines.getD d.endIndex []
      ∈ ((lines.drop d.startIndex).take (d.endIndex + 1 - d.startIndex)).filter isDeclLine :=
    List.mem_filter.mpr ⟨hmem, hdecl⟩
  exact List.length_pos_of_mem this

theorem outside_count_le (lines : List JStr) :
    ∀ (decls : List ModDecl) (pos : Nat),
      SpansOrdered decls →
      (∀ d ∈ decls, pos ≤ d.startIndex ∧ d.endIndex < lines.length
        ∧ isDeclLine (lines.getD d.endIndex []) = true) →
      ((outsideAfter lines decls pos).filter isDeclLine).length + decls.length
        ≤ ((lines.drop pos).filter isDeclLine).length := by
  intro decls
  induction decls with
  | nil =>
    intro pos _ _
    simp [outsideAfter]
  | cons d ds ih =>
    intro pos hord hfacts
    obtain ⟨hpos, hlen, hdecl⟩ := hfacts d (List.mem_cons_self d ds)
    have hse : d.startIndex ≤ d.endIndex := hord.2 d (List.mem_cons_self d ds)
    have hord' : SpansOrdered ds :=
      ⟨hord.1.of_cons, fun e he => hord.2 e (List.mem_cons_of_mem d he)⟩
    have hfacts' : ∀ e ∈ ds, d.endIndex + 1 ≤ e.startIndex ∧ e.endIndex < lines.length
        ∧ isDeclLine (lines.getD e.endIndex []) = true := by
      intro e he
      obtain ⟨-, h2, h3⟩ := hfacts e (List.mem_cons_of_mem d he)
      have hlt : d.endIndex < e.startIndex := (List.pairwise_cons.mp hord.1).1 e he
      exact ⟨by omega, h2, h3⟩
    have hsplit1 : lines.drop pos
        = (lines.drop pos).take (d.startIndex - pos) ++ lines.drop d.startIndex :=
      drop_eq_gap_append lines pos d.startIndex hpos
    have hsplit2 : lines.drop d.startIndex
        = (lines.drop d.startIndex).take (d.endIndex + 1 - d.startIndex)
          ++ lines.drop (d.endIndex + 1) :=
      drop_eq_gap_append lines d.startIndex (d.endIndex + 1) (by omega)
    have hih := ih (d.endIndex + 1) hord' hfacts'
    have hspan := span_has_decl lines d hse hlen hdecl
    have hcount : ((lines.drop pos).filter isDeclLine).length
        = (((lines.drop pos).take (d.startIndex - pos)).filter isDeclLine).length
          + (((lines.drop d.startIndex).take (d.endIndex + 1 - d.startIndex)).filter
              isDeclLine).length
          + ((lines.drop (d.endIndex + 1)).filter isDeclLine).length := by
      conv_lhs => rw [hsplit1]
      rw [List.filter_append, List.length_append]
      conv_lhs => rw [hsplit2]
      rw [List.filter_append, List.length_append]
      omega
    have hout : ((outsideAfter lines (d :: ds) pos).filter isDeclLine).length
        = (((lines.drop pos).take (d.startIndex - pos)).filter isDeclLine).length
          + ((outsideAfter lines ds (d.endIndex + 1)).filter isDeclLine).length := by
      show (((lines.drop pos).take (d.startIndex - pos)
          ++ outsideAfter lines ds (d.endIndex + 1)).filter isDeclLine).length = _
      rw [List.filter_append, List.length_append]
    rw [List.length_cons]
    omega

theorem outside_no_decl (lines : List JStr) :
    (outsideAfter lines (parseModDeclarations lines) 0).filter isDeclLine = [] := by
  have hfacts : ∀ d ∈ parseModDeclarations lines, 0 ≤ d.startIndex
      ∧ d.endIndex < lines.length ∧ isDeclLine (lines.getD d.endIndex []) = true := by
    intro d hd
    obtain ⟨-, h2, h3, -⟩ := mem_parse_good lines d hd
    exact ⟨Nat.zero_le _, h2, h3⟩
  have hle := outside_count_le lines (parseModDeclarations lines) 0
    (parse_spans_ordered lines) hfacts
  rw [List.drop_zero] at hle
  have hn : (parseModDeclarations lines).length = (lines.filter isDeclLine).length := by
    rw [← parse_modLines, List.length_map]
  rw [← List.length_eq_zero]
  omega

/-! ### Comparator lemmas -/

theorem cmpNatList_swap : ∀ x y : List Nat, cmpNatList y x = (cmpNatList x y).swap := by
  intro x
  induction x with
  | nil => intro y; cases y <;> rfl
  | cons a xs ih =>
    intro y
    cases y with
    | nil => rfl
    | cons b ys =>
      show (if b < a then Ordering.lt else if a < b then Ordering.gt else cmpNatList ys xs)
        = (if a < b then Ordering.lt
            else if b < a then Ordering.gt else cmpNatList xs ys).swap
      by_cases h1 : a < b
      · rw [if_neg (show ¬ b < a by omega), if_pos h1, if_pos h1]
        rfl
      · by_cases h2 : b < a
        · rw [if_pos h2, if_neg h1, if_pos h2]
          rfl
        · rw [if_neg h2, if_neg h1, if_neg h1, if_neg h2]
          exact ih ys

theorem cmpNatList_eq_imp : ∀ x y : List Nat, cmpNatList x y = Ordering.eq → x = y := by
  intro x
  induction x with
  | nil =>
    intro y h
    cases y with
    | nil => rfl
    | cons b ys => simp [cmpNatList] at h
  | cons a xs ih =>
    intro y h
    cases y with
    | nil => simp [cmpNatList] at h
    | cons b ys =>
      unfold cmpNatList at h
      by_cases h1 : a < b
      · rw [if_pos h1] at h
        exact absurd h (by decide)
      · rw [if_neg h1] at h
        by_cases h2 : b < a
        · rw [if_pos h2] at h
          exact absurd h (by decide)
        · rw [if_neg h2] at h
          rw [show a = b by omega, ih ys h]

theorem cmpNatList_lt_trans : ∀ x y z : List Nat, cmpNatList x y = Ordering.lt →
    cmpNatList y z = Ordering.lt → cmpNatList x z = Ordering.lt := by
  intro x
  induction x with
  | nil =>
    intro y z h1 h2
    cases y with
    | nil => simp [cmpNatList] at h1
    | cons b ys =>
      cases z with
      | nil => simp [cmpNatList] at h2
      | cons c zs => rfl
  | cons a xs ih =>
    intro y z h1 h2
    cases y with
    | nil => simp [cmpNatList] at h1
    | cons b ys =>
      cases z with
      | nil => simp [cmpNatList] at h2
      | cons c zs =>
        unfold cmpNatList at h1 h2 ⊢
        by_cases hab : a < b
        · rw [if_pos hab] at h1
          by_cases hbc : b < c
          · rw [if_pos (show a < c by omega)]
          · rw [if_neg hbc] at h2
            by_cases hcb : c < b
            · rw [if_pos hcb] at h2
              exact absurd h2 (by decide)
            · rw [if_pos (show a < c by omega)]
        · rw [if_neg hab] at h1
          by_cases hba : b < a
          · rw [if_pos hba] at h1
            exact absurd h1 (by decide)
          · rw [if_neg hba] at h1
            by_cases hbc : b < c
            · rw [if_pos (show a < c by omega)]
            · rw [if_neg hbc] at h2
              by_cases hcb : c < b
              · rw [if_pos hcb] at h2
                exact absurd h2 (by decide)
              · rw [if_neg hcb] at h2
                rw [if_neg (show ¬ a < c by omega), if_neg (show ¬ c < a by omega)]
                exact ih ys zs h1 h2

theorem leLex_eq_true_iff (a b : JStr) : leLex a b = true ↔
    cmpNatList (a.map primW) (b.map primW) = Ordering.lt
    ∨ (cmpNatList (a.map primW) (b.map primW) = Ordering.eq
        ∧ cmpNatList (a.map tertW) (b.map tertW) ≠ Ordering.gt) := by
  unfold leLex
  cases hp : cmpNatList (a.map primW) (b.map primW) <;>
    cases ht : cmpNatList (a.map tertW) (b.map tertW) <;> simp

theorem leLex_trans : ∀ a b c : JStr, leLex a b = true → leLex b c = true →
    leLex a c = true := by
  intro a b c h1 h2
  rw [leLex_eq_true_iff] at h1 h2 ⊢
  rcases h1 with h1 | ⟨h1e, h1t⟩
  · rcases h2 with h2 | ⟨h2e, h2t⟩
    · exact Or.inl (cmpNatList_lt_trans _ _ _ h1 h2)
    · exact Or.inl (by rw [← cmpNatList_eq_imp _ _ h2e]; exact h1)
  · have he1 := cmpNatList_eq_imp _ _ h1e
    rcases h2 with h2 | ⟨h2e, h2t⟩
    · exact Or.inl (by rw [he1]; exact h2)
    · refine Or.inr ⟨by rw [he1]; exact h2e, ?_⟩
      cases ht1 : cmpNatList (a.map tertW) (b.map tertW) with
      | gt => exact absurd ht1 h1t
      | eq => rw [cmpNatList_eq_imp _ _ ht1]; exact h2t
      | lt =>
        cases ht2 : cmpNatList (b.map tertW) (c.map tertW) with
        | gt => exact absurd ht2 h2t
        | eq => rw [← cmpNatList_eq_imp _ _ ht2, ht1]; decide
        | lt => rw [cmpNatList_lt_trans _ _ _ ht1 ht2]; decide

theorem leLex_total : ∀ a b : JStr, (leLex a b || leLex b a) = true := by
  intro a b
  rw [Bool.or_eq_true, leLex_eq_true_iff, leLex_eq_true_iff]
  cases hp : cmpNatList (a.map primW) (b.map primW) with
  | lt => exact Or.inl (Or.inl rfl)
  | gt =>
    refine Or.inr (Or.inl ?_)
    rw [cmpNatList_swap, hp]
    rfl
  | eq =>
    cases ht : cmpNatList (a.map tertW) (b.map tertW) with
    | gt =>
      refine Or.inr (Or.inr ⟨?_, ?_⟩)
      · rw [cmpNatList_swap, hp]
        rfl
      · rw [cmpNatList_swap, ht]
        decide
    | lt => exact Or.inl (Or.inr ⟨rfl, by decide⟩)
    | eq => exact Or.inl (Or.inr ⟨rfl, by decide⟩)

theorem declLe_trans (a b c : ModDecl) (h1 : declLe a b = true) (h2 : declLe b c = true) :
    declLe a c = true :=
  leLex_trans _ _ _ h1 h2

theorem declLe_total (a b : ModDecl) : (declLe a b || declLe b a) = true :=
  leLex_total _ _

/-! ### Parse of declaration-free lists -/

theorem parse_nil_of_no_decl (ls : List JStr) (h : ∀ x ∈ ls, isDeclLine x = false) :
    parseModDeclarations ls = [] := by
  rw [parse_eq_map_mkDecl]
  have : declIdxs ls = [] := by
    unfold declIdxs
    rw [List.filter_eq_nil_iff]
    intro i hi
    have hlt : i < ls.length := List.mem_range.mp hi
    rw [h _ (getD_mem_of_lt ls i [] hlt)]
    exact (by decide)
  rw [this]
  rfl

/-! ### Structure of `sortModDeclarations` -/

theorem filter_fullBlock (lines : List JStr) (d : ModDecl)
    (hd : d ∈ parseModDeclarations lines) :
    d.fullBlock.filter isDeclLine = [d.modLine] := by
  obtain ⟨-, -, hdecl, hmod, hblock, hattrs⟩ := mem_parse_good lines d hd
  rw [hblock, List.filter_append]
  have h1 : d.attributes.filter isDeclLine = [] := by
    rw [List.filter_eq_nil_iff]
    intro a ha
    rw [attr_not_decl a (hattrs a ha)]
    exact (by decide)
  have h2 : isDeclLine d.modLine = true := by rw [hmod]; exact hdecl
  rw [h1, List.filter_cons, if_pos h2]
  rfl

theorem flatten_singleton_map {α β : Type} (f : α → List β) :
    ∀ l : List α, (l.map f).flatten = l.flatMap f := by
  intro l
  induction l with
  | nil => rfl
  | cons a l ih => simp [List.flatMap_cons, ih]

theorem flatMap_single {α β : Type} (f : α → β) :
    ∀ l : List α, (l.flatMap fun x => [f x]) = l.map f := by
  intro l
  induction l with
  | nil => rfl
  | cons a l ih => rw [List.flatMap_cons, ih]; rfl

theorem sort_noop (ls : List JStr) (h : (parseModDeclarations ls).length ≤ 1) :
    sortModDeclarations ls = ls := by
  unfold sortModDeclarations
  rw [if_pos h]

theorem sort_eq (ls : List JStr) (h : 2 ≤ (parseModDeclarations ls).length) :
    sortModDeclarations ls
      = spliceInsert (removeDecls ls (parseModDeclarations ls))
        ((parseModDeclarations ls).headD ⟨[], [], [], 0, 0⟩).startIndex
        ((((parseModDeclarations ls).mergeSort declLe).map ModDecl.fullBlock).flatten) := by
  unfold sortModDeclarations
  rw [if_neg (by omega)]

theorem removeDecls_parse (ls : List JStr) :
    removeDecls ls (parseModDeclarations ls) = outsideAfter ls (parseModDeclarations ls) 0 :=
  removeDecls_eq_outside (parseModDeclarations ls) ls (parse_spans_ordered ls)
    (fun d hd => (mem_parse_good ls d hd).2.1)

theorem filter_block_flatten (lines : List JStr) (sorted : List ModDecl)
    (hmem : ∀ d ∈ sorted, d ∈ parseModDeclarations lines) :
    ((sorted.map ModDecl.fullBlock).flatten).filter isDeclLine
      = sorted.map ModDecl.modLine := by
  rw [List.filter_flatten, List.map_map]
  have : sorted.map (List.filter isDeclLine ∘ ModDecl.fullBlock)
      = sorted.map (fun d => [d.modLine]) := by
    refine List.map_congr_left ?_
    intro d hd
    exact filter_fullBlock lines d (hmem d hd)
  rw [this, flatten_singleton_map, flatMap_single]

theorem filter_sort (ls : List JStr) (h : 2 ≤ (parseModDeclarations ls).length) :
    (sortModDeclarations ls).filter isDeclLine
      = ((parseModDeclarations ls).mergeSort declLe).map ModDecl.modLine := by
  rw [sort_eq ls h]
  unfold spliceInsert
  rw [List.filter_append, List.filter_append]
  have hout : (removeDecls ls (parseModDeclarations ls)).filter isDeclLine = [] := by
    rw [removeDecls_parse]
    exact outside_no_decl ls
  have h1 : ((removeDecls ls (parseModDeclarations ls)).take
      ((parseModDeclarations ls).headD ⟨[], [], [], 0, 0⟩).startIndex).filter isDeclLine
      = [] := by
    rw [← List.sublist_nil, ← hout]
    exact (List.take_sublist _ _).filter isDeclLine
  have h2 : ((removeDecls ls (parseModDeclarations ls)).drop
      ((parseModDeclarations ls).headD ⟨[], [], [], 0, 0⟩).startIndex).filter isDeclLine
      = [] := by
    rw [← List.sublist_nil, ← hout]
    exact (List.drop_sublist _ _).filter isDeclLine
  rw [h1, h2, List.nil_append, List.append_nil]
  refine filter_block_flatten ls _ ?_
  intro d hd
  exact (List.mergeSort_perm (parseModDeclarations ls) declLe).mem_iff.mp hd

theorem sortPres (ls : List JStr) :
    ((sortModDeclarations ls).filter isDeclLine).Perm (ls.filter isDeclLine) := by
  rcases Nat.lt_or_ge (parseModDeclarations ls).length 2 with h | h
  · rw [sort_noop ls (by omega)]
  · rw [filter_sort ls h, ← parse_modLines]
    exact (List.mergeSort_perm (parseModDeclarations ls) declLe).map ModDecl.modLine

/-! ### Rescanning machinery for re-parsing sorted output -/

theorem getD_append_left {α : Type} (xs ys : List α) (j : Nat) (d : α) (h : j < xs.length) :
    (xs ++ ys).getD j d = xs.getD j d := by
  rw [List.getD_eq_getElem?_getD, List.getD_eq_getElem?_getD, List.getElem?_append, if_pos h]

theorem getD_append_right {α : Type} (xs ys : List α) (t : Nat) (d : α) :
    (xs ++ ys).getD (xs.length + t) d = ys.getD t d := by
  rw [List.getD_eq_getElem?_getD, List.getD_eq_getElem?_getD,
    List.getElem?_append_right (by omega)]
  congr 2
  omega

theorem scanAttrs_len (ls : List JStr) :
    ∀ (n st : Nat) (ac : List JStr), ac.length ≤ (scanAttrs ls n (st, ac)).2.length := by
  intro n
  induction n with
  | zero => intro st ac; exact Nat.le_refl _
  | succ n ih =>
    intro st ac
    by_cases hA : isAttrLine (ls.getD n []) = true
    · rw [scanAttrs_step_attr ls n st ac hA]
      have := ih n (ls.getD n [] :: ac)
      simp only [List.length_cons] at this
      omega
    · rw [Bool.not_eq_true] at hA
      by_cases hS : isSkipLine (ls.getD n []) = true
      · rw [scanAttrs_step_skip ls n st ac hA hS]
        exact ih st ac
      · rw [Bool.not_eq_true] at hS
        rw [scanAttrs_step_stop ls n st ac hA hS]

theorem scanAttrs_acc_irrel (ls : List JStr) :
    ∀ (n st : Nat) (ac : List JStr), scanAttrs ls n (st, ac) = (st, ac) →
      ∀ (t : Nat) (bc : List JStr), scanAttrs ls n (t, bc) = (t, bc) := by
  intro n
  induction n with
  | zero => intro st ac _ t bc; rfl
  | succ n ih =>
    intro st ac h t bc
    by_cases hA : isAttrLine (ls.getD n []) = true
    · rw [scanAttrs_step_attr ls n st ac hA] at h
      have hlen := scanAttrs_len ls n n (ls.getD n [] :: ac)
      rw [h] at hlen
      simp only [List.length_cons] at hlen
      omega
    · rw [Bool.not_eq_true] at hA
      by_cases hS : isSkipLine (ls.getD n []) = true
      · rw [scanAttrs_step_skip ls n st ac hA hS] at h
        rw [scanAttrs_step_skip ls n t bc hA hS]
        exact ih st ac h t bc
      · rw [Bool.not_eq_true] at hS
        rw [scanAttrs_step_stop ls n t bc hA hS]

theorem scanAttrs_below_cases (ls : List JStr) :
    ∀ (n st : Nat) (ac : List JStr) (s : Nat) (A : List JStr),
      scanAttrs ls n (st, ac) = (s, A) →
      ((s, A) = (st, ac) ∨ ∀ (t : Nat) (bc : List JStr), scanAttrs ls s (t, bc) = (t, bc)) := by
  intro n
  induction n with
  | zero =>
    intro st ac s A h
    left
    exact h.symm
  | succ n ih =>
    intro st ac s A h
    by_cases hA : isAttrLine (ls.getD n []) = true
    · rw [scanAttrs_step_attr ls n st ac hA] at h
      rcases ih n (ls.getD n [] :: ac) s A h with heq | hall
      · right
        have hs : s = n := congrArg Prod.fst heq
        rw [hs] at h ⊢
        have hA2 : A = ls.getD n [] :: ac := congrArg Prod.snd heq
        rw [hA2] at h
        exact scanAttrs_acc_irrel ls n n (ls.getD n [] :: ac) h
      · right
        exact hall
    · rw [Bool.not_eq_true] at hA
      by_cases hS : isSkipLine (ls.getD n []) = true
      · rw [scanAttrs_step_skip ls n st ac hA hS] at h
        exact ih st ac s A h
      · rw [Bool.not_eq_true] at hS
        rw [scanAttrs_step_stop ls n st ac hA hS] at h
        left
        exact h.symm

theorem scanAttrs_clean_below (ls : List JStr) (i s : Nat) (A : List JStr)
    (h : scanAttrs ls i (i, []) = (s, A)) :
    ∀ (t : Nat) (bc : List JStr), scanAttrs ls s (t, bc) = (t, bc) := by
  rcases scanAttrs_below_cases ls i i [] s A h with heq | hall
  · have hs : s = i := congrArg Prod.fst heq
    have hA : A = [] := congrArg Prod.snd heq
    rw [hs] at h ⊢
    rw [hA] at h
    exact scanAttrs_acc_irrel ls i i [] h
  · exact hall

theorem scanAttrs_congr (ls1 ls2 : List JStr) :
    ∀ (n : Nat), (∀ j, j < n → ls1.getD j [] = ls2.getD j []) →
      ∀ (st : Nat) (ac : List JStr), scanAttrs ls1 n (st, ac) = scanAttrs ls2 n (st, ac) := by
  intro n
  induction n with
  | zero => intro _ st ac; rfl
  | succ n ih =>
    intro hagree st ac
    have hline : ls1.getD n [] = ls2.getD n [] := hagree n (Nat.lt_succ_self n)
    have hagree' : ∀ j, j < n → ls1.getD j [] = ls2.getD j [] :=
      fun j hj => hagree j (Nat.lt_trans hj (Nat.lt_succ_self n))
    by_cases hA : isAttrLine (ls1.getD n []) = true
    · rw [scanAttrs_step_attr ls1 n st ac hA,
        scanAttrs_step_attr ls2 n st ac (hline ▸ hA), ← hline]
      exact ih hagree' n (ls1.getD n [] :: ac)
    · rw [Bool.not_eq_true] at hA
      by_cases hS : isSkipLine (ls1.getD n []) = true
      · rw [scanAttrs_step_skip ls1 n st ac hA hS,
          scanAttrs_step_skip ls2 n st ac (hline ▸ hA) (hline ▸ hS)]
        exact ih hagree' st ac
      · rw [Bool.not_eq_true] at hS
        rw [scanAttrs_step_stop ls1 n st ac hA hS,
          scanAttrs_step_stop ls2 n st ac (hline ▸ hA) (hline ▸ hS)]

theorem scan_attrs_run (L : List JStr) :
    ∀ (as tail : List JStr) (q : Nat),
      (∀ t, t < as.length → L.getD (q + t) [] = as.getD t []) →
      (∀ a ∈ as, isAttrLine a = true) →
      scanAttrs L (q + as.length) (q + as.length, tail) = scanAttrs L q (q, as ++ tail) := by
  intro as
  induction as using List.reverseRecOn with
  | nil =>
    intro tail q _ _
    simp
  | append_singleton as a ih =>
    intro tail q hcontent hattr
    have hlen : (as ++ [a]).length = as.length + 1 := by
      rw [List.length_append, List.length_singleton]
    have hpos : L.getD (q + as.length) [] = a := by
      have := hcontent as.length (by omega)
      rw [this, List.getD_eq_getElem?_getD, List.getElem?_concat_length]
      rfl
    have hA : isAttrLine (L.getD (q + as.length) []) = true := by
      rw [hpos]
      exact hattr a (by simp)
    rw [hlen, ← Nat.add_assoc]
    rw [scanAttrs_step_attr L (q + as.length) _ tail hA, hpos]
    have hcontent' : ∀ t, t < as.length → L.getD (q + t) [] = as.getD t [] := by
      intro t ht
      rw [hcontent t (by omega)]
      exact getD_append_left as [a] t [] ht
    have hattr' : ∀ x ∈ as, isAttrLine x = true :=
      fun x hx => hattr x (List.mem_append_left _ hx)
    rw [ih (a :: tail) q hcontent' hattr']
    congr 1
    rw [List.append_assoc]
    rfl

/-! ### Parse of concatenations -/

theorem declIdxs_lt (ls : List JStr) (j : Nat) (h : j ∈ declIdxs ls) : j < ls.length :=
  List.mem_range.mp (List.mem_of_mem_filter h)

theorem declIdxs_append (xs ys : List JStr) :
    declIdxs (xs ++ ys) = declIdxs xs ++ (declIdxs ys).map (xs.length + ·) := by
  unfold declIdxs
  rw [List.length_append, List.range_add, List.filter_append]
  congr 1
  · refine List.filter_congr ?_
    intro i hi
    rw [getD_append_left xs ys i [] (List.mem_range.mp hi)]
  · rw [List.filter_map]
    congr 1
    refine List.filter_congr ?_
    intro t _
    show isDeclLine ((xs ++ ys).getD (xs.length + t) []) = isDeclLine (ys.getD t [])
    rw [getD_append_right]

theorem mkDecl_append_left (xs ys : List JStr) (j : Nat) (h : j < xs.length) :
    mkDecl (xs ++ ys) j = mkDecl xs j := by
  unfold mkDecl
  have hgd : (xs ++ ys).getD j [] = xs.getD j [] := getD_append_left xs ys j [] h
  have hsa : scanAttrs (xs ++ ys) j (j, []) = scanAttrs xs j (j, []) := by
    refine scanAttrs_congr (xs ++ ys) xs j ?_ j []
    intro i hi
    exact getD_append_left xs ys i [] (Nat.lt_trans hi h)
  rw [hgd, hsa]

theorem parse_append (xs ys : List JStr) :
    parseModDeclarations (xs ++ ys)
      = parseModDeclarations xs
        ++ (declIdxs ys).map (fun t => mkDecl (xs ++ ys) (xs.length + t)) := by
  rw [parse_eq_map_mkDecl, declIdxs_append, List.map_append, List.map_map]
  congr 1
  rw [parse_eq_map_mkDecl]
  refine List.map_congr_left ?_
  intro j hj
  exact mkDecl_append_left xs ys j (declIdxs_lt xs j hj)

theorem declIdxs_nil_of_no_decl (ls : List JStr) (h : ∀ x ∈ ls, isDeclLine x = false) :
    declIdxs ls = [] := by
  unfold declIdxs
  rw [List.filter_eq_nil_iff]
  intro i hi
  rw [h _ (getD_mem_of_lt ls i [] (List.mem_range.mp hi))]
  exact (by decide)

theorem parse_append_no_decl (xs ys : List JStr) (h : ∀ x ∈ ys, isDeclLine x = false) :
    parseModDeclarations (xs ++ ys) = parseModDeclarations xs := by
  rw [parse_append, declIdxs_nil_of_no_decl ys h]
  simp

theorem declIdxs_block (a0 : List JStr) (m0 : JStr)
    (hattr : ∀ a ∈ a0, isAttrLine a = true) (hdecl : isDeclLine m0 = true) :
    declIdxs (a0 ++ [m0]) = [a0.length] := by
  rw [declIdxs_append]
  have h1 : declIdxs a0 = [] := by
    refine declIdxs_nil_of_no_decl a0 ?_
    intro x hx
    exact attr_not_decl x (hattr x hx)
  have h2 : declIdxs [m0] = [0] := by
    unfold declIdxs
    rw [List.length_singleton, show List.range 1 = [0] from rfl, List.filter_cons,
      List.getD_cons_zero, hdecl]
    rfl
  rw [h1, h2]
  rfl

theorem parse_append_block (pre a0 : List JStr) (m0 : JStr)
    (hclean : ∀ (X : List JStr) (st : Nat) (ac : List JStr),
      scanAttrs (pre ++ X) pre.length (st, ac) = (st, ac))
    (hattr : ∀ a ∈ a0, isAttrLine a = true) (hdecl : isDeclLine m0 = true) :
    parseModDeclarations (pre ++ (a0 ++ [m0]))
      = parseModDeclarations pre
        ++ [⟨a0, m0, a0 ++ [m0], pre.length, pre.length + a0.length⟩] := by
  rw [parse_append, declIdxs_block a0 m0 hattr hdecl]
  congr 1
  rw [List.map_cons, List.map_nil]
  congr 1
  have hgd : (pre ++ (a0 ++ [m0])).getD (pre.length + a0.length) [] = m0 := by
    rw [getD_append_right, List.getD_eq_getElem?_getD, List.getElem?_concat_length]
    rfl
  have hcontent : ∀ t, t < a0.length → (pre ++ (a0 ++ [m0])).getD (pre.length + t) [] = a0.getD t [] := by
    intro t ht
    rw [getD_append_right]
    exact getD_append_left a0 [m0] t [] ht
  have hsa : scanAttrs (pre ++ (a0 ++ [m0])) (pre.length + a0.length)
      (pre.length + a0.length, []) = (pre.length, a0) := by
    rw [scan_attrs_run (pre ++ (a0 ++ [m0])) a0 [] pre.length hcontent hattr]
    rw [List.append_nil]
    exact hclean (a0 ++ [m0]) pre.length a0
  unfold mkDecl
  rw [hsa, hgd]

theorem parse_blocks (R : List JStr) (hR : ∀ x ∈ R, isDeclLine x = false) :
    ∀ (ds : List ModDecl) (pre : List JStr),
      (∀ (X : List JStr) (st : Nat) (ac : List JStr),
        scanAttrs (pre ++ X) pre.length (st, ac) = (st, ac)) →
      (∀ d ∈ ds, (∀ a ∈ d.attributes, isAttrLine a = true) ∧ isDeclLine d.modLine = true
        ∧ d.fullBlock = d.attributes ++ [d.modLine]) →
      parseModDeclarations (pre ++ ((ds.map ModDecl.fullBlock).flatten ++ R))
        = parseModDeclarations pre ++ layout ds pre.length := by
  intro ds
  induction ds with
  | nil =>
    intro pre hclean _
    rw [List.map_nil, List.flatten_nil, List.nil_append, parse_append_no_decl pre R hR]
    simp [layout]
  | cons d ds ih =>
    intro pre hclean hwf
    obtain ⟨hattr, hdecl, hblock⟩ := hwf d (List.mem_cons_self d ds)
    have hwf' : ∀ e ∈ ds, (∀ a ∈ e.attributes, isAttrLine a = true)
        ∧ isDeclLine e.modLine = true ∧ e.fullBlock = e.attributes ++ [e.modLine] :=
      fun e he => hwf e (List.mem_cons_of_mem d he)
    have hre : pre ++ (((d :: ds).map ModDecl.fullBlock).flatten ++ R)
        = (pre ++ d.fullBlock) ++ ((ds.map ModDecl.fullBlock).flatten ++ R) := by
      simp only [List.map_cons, List.flatten_cons, List.append_assoc]
    rw [hre]
    have hlen : (pre ++ d.fullBlock).length = pre.length + d.attributes.length + 1 := by
      rw [List.length_append, hblock, List.length_append, List.length_singleton]
      omega
    have hclean' : ∀ (X : List JStr) (st : Nat) (ac : List JStr),
        scanAttrs ((pre ++ d.fullBlock) ++ X) (pre ++ d.fullBlock).length (st, ac)
          = (st, ac) := by
      intro X st ac
      have hgd : ((pre ++ d.fullBlock) ++ X).getD (pre.length + d.attributes.length) []
          = d.modLine := by
        rw [getD_append_left _ X _ [] (by omega)]
        rw [getD_append_right]
        rw [hblock, List.getD_eq_getElem?_getD, List.getElem?_concat_length]
        rfl
      rw [hlen]
      refine scanAttrs_step_stop _ _ _ _ ?_ ?_
      · rw [hgd]
        exact decl_not_attr d.modLine hdecl
      · rw [hgd]
        exact decl_not_skip d.modLine hdecl
    rw [ih (pre ++ d.fullBlock) hclean' hwf']
    have hpb : parseModDeclarations (pre ++ d.fullBlock)
        = parseModDeclarations pre
          ++ [⟨d.attributes, d.modLine, d.fullBlock, pre.length,
                pre.length + d.attributes.length⟩] := by
      conv_lhs => rw [hblock]
      rw [parse_append_block pre d.attributes d.modLine hclean hattr hdecl]
      congr 2
      rw [hblock]
    rw [hpb, List.append_assoc]
    congr 1
    show _ :: layout ds (pre ++ d.fullBlock).length = layout (d :: ds) pre.length
    rw [hlen]
    rfl

/-! ### Layout facts -/

theorem layout_length : ∀ (ds : List ModDecl) (p : Nat), (layout ds p).length = ds.length := by
  intro ds
  induction ds with
  | nil => intro p; rfl
  | cons d ds ih =>
    intro p
    show (layout ds (p + d.attributes.length + 1)).length + 1 = ds.length + 1
    rw [ih]

theorem layout_fullBlocks : ∀ (ds : List ModDecl) (p : Nat),
    (layout ds p).map ModDecl.fullBlock = ds.map ModDecl.fullBlock := by
  intro ds
  induction ds with
  | nil => intro p; rfl
  | cons d ds ih =>
    intro p
    show d.fullBlock :: (layout ds (p + d.attributes.length + 1)).map ModDecl.fullBlock = _
    rw [ih]
    rfl

theorem layout_modLines : ∀ (ds : List ModDecl) (p : Nat),
    (layout ds p).map ModDecl.modLine = ds.map ModDecl.modLine := by
  intro ds
  induction ds with
  | nil => intro p; rfl
  | cons d ds ih =>
    intro p
    show d.modLine :: (layout ds (p + d.attributes.length + 1)).map ModDecl.modLine = _
    rw [ih]
    rfl

theorem layout_start_ge : ∀ (ds : List ModDecl) (p : Nat), ∀ e ∈ layout ds p,
    p ≤ e.startIndex ∧ e.startIndex ≤ e.endIndex := by
  intro ds
  induction ds with
  | nil => intro p e he; cases he
  | cons d ds ih =>
    intro p e he
    rcases List.mem_cons.mp he with he | he
    · subst he
      exact ⟨Nat.le_refl _, by show p ≤ p + d.attributes.length; omega⟩
    · have := ih (p + d.attributes.length + 1) e he
      exact ⟨by omega, this.2⟩

theorem layout_spans_ordered : ∀ (ds : List ModDecl) (p : Nat),
    SpansOrdered (layout ds p) := by
  intro ds
  induction ds with
  | nil => intro p; exact ⟨List.Pairwise.nil, fun d hd => absurd hd (List.not_mem_nil d)⟩
  | cons d ds ih =>
    intro p
    obtain ⟨hpw, hse⟩ := ih (p + d.attributes.length + 1)
    refine ⟨List.pairwise_cons.mpr ⟨?_, hpw⟩, ?_⟩
    · intro e he
      have := (layout_start_ge ds (p + d.attributes.length + 1) e he).1
      show p + d.attributes.length < e.startIndex
      omega
    · intro e he
      rcases List.mem_cons.mp he with he | he
      · subst he
        show p ≤ p + d.attributes.length
        omega
      · exact hse e he

theorem layout_end_lt : ∀ (ds : List ModDecl) (p : Nat),
    (∀ d ∈ ds, d.fullBlock = d.attributes ++ [d.modLine]) →
    ∀ e ∈ layout ds p, e.endIndex < p + ((ds.map ModDecl.fullBlock).flatten).length := by
  intro ds
  induction ds with
  | nil => intro p _ e he; cases he
  | cons d ds ih =>
    intro p hwf e he
    have hb : d.fullBlock.length = d.attributes.length + 1 := by
      rw [hwf d (List.mem_cons_self d ds), List.length_append, List.length_singleton]
    have hflat : (((d :: ds).map ModDecl.fullBlock).flatten).length
        = d.fullBlock.length + ((ds.map ModDecl.fullBlock).flatten).length := by
      rw [List.map_cons, List.flatten_cons, List.length_append]
    rcases List.mem_cons.mp he with he | he
    · subst he
      show p + d.attributes.length < _
      omega
    · have := ih (p + d.attributes.length + 1)
        (fun e' he' => hwf e' (List.mem_cons_of_mem d he')) e he
      omega

theorem layout_mem : ∀ (ds : List ModDecl) (p : Nat), ∀ e ∈ layout ds p,
    ∃ d ∈ ds, e.modLine = d.modLine ∧ e.attributes = d.attributes
      ∧ e.fullBlock = d.fullBlock := by
  intro ds
  induction ds with
  | nil => intro p e he; cases he
  | cons d ds ih =>
    intro p e he
    rcases List.mem_cons.mp he with he | he
    · subst he
      exact ⟨d, List.mem_cons_self d ds, rfl, rfl, rfl⟩
    · obtain ⟨d', hd', h1, h2, h3⟩ := ih (p + d.attributes.length + 1) e he
      exact ⟨d', List.mem_cons_of_mem d hd', h1, h2, h3⟩

theorem layout_pairwise (ds : List ModDecl) (p : Nat)
    (h : ds.Pairwise (fun a b => declLe a b = true)) :
    (layout ds p).Pairwise (fun a b => declLe a b = true) := by
  induction ds generalizing p with
  | nil => exact List.Pairwise.nil
  | cons d ds ih =>
    obtain ⟨hhead, htail⟩ := List.pairwise_cons.mp h
    refine List.pairwise_cons.mpr ⟨?_, ih (p + d.attributes.length + 1) htail⟩
    intro e he
    obtain ⟨d', hd', h1, -, -⟩ := layout_mem ds (p + d.attributes.length + 1) e he
    show declLe _ e = true
    unfold declLe
    rw [h1]
    exact hhead d' hd'

theorem outside_layout : ∀ (ds : List ModDecl) (C R' : List JStr),
    (∀ d ∈ ds, d.fullBlock = d.attributes ++ [d.modLine]) →
    outsideAfter (C ++ ((ds.map ModDecl.fullBlock).flatten ++ R')) (layout ds C.length)
      C.length = R' := by
  intro ds
  induction ds with
  | nil =>
    intro C R' _
    show (C ++ ([].flatten ++ R')).drop C.length = R'
    rw [List.flatten_nil, List.nil_append, List.drop_left]
  | cons d ds ih =>
    intro C R' hwf
    show ((C ++ _).drop C.length).take (C.length - C.length)
        ++ outsideAfter _ (layout ds (C.length + d.attributes.length + 1))
          (C.length + d.attributes.length + 1) = R'
    rw [Nat.sub_self, List.take_zero, List.nil_append]
    have hre : C ++ (((d :: ds).map ModDecl.fullBlock).flatten ++ R')
        = (C ++ d.fullBlock) ++ ((ds.map ModDecl.fullBlock).flatten ++ R') := by
      simp only [List.map_cons, List.flatten_cons, List.append_assoc]
    have hlen : (C ++ d.fullBlock).length = C.length + d.attributes.length + 1 := by
      rw [List.length_append, hwf d (List.mem_cons_self d ds), List.length_append,
        List.length_singleton]
      omega
    rw [hre, ← hlen]
    exact ih (C ++ d.fullBlock) R' (fun e he => hwf e (List.mem_cons_of_mem d he))

theorem outside_layout_zero (ds : List ModDecl) (C R' : List JStr) (d0 : ModDecl)
    (ds' : List ModDecl) (hds : ds = d0 :: ds')
    (hwf : ∀ d ∈ ds, d.fullBlock = d.attributes ++ [d.modLine]) :
    outsideAfter (C ++ ((ds.map ModDecl.fullBlock).flatten ++ R')) (layout ds C.length) 0
      = C ++ R' := by
  subst hds
  show ((C ++ _).drop 0).take (C.length - 0)
      ++ outsideAfter _ (layout ds' (C.length + d0.attributes.length + 1))
        (C.length + d0.attributes.length + 1) = C ++ R'
  rw [List.drop_zero, Nat.sub_zero, List.take_left]
  congr 1
  have hre : C ++ (((d0 :: ds').map ModDecl.fullBlock).flatten ++ R')
      = (C ++ d0.fullBlock) ++ ((ds'.map ModDecl.fullBlock).flatten ++ R') := by
    simp only [List.map_cons, List.flatten_cons, List.append_assoc]
  have hlen : (C ++ d0.fullBlock).length = C.length + d0.attributes.length + 1 := by
    rw [List.length_append, hwf d0 (List.mem_cons_self d0 ds'), List.length_append,
      List.length_singleton]
    omega
  rw [hre, ← hlen]
  exact outside_layout ds' (C ++ d0.fullBlock) R'
    (fun e he => hwf e (List.mem_cons_of_mem d0 he))

/-! ### Re-parsing the sorted output -/

theorem parse_head_clean (ls : List JStr) (d1 : ModDecl) (ds : List ModDecl)
    (h : parseModDeclarations ls = d1 :: ds) :
    ∀ (t : Nat) (bc : List JStr), scanAttrs ls d1.startIndex (t, bc) = (t, bc) := by
  cases hdi : declIdxs ls with
  | nil =>
    rw [parse_eq_map_mkDecl, hdi] at h
    exact absurd h (by simp)
  | cons i is =>
    rw [parse_eq_map_mkDecl, hdi, List.map_cons] at h
    have hd1 : d1 = mkDecl ls i := (List.cons.injEq _ _ _ _ ▸ h).1.symm
    subst hd1
    show ∀ (t : Nat) (bc : List JStr),
      scanAttrs ls (scanAttrs ls i (i, [])).1 (t, bc) = (t, bc)
    exact scanAttrs_clean_below ls i (scanAttrs ls i (i, [])).1 (scanAttrs ls i (i, [])).2 rfl

theorem cleanTop_take (ls : List JStr) (s : Nat) (hs : s ≤ ls.length)
    (hscan : ∀ (t : Nat) (bc : List JStr), scanAttrs ls s (t, bc) = (t, bc)) :
    ∀ (X : List JStr) (st : Nat) (ac : List JStr),
      scanAttrs (ls.take s ++ X) (ls.take s).length (st, ac) = (st, ac) := by
  intro X st ac
  have hlen : (ls.take s).length = s := by
    rw [List.length_take]
    omega
  rw [hlen]
  rw [scanAttrs_congr (ls.take s ++ X) ls s ?_ st ac]
  · exact hscan st ac
  · intro j hj
    rw [getD_append_left _ X j [] (by omega), getD_take ls s j [] hj]

theorem outside_parts (ls : List JStr) (d1 : ModDecl) (ds : List ModDecl)
    (h : parseModDeclarations ls = d1 :: ds) :
    (∀ x ∈ ls.take d1.startIndex, isDeclLine x = false)
    ∧ (∀ x ∈ outsideAfter ls ds (d1.endIndex + 1), isDeclLine x = false) := by
  have hout := outside_no_decl ls
  rw [h] at hout
  have hsplit : outsideAfter ls (d1 :: ds) 0
      = ls.take d1.startIndex ++ outsideAfter ls ds (d1.endIndex + 1) := by
    show (ls.drop 0).take (d1.startIndex - 0) ++ _ = _
    rw [List.drop_zero, Nat.sub_zero]
  rw [hsplit, List.filter_append, List.append_eq_nil] at hout
  constructor
  · intro x hx
    have := List.filter_eq_nil_iff.mp hout.1 x hx
    simpa using this
  · intro x hx
    have := List.filter_eq_nil_iff.mp hout.2 x hx
    simpa using this

theorem sorted_wf (ls : List JStr) :
    ∀ e ∈ (parseModDeclarations ls).mergeSort declLe,
      (∀ a ∈ e.attributes, isAttrLine a = true) ∧ isDeclLine e.modLine = true
        ∧ e.fullBlock = e.attributes ++ [e.modLine] := by
  intro e he
  have hmem : e ∈ parseModDeclarations ls :=
    (List.mergeSort_perm (parseModDeclarations ls) declLe).mem_iff.mp he
  obtain ⟨-, -, hdecl, hmod, hblock, hattrs⟩ := mem_parse_good ls e hmem
  exact ⟨hattrs, by rw [hmod]; exact hdecl, hblock⟩

theorem sort_anchor (ls : List JStr) (d1 : ModDecl) (ds : List ModDecl)
    (h : parseModDeclarations ls = d1 :: ds)
    (h2 : 2 ≤ (parseModDeclarations ls).length) :
    sortModDeclarations ls
      = ls.take d1.startIndex
        ++ ((((parseModDeclarations ls).mergeSort declLe).map ModDecl.fullBlock).flatten
          ++ outsideAfter ls ds (d1.endIndex + 1)) := by
  have hgood : GoodDecl ls d1 := mem_parse_good ls d1 (by rw [h]; exact List.mem_cons_self d1 ds)
  have hs1 : d1.startIndex ≤ ls.length := by
    have := hgood.1
    have := hgood.2.1
    omega
  have hlenA0 : (ls.take d1.startIndex).length = d1.startIndex := by
    rw [List.length_take]
    omega
  rw [sort_eq ls h2]
  have hout : removeDecls ls (parseModDeclarations ls)
      = ls.take d1.startIndex ++ outsideAfter ls ds (d1.endIndex + 1) := by
    rw [removeDecls_parse, h]
    show (ls.drop 0).take (d1.startIndex - 0) ++ _ = _
    rw [List.drop_zero, Nat.sub_zero]
  have hhead : ((parseModDeclarations ls).headD ⟨[], [], [], 0, 0⟩).startIndex
      = d1.startIndex := by
    rw [h]
    rfl
  rw [hout, hhead]
  unfold spliceInsert
  rw [List.take_left' hlenA0, List.drop_left' hlenA0, List.append_assoc]

theorem parse_sort (ls : List JStr) (d1 : ModDecl) (ds : List ModDecl)
    (h : parseModDeclarations ls = d1 :: ds)
    (h2 : 2 ≤ (parseModDeclarations ls).length) :
    parseModDeclarations (sortModDeclarations ls)
      = layout ((parseModDeclarations ls).mergeSort declLe) d1.startIndex := by
  have hgood : GoodDecl ls d1 := mem_parse_good ls d1 (by rw [h]; exact List.mem_cons_self d1 ds)
  have hs1 : d1.startIndex ≤ ls.length := by
    have := hgood.1
    have := hgood.2.1
    omega
  have hlenA0 : (ls.take d1.startIndex).length = d1.startIndex := by
    rw [List.length_take]
    omega
  obtain ⟨hA0, hR⟩ := outside_parts ls d1 ds h
  rw [sort_anchor ls d1 ds h h2]
  rw [parse_blocks (outsideAfter ls ds (d1.endIndex + 1)) hR
    ((parseModDeclarations ls).mergeSort declLe) (ls.take d1.startIndex)
    (cleanTop_take ls d1.startIndex hs1 (parse_head_clean ls d1 ds h))
    (sorted_wf ls)]
  rw [parse_nil_of_no_decl _ hA0, hlenA0]
  rfl

theorem sort_idem (ls : List JStr) :
    sortModDeclarations (sortModDeclarations ls) = sortModDeclarations ls := by
  rcases Nat.lt_or_ge (parseModDeclarations ls).length 2 with hle | hge
  · rw [sort_noop ls (by omega), sort_noop ls (by omega)]
  · cases hp : parseModDeclarations ls with
    | nil =>
      rw [hp] at hge
      exact absurd hge (by simp)
    | cons d1 ds =>
      have hparseO := parse_sort ls d1 ds hp hge
      have hnsorted : ((parseModDeclarations ls).mergeSort declLe).length
          = (parseModDeclarations ls).length := List.length_mergeSort _
      have hlenO : (parseModDeclarations (sortModDeclarations ls)).length
          = (parseModDeclarations ls).length := by
        rw [hparseO, layout_length, hnsorted]
      cases hsrt : (parseModDeclarations ls).mergeSort declLe with
      | nil =>
        rw [hsrt] at hnsorted
        rw [← hnsorted] at hge
        exact absurd hge (by simp)
      | cons e1 es =>
        have hgood : GoodDecl ls d1 :=
          mem_parse_good ls d1 (by rw [hp]; exact List.mem_cons_self d1 ds)
        have hs1 : d1.startIndex ≤ ls.length := by
          have := hgood.1
          have := hgood.2.1
          omega
        have hlenA0 : (ls.take d1.startIndex).length = d1.startIndex := by
          rw [List.length_take]
          omega
        have hwfs := sorted_wf ls
        rw [sort_eq (sortModDeclarations ls) (by omega)]
        have hsortedO : parseModDeclarations (sortModDeclarations ls)
            = layout (e1 :: es) d1.startIndex := by
          rw [hparseO, hsrt]
        have hpwsorted : ((parseModDeclarations ls).mergeSort declLe).Pairwise
            (fun a b => declLe a b = true) :=
          List.sorted_mergeSort declLe_trans declLe_total (parseModDeclarations ls)
        have hmerge2 : (parseModDeclarations (sortModDeclarations ls)).mergeSort declLe
            = parseModDeclarations (sortModDeclarations ls) := by
          refine List.mergeSort_of_sorted ?_
          rw [hparseO]
          exact layout_pairwise _ _ hpwsorted
        have hheadO : ((parseModDeclarations (sortModDeclarations ls)).headD
            ⟨[], [], [], 0, 0⟩).startIndex = d1.startIndex := by
          rw [hsortedO]
          rfl
        have hfbO : ((parseModDeclarations (sortModDeclarations ls)).map
            ModDecl.fullBlock)
            = ((parseModDeclarations ls).mergeSort declLe).map ModDecl.fullBlock := by
          rw [hparseO, layout_fullBlocks]
        have hrmO : removeDecls (sortModDeclarations ls)
            (parseModDeclarations (sortModDeclarations ls))
            = ls.take d1.startIndex ++ outsideAfter ls ds (d1.endIndex + 1) := by
          rw [removeDecls_eq_outside _ _ ?ord ?bnd]
          case ord =>
            rw [hparseO]
            exact layout_spans_ordered _ _
          case bnd =>
            intro e he
            rw [hparseO] at he
            have hend := layout_end_lt ((parseModDeclarations ls).mergeSort declLe)
              d1.startIndex (fun e' he' => (hwfs e' he').2.2) e he
            rw [sort_anchor ls d1 ds hp hge, List.length_append, hlenA0,
              List.length_append]
            omega
          rw [hparseO]
          conv_lhs => rw [sort_anchor ls d1 ds hp hge]
          have hoz := outside_layout_zero _ (ls.take d1.startIndex)
            (outsideAfter ls ds (d1.endIndex + 1)) e1 es hsrt
            (fun e' he' => (hwfs e' he').2.2)
          rw [hlenA0] at hoz
          exact hoz
        rw [hmerge2, hheadO, hfbO, hrmO]
        unfold spliceInsert
        rw [List.take_left' hlenA0, List.drop_left' hlenA0, List.append_assoc]
        conv_rhs => rw [sort_anchor ls d1 ds hp hge]

theorem sort_names_sorted (ls : List JStr) :
    (declNames (sortModDeclarations ls)).Pairwise (fun a b => leLex a b = true) := by
  rcases Nat.lt_or_ge (parseModDeclarations ls).length 2 with hle | hge
  · rw [sort_noop ls (by omega)]
    have hlen : (declNames ls).length ≤ 1 := by
      unfold declNames
      rw [List.length_map]
      omega
    cases h : declNames ls with
    | nil => exact List.Pairwise.nil
    | cons a t =>
      cases t with
      | nil => exact List.pairwise_singleton _ _
      | cons b t2 =>
        rw [h] at hlen
        simp at hlen
  · rw [declNames_eq, filter_sort ls hge, List.map_map]
    rw [List.pairwise_map]
    have := List.sorted_mergeSort declLe_trans declLe_total (parseModDeclarations ls)
    exact this.imp (fun {a b} hab => hab)

/-- C2: `sortModDeclarations` is idempotent, its output's declaration names
are non-decreasing in `leLex` — the embedded root-locale collation order of
`localeCompare` (`_` before digits before case-folded letters, with
lowercase before uppercase deciding full-primary ties) — it is a no-op
when fewer than two declarations parse, and with at least two declarations
the concatenated sorted blocks are re-inserted at the `startIndex` of the
first declaration in original order, preceded by the unchanged prefix and
followed by the original lines that lay outside the declaration-block spans.
(The claim's further assertion that every non-declaration line keeps its
content and relative order is refuted by `automod_C2_counterexample`: blank
lines lying inside a block span, between an attribute and its declaration,
are dropped.) -/
theorem automod_C2_theorem (ls : List JStr) :
    sortModDeclarations (sortModDeclarations ls) = sortModDeclarations ls
    ∧ (declNames (sortModDeclarations ls)).Pairwise (fun a b => leLex a b = true)
    ∧ ((parseModDeclarations ls).length ≤ 1 → sortModDeclarations ls = ls)
    ∧ (∀ d1 ds, parseModDeclarations ls = d1 :: ds →
        2 ≤ (parseModDeclarations ls).length →
        sortModDeclarations ls
          = ls.take d1.startIndex
            ++ ((((parseModDeclarations ls).mergeSort declLe).map ModDecl.fullBlock).flatten
              ++ outsideAfter ls ds (d1.endIndex + 1))) :=
  ⟨sort_idem ls, sort_names_sorted ls, sort_noop ls,
    fun d1 ds h h2 => sort_anchor ls d1 ds h h2⟩

/-- C2 counterexample: a blank line between an attribute and its declaration
lies inside the parsed block span, so `sortModDeclarations` drops it — a
non-declaration line does **not** keep its content and relative order, contrary
to the claim. -/
theorem automod_C2_counterexample :
    sortModDeclarations [js "#[cfg(a)]", [], js "mod a;", js "mod b;"]
      = [js "#[cfg(a)]", js "mod a;", js "mod b;"]
    ∧ ([] : JStr) ∈ [js "#[cfg(a)]", [], js "mod a;", js "mod b;"]
    ∧ isDeclLine ([] : JStr) = false
    ∧ ([] : JStr) ∉ [js "#[cfg(a)]", js "mod a;", js "mod b;"] := by
  refine ⟨?_, by decide, by decide, by decide⟩
  have hparse : parseModDeclarations [js "#[cfg(a)]", [], js "mod a;", js "mod b;"]
      = [⟨[js "#[cfg(a)]"], js "mod a;", [js "#[cfg(a)]", js "mod a;"], 0, 2⟩,
         ⟨[], js "mod b;", [js "mod b;"], 3, 3⟩] := by decide
  have hsorted : ([⟨[js "#[cfg(a)]"], js "mod a;", [js "#[cfg(a)]", js "mod a;"], 0, 2⟩,
        ⟨[], js "mod b;", [js "mod b;"], 3, 3⟩] : List ModDecl).mergeSort declLe
      = [⟨[js "#[cfg(a)]"], js "mod a;", [js "#[cfg(a)]", js "mod a;"], 0, 2⟩,
         ⟨[], js "mod b;", [js "mod b;"], 3, 3⟩] := by
    refine List.mergeSort_of_sorted ?_
    decide
  rw [sort_eq _ (by rw [hparse]; decide), hparse, hsorted]
  decide

/-- C2 witness: on `["mod b;", "mod a;"]` the anchored-equation conjunct of
`automod_C2_theorem` evaluates concretely. -/
theorem automod_C2_witness :
    parseModDeclarations [js "mod b;", js "mod a;"]
      = [⟨[], js "mod b;", [js "mod b;"], 0, 0⟩, ⟨[], js "mod a;", [js "mod a;"], 1, 1⟩]
    ∧ sortModDeclarations [js "mod b;", js "mod a;"]
      = ([js "mod b;", js "mod a;"]).take 0
        ++ ((((parseModDeclarations [js "mod b;", js "mod a;"]).mergeSort
              declLe).map ModDecl.fullBlock).flatten
          ++ outsideAfter [js "mod b;", js "mod a;"]
              [⟨[], js "mod a;", [js "mod a;"], 1, 1⟩] 1) :=
  ⟨by decide,
    (automod_C2_theorem [js "mod b;", js "mod a;"]).2.2.2
      ⟨[], js "mod b;", [js "mod b;"], 0, 0⟩
      [⟨[], js "mod a;", [js "mod a;"], 1, 1⟩] (by decide) (by decide)⟩

/-! ### Word characters and the module-name matcher -/

theorem word_range (c : Char) (h : isWordChar c = true) :
    (65 ≤ c.toNat ∧ c.toNat ≤ 90) ∨ (97 ≤ c.toNat ∧ c.toNat ≤ 122)
      ∨ (48 ≤ c.toNat ∧ c.toNat ≤ 57) ∨ c.toNat = 95 := by
  simpa [isWordChar] using h

theorem word_not_ws (c : Char) (h : isWordChar c = true) : isWs c = false := by
  have h' := word_range c h
  rw [Bool.eq_false_iff]
  intro hws
  have hcases : ((c = ' ' ∨ c = '\t') ∨ c = '\r') ∨ c = '\n' := by
    simpa [isWs, Char.isWhitespace] using hws
  rcases hcases with ((h1 | h1) | h1) | h1 <;> (subst h1; exact absurd h' (by decide))

theorem word_ne_of_not_word (c d : Char) (hc : isWordChar c = true)
    (hd : isWordChar d = false) : c ≠ d := by
  intro he
  subst he
  rw [hc] at hd
  exact absurd hd (by decide)

theorem word_not_nl (c : Char) (h : isWordChar c = true) : c ≠ '\n' :=
  word_ne_of_not_word c '\n' h (by decide)

theorem word_not_cr (c : Char) (h : isWordChar c = true) : c ≠ '\r' :=
  word_ne_of_not_word c '\r' h (by decide)

theorem word_not_slash (c : Char) (h : isWordChar c = true) : c ≠ '/' :=
  word_ne_of_not_word c '/' h (by decide)

theorem takeWhile_all_append (p : Char → Bool) :
    ∀ (X : JStr) (y : Char) (r : JStr), (∀ c ∈ X, p c = true) → p y = false →
      (X ++ y :: r).takeWhile p = X := by
  intro X
  induction X with
  | nil =>
    intro y r _ hy
    rw [List.nil_append, List.takeWhile_cons, hy]
    rfl
  | cons x xs ih =>
    intro y r hall hy
    rw [List.cons_append, List.takeWhile_cons, hall x (List.mem_cons_self x xs)]
    rw [ih y r (fun c hc => hall c (List.mem_cons_of_mem x hc)) hy]
    rfl

theorem matchLit_append_self : ∀ p t : JStr, matchLit p (p ++ t) = some t := by
  intro p
  induction p with
  | nil => intro t; rfl
  | cons c cs ih =>
    intro t
    show matchLit (c :: cs) (c :: (cs ++ t)) = some t
    unfold matchLit
    rw [if_pos rfl]
    exact ih t

theorem dropWsPlus_space (r : JStr) (c : Char) (t : JStr) (hr : r = c :: t)
    (hc : isWs c = false) : dropWsPlus (' ' :: r) = some r := by
  subst hr
  show some (List.dropWhile isWs (c :: t)) = some (c :: t)
  rw [List.dropWhile_cons, hc]
  rfl

theorem takeWordPlus_word (x : Char) (xs : JStr)
    (hw : ∀ c ∈ x :: xs, isWordChar c = true) :
    takeWordPlus ((x :: xs) ++ js ";") = some (x :: xs) := by
  show (if isWordChar x = true then some (x :: List.takeWhile isWordChar (xs ++ js ";"))
      else none) = some (x :: xs)
  rw [hw x (List.mem_cons_self x xs), if_pos (rfl : (true : Bool) = true)]
  rw [show js ";" = ';' :: ([] : JStr) from rfl]
  rw [takeWhile_all_append isWordChar xs ';' []
    (fun c hc => hw c (List.mem_cons_of_mem x hc)) (by decide)]

theorem matchTail_mod (x : Char) (xs : JStr) (hw : ∀ c ∈ x :: xs, isWordChar c = true) :
    (matchLit (js "mod") (js "mod " ++ ((x :: xs) ++ js ";"))).bind
      (fun r3 => (dropWsPlus r3).bind takeWordPlus) = some (x :: xs) := by
  have h1 : js "mod " ++ ((x :: xs) ++ js ";")
      = js "mod" ++ (' ' :: ((x :: xs) ++ js ";")) := rfl
  rw [h1, matchLit_append_self, Option.some_bind]
  rw [dropWsPlus_space ((x :: xs) ++ js ";") x (xs ++ js ";") rfl
    (word_not_ws x (hw x (List.mem_cons_self x xs)))]
  rw [Option.some_bind]
  exact takeWordPlus_word x xs hw

theorem matchModHere_mod (x : Char) (xs : JStr) (hw : ∀ c ∈ x :: xs, isWordChar c = true) :
    matchModHere (js "mod " ++ ((x :: xs) ++ js ";")) = some (x :: xs) := by
  have hfail : matchLit (js "pub") (js "mod " ++ ((x :: xs) ++ js ";")) = none := rfl
  unfold matchModHere
  rw [hfail, Option.none_bind, matchTail_mod x xs hw]

theorem matchModHere_pub (x : Char) (xs : JStr) (hw : ∀ c ∈ x :: xs, isWordChar c = true) :
    matchModHere (js "pub mod " ++ ((x :: xs) ++ js ";")) = some (x :: xs) := by
  have h1 : js "pub mod " ++ ((x :: xs) ++ js ";")
      = js "pub" ++ (' ' :: (js "mod " ++ ((x :: xs) ++ js ";"))) := rfl
  unfold matchModHere
  rw [h1, matchLit_append_self, Option.some_bind]
  rw [dropWsPlus_space (js "mod " ++ ((x :: xs) ++ js ";")) 'm'
    (js "od " ++ ((x :: xs) ++ js ";")) rfl (by decide)]
  rw [Option.some_bind]
  have h2 : matchLit (js "mod") (js "mod " ++ ((x :: xs) ++ js ";"))
      = some (' ' :: ((x :: xs) ++ js ";")) := by
    have h3 : js "mod " ++ ((x :: xs) ++ js ";")
        = js "mod" ++ (' ' :: ((x :: xs) ++ js ";")) := rfl
    rw [h3, matchLit_append_self]
  rw [h2, Option.some_bind]
  rw [dropWsPlus_space ((x :: xs) ++ js ";") x (xs ++ js ";") rfl
    (word_not_ws x (hw x (List.mem_cons_self x xs)))]
  rw [Option.some_bind]
  rw [takeWordPlus_word x xs hw]

theorem extract_mod (x : Char) (xs : JStr) (hw : ∀ c ∈ x :: xs, isWordChar c = true) :
    extractModuleName (js "mod " ++ ((x :: xs) ++ js ";")) = x :: xs := by
  unfold extractModuleName
  have hform : js "mod " ++ ((x :: xs) ++ js ";")
      = 'm' :: (js "od " ++ ((x :: xs) ++ js ";")) := rfl
  rw [hform]
  unfold findModName
  rw [← hform, matchModHere_mod x xs hw]
  rfl

theorem extract_pub (x : Char) (xs : JStr) (hw : ∀ c ∈ x :: xs, isWordChar c = true) :
    extractModuleName (js "pub mod " ++ ((x :: xs) ++ js ";")) = x :: xs := by
  unfold extractModuleName
  have hform : js "pub mod " ++ ((x :: xs) ++ js ";")
      = 'p' :: (js "ub mod " ++ ((x :: xs) ++ js ";")) := rfl
  rw [hform]
  unfold findModName
  rw [← hform, matchModHere_pub x xs hw]
  rfl

/-! ### Shape of the inserted declaration line -/

theorem trimL_sandwich (c : Char) (m : JStr) (d : Char)
    (hc : isWs c = false) (hd : isWs d = false) :
    trimL (c :: (m ++ [d])) = c :: (m ++ [d]) := by
  unfold trimL
  rw [List.dropWhile_cons, hc]
  simp only [Bool.false_eq_true, if_false]
  have hrev : (c :: (m ++ [d])).reverse = d :: (m.reverse ++ [c]) := by
    rw [List.reverse_cons, List.reverse_append]
    simp
  rw [hrev, List.dropWhile_cons, hd]
  simp only [Bool.false_eq_true, if_false]
  rw [List.reverse_cons, List.reverse_append, List.reverse_reverse]
  simp

theorem startsW_self_append (p r : JStr) : startsW p (p ++ r) = true := by
  unfold startsW
  induction p with
  | nil => simp [List.isPrefixOf]
  | cons c cs ih =>
    show List.isPrefixOf (c :: cs) (c :: (cs ++ r)) = true
    simp only [List.isPrefixOf, Bool.and_eq_true, beq_self_eq_true, true_and]
    exact ih

theorem endsW_append_last (d : Char) (Y : JStr) : endsW [d] (Y ++ [d]) = true := by
  unfold endsW
  have h1 : ([d] : JStr).reverse = [d] := rfl
  have h2 : (Y ++ [d]).reverse = d :: Y.reverse := by
    rw [List.reverse_append]
    rfl
  rw [h1, h2]
  simp [List.isPrefixOf]

theorem endsW_cons_sandwich (c : Char) (m : JStr) (d : Char) :
    endsW [d] (c :: (m ++ [d])) = true := by
  unfold endsW
  have h1 : ([d] : JStr).reverse = [d] := rfl
  have h2 : (c :: (m ++ [d])).reverse = d :: (m.reverse ++ [c]) := by
    rw [List.reverse_cons, List.reverse_append]
    simp
  rw [h1, h2]
  simp [List.isPrefixOf]

theorem beforeComment_no_slash (l : JStr) (h : ∀ c ∈ l, c ≠ '/') :
    beforeComment l = l := by
  induction l with
  | nil => rfl
  | cons c cs ih =>
    unfold beforeComment
    rw [if_neg]
    · rw [ih (fun e he => h e (List.mem_cons_of_mem c he))]
    · rintro ⟨h1, -⟩
      exact h c (List.mem_cons_self c cs) h1

theorem hasSub_of_startsW (p s : JStr) (h : startsW p s = true) : hasSub p s = true := by
  cases s with
  | nil => exact h
  | cons c cs =>
    show (p.isPrefixOf (c :: cs) || hasSub p cs) = true
    rw [show p.isPrefixOf (c :: cs) = startsW p (c :: cs) from rfl, h]
    rfl

theorem hasSub_append (p : JStr) : ∀ (x r : JStr), hasSub p r = true →
    hasSub p (x ++ r) = true := by
  intro x
  induction x with
  | nil => intro r h; exact h
  | cons c cs ih =>
    intro r h
    show (p.isPrefixOf (c :: (cs ++ r)) || hasSub p (cs ++ r)) = true
    rw [ih r h]
    exact Bool.or_true _

theorem pubLine_eq (x : Char) (xs : JStr) :
    js "pub mod" ++ (' ' :: ((x :: xs) ++ js ";"))
      = js "pub mod " ++ ((x :: xs) ++ js ";") := rfl

theorem modLine_eq (x : Char) (xs : JStr) :
    js "mod" ++ (' ' :: ((x :: xs) ++ js ";"))
      = js "mod " ++ ((x :: xs) ++ js ";") := rfl

theorem declline_sandwich_pub (x : Char) (xs : JStr) :
    js "pub mod " ++ ((x :: xs) ++ js ";")
      = 'p' :: ((js "ub mod " ++ (x :: xs)) ++ [';']) := by
  show 'p' :: (js "ub mod " ++ ((x :: xs) ++ [';'])) = _
  rw [← List.append_assoc]

theorem declline_sandwich_mod (x : Char) (xs : JStr) :
    js "mod " ++ ((x :: xs) ++ js ";")
      = 'm' :: ((js "od " ++ (x :: xs)) ++ [';']) := by
  show 'm' :: (js "od " ++ ((x :: xs) ++ [';'])) = _
  rw [← List.append_assoc]

theorem declline_chars_pub (x : Char) (xs : JStr)
    (hw : ∀ c ∈ x :: xs, isWordChar c = true) :
    ∀ c ∈ js "pub mod " ++ ((x :: xs) ++ js ";"),
      c ≠ '\n' ∧ c ≠ '\r' ∧ c ≠ '/' := by
  intro c hc
  rcases List.mem_append.mp hc with h | h
  · refine ⟨?_, ?_, ?_⟩ <;> (intro he; subst he; revert h; decide)
  · rcases List.mem_append.mp h with h2 | h2
    · exact ⟨word_not_nl c (hw c h2), word_not_cr c (hw c h2), word_not_slash c (hw c h2)⟩
    · refine ⟨?_, ?_, ?_⟩ <;> (intro he; subst he; revert h2; decide)

theorem declline_chars_mod (x : Char) (xs : JStr)
    (hw : ∀ c ∈ x :: xs, isWordChar c = true) :
    ∀ c ∈ js "mod " ++ ((x :: xs) ++ js ";"),
      c ≠ '\n' ∧ c ≠ '\r' ∧ c ≠ '/' := by
  intro c hc
  rcases List.mem_append.mp hc with h | h
  · refine ⟨?_, ?_, ?_⟩ <;> (intro he; subst he; revert h; decide)
  · rcases List.mem_append.mp h with h2 | h2
    · exact ⟨word_not_nl c (hw c h2), word_not_cr c (hw c h2), word_not_slash c (hw c h2)⟩
    · refine ⟨?_, ?_, ?_⟩ <;> (intro he; subst he; revert h2; decide)

theorem isDeclLine_pubLine (x : Char) (xs : JStr)
    (hw : ∀ c ∈ x :: xs, isWordChar c = true) :
    isDeclLine (js "pub mod " ++ ((x :: xs) ++ js ";")) = true := by
  have htrim : trimL (js "pub mod " ++ ((x :: xs) ++ js ";"))
      = js "pub mod " ++ ((x :: xs) ++ js ";") := by
    rw [declline_sandwich_pub]
    exact trimL_sandwich 'p' _ ';' (by decide) (by decide)
  have hbc : beforeComment (js "pub mod " ++ ((x :: xs) ++ js ";"))
      = js "pub mod " ++ ((x :: xs) ++ js ";") := by
    refine beforeComment_no_slash _ ?_
    intro c hc
    exact (declline_chars_pub x xs hw c hc).2.2
  rw [isDeclLine_of_instr, htrim, hbc, htrim]
  rw [startsW_self_append (js "pub mod ") ((x :: xs) ++ js ";"), Bool.or_true]
  rw [declline_sandwich_pub x xs]
  rw [show endsW (js ";") = endsW [';'] from rfl]
  rw [endsW_cons_sandwich 'p' (js "ub mod " ++ (x :: xs)) ';']
  rfl

theorem isDeclLine_modLine (x : Char) (xs : JStr)
    (hw : ∀ c ∈ x :: xs, isWordChar c = true) :
    isDeclLine (js "mod " ++ ((x :: xs) ++ js ";")) = true := by
  have htrim : trimL (js "mod " ++ ((x :: xs) ++ js ";"))
      = js "mod " ++ ((x :: xs) ++ js ";") := by
    rw [declline_sandwich_mod]
    exact trimL_sandwich 'm' _ ';' (by decide) (by decide)
  have hbc : beforeComment (js "mod " ++ ((x :: xs) ++ js ";"))
      = js "mod " ++ ((x :: xs) ++ js ";") := by
    refine beforeComment_no_slash _ ?_
    intro c hc
    exact (declline_chars_mod x xs hw c hc).2.2
  rw [isDeclLine_of_instr, htrim, hbc, htrim]
  rw [startsW_self_append (js "mod ") ((x :: xs) ++ js ";"), Bool.true_or]
  rw [declline_sandwich_mod x xs]
  rw [show endsW (js ";") = endsW [';'] from rfl]
  rw [endsW_cons_sandwich 'm' (js "od " ++ (x :: xs)) ';']
  rfl

theorem hasSub_pubLine (x : Char) (xs : JStr) :
    hasSub (js "mod ") (js "pub mod " ++ ((x :: xs) ++ js ";")) = true := by
  have h1 : js "pub mod " ++ ((x :: xs) ++ js ";")
      = js "pub " ++ (js "mod " ++ ((x :: xs) ++ js ";")) := rfl
  rw [h1]
  exact hasSub_append _ _ _ (hasSub_of_startsW _ _ (startsW_self_append _ _))

theorem hasSub_modLine (x : Char) (xs : JStr) :
    hasSub (js "mod ") (js "mod " ++ ((x :: xs) ++ js ";")) = true :=
  hasSub_of_startsW _ _ (startsW_self_append _ _)

/-! ### Splitting and joining round trips -/

theorem splitRN_rn (cs : JStr) : splitRN ('\r' :: '\n' :: cs) = [] :: splitRN cs := rfl

theorem splitRN_nl (cs : JStr) : splitRN ('\n' :: cs) = [] :: splitRN cs := rfl

theorem splitRN_cons_other (c : Char) (cs : JStr) (hc : c ≠ '\n')
    (hnot : ¬(c = '\r' ∧ ∃ cs2, cs = '\n' :: cs2)) :
    splitRN (c :: cs) = consHd c (splitRN cs) := by
  rw [splitRN.eq_def]
  split
  · rename_i heq
    exact absurd heq (by simp)
  · rename_i cs2 heq
    injection heq with h1 h2
    exact absurd ⟨h1, cs2, h2⟩ hnot
  · rename_i cs2 heq
    injection heq with h1 h2
    exact absurd h1 hc
  · rename_i c2 cs2 hn1 hn2 heq
    injection heq with h1 h2
    subst h1
    subst h2
    cases hsp : splitRN cs <;> rfl

theorem splitRN_ne_nil (s : JStr) : splitRN s ≠ [] := by
  rw [splitRN.eq_def]
  split
  · simp
  · simp
  · simp
  · split <;> simp

theorem splitRN_nosplit (l : JStr) (h : '\n' ∉ l) : splitRN l = [l] := by
  induction l with
  | nil => rfl
  | cons c cs ih =>
    have hc : c ≠ '\n' := by
      intro he
      exact h (he ▸ List.mem_cons_self c cs)
    have hcs : '\n' ∉ cs := fun he => h (List.mem_cons_of_mem c he)
    have hnot : ¬(c = '\r' ∧ ∃ cs2, cs = '\n' :: cs2) := by
      rintro ⟨-, cs2, hcs2⟩
      exact hcs (hcs2 ▸ List.mem_cons_self '\n' cs2)
    rw [splitRN_cons_other c cs hc hnot, ih hcs]
    rfl

theorem splitRN_append_nl (l : JStr) (rest : JStr) (hnl : '\n' ∉ l) (hcr : '\r' ∉ l) :
    splitRN (l ++ '\n' :: rest) = l :: splitRN rest := by
  induction l with
  | nil =>
    rw [List.nil_append, splitRN_nl]
  | cons c cs ih =>
    have hc : c ≠ '\n' := by
      intro he
      exact hnl (he ▸ List.mem_cons_self c cs)
    have hnot : ¬(c = '\r' ∧ ∃ cs2, cs ++ '\n' :: rest = '\n' :: cs2) := by
      rintro ⟨hce, -⟩
      exact hcr (hce ▸ List.mem_cons_self c cs)
    rw [List.cons_append, splitRN_cons_other c _ hc hnot]
    rw [ih (fun he => hnl (List.mem_cons_of_mem c he))
      (fun he => hcr (List.mem_cons_of_mem c he))]
    rfl

theorem joinNL_snoc (ls : List JStr) (t : JStr) (h : ls ≠ []) :
    joinNL (ls ++ [t]) = joinNL ls ++ '\n' :: t := by
  induction ls with
  | nil => exact absurd rfl h
  | cons l ls ih =>
    cases ls with
    | nil => rfl
    | cons l2 ls2 =>
      show l ++ '\n' :: joinNL ((l2 :: ls2) ++ [t]) = (l ++ '\n' :: joinNL (l2 :: ls2)) ++ '\n' :: t
      rw [ih (by simp), List.append_assoc, List.cons_append]

theorem splitRN_joinNL (ls : List JStr) (h : ls ≠ [])
    (hfree : ∀ l ∈ ls, '\n' ∉ l ∧ '\r' ∉ l) :
    splitRN (joinNL ls) = ls := by
  induction ls with
  | nil => exact absurd rfl h
  | cons l ls ih =>
    cases ls with
    | nil => exact splitRN_nosplit l (hfree l (List.mem_cons_self l [])).1
    | cons l2 ls2 =>
      show splitRN (l ++ '\n' :: joinNL (l2 :: ls2)) = l :: l2 :: ls2
      rw [splitRN_append_nl l _ (hfree l (List.mem_cons_self l _)).1
        (hfree l (List.mem_cons_self l _)).2]
      rw [ih (by simp) (fun e he => hfree e (List.mem_cons_of_mem l he))]

theorem splitRN_no_nl (s : JStr) : ∀ l ∈ splitRN s, '\n' ∉ l := by
  induction s with
  | nil =>
    intro l hl
    have : l = [] := by simpa [splitRN] using hl
    subst this
    simp
  | cons c cs ih =>
    by_cases hc : c = '\n'
    · subst hc
      rw [splitRN_nl]
      intro l hl
      rcases List.mem_cons.mp hl with hl | hl
      · subst hl; simp
      · exact ih l hl
    · by_cases hrn : c = '\r' ∧ ∃ cs2, cs = '\n' :: cs2
      · obtain ⟨hce, cs2, hcs⟩ := hrn
        subst hce
        subst hcs
        rw [splitRN_rn]
        intro l hl
        rcases List.mem_cons.mp hl with hl | hl
        · subst hl; simp
        · exact ih l (by rw [splitRN_nl]; exact List.mem_cons_of_mem [] hl)
      · rw [splitRN_cons_other c cs hc hrn]
        intro l hl
        cases hsp : splitRN cs with
        | nil => exact absurd hsp (splitRN_ne_nil cs)
        | cons hd tl =>
          rw [hsp] at hl
          simp only [consHd] at hl
          rcases List.mem_cons.mp hl with hl | hl
          · subst hl
            intro hmem
            rcases List.mem_cons.mp hmem with he | he
            · exact hc he.symm
            · exact ih hd (hsp ▸ List.mem_cons_self hd tl) he
          · exact ih l (hsp ▸ List.mem_cons_of_mem hd hl)

theorem splitRN_no_cr (s : JStr) (hcr : '\r' ∉ s) : ∀ l ∈ splitRN s, '\r' ∉ l := by
  induction s with
  | nil =>
    intro l hl
    have : l = [] := by simpa [splitRN] using hl
    subst this
    simp
  | cons c cs ih =>
    have hccr : c ≠ '\r' := by
      intro he
      exact hcr (he ▸ List.mem_cons_self c cs)
    have hcs : '\r' ∉ cs := fun he => hcr (List.mem_cons_of_mem c he)
    by_cases hc : c = '\n'
    · subst hc
      rw [splitRN_nl]
      intro l hl
      rcases List.mem_cons.mp hl with hl | hl
      · subst hl; simp
      · exact ih hcs l hl
    · have hrn : ¬(c = '\r' ∧ ∃ cs2, cs = '\n' :: cs2) := by
        rintro ⟨hce, -⟩
        exact hccr hce
      rw [splitRN_cons_other c cs hc hrn]
      intro l hl
      cases hsp : splitRN cs with
      | nil => exact absurd hsp (splitRN_ne_nil cs)
      | cons hd tl =>
        rw [hsp] at hl
        simp only [consHd] at hl
        rcases List.mem_cons.mp hl with hl | hl
        · subst hl
          intro hmem
          rcases List.mem_cons.mp hmem with he | he
          · exact hccr he.symm
          · exact ih hcs hd (hsp ▸ List.mem_cons_self hd tl) he
        · exact ih hcs l (hsp ▸ List.mem_cons_of_mem hd hl)

/-! ### Membership of produced lines in the input lines -/

theorem getD_oob {α : Type} (l : List α) (n : Nat) (d : α) (h : l.length ≤ n) :
    l.getD n d = d := by
  rw [List.getD_eq_getElem?_getD, List.getElem?_eq_none h]
  rfl

theorem scanAttrs_mem (L : List JStr) :
    ∀ (n st : Nat) (ac : List JStr), ∀ a ∈ (scanAttrs L n (st, ac)).2, a ∈ ac ∨ a ∈ L := by
  intro n
  induction n with
  | zero =>
    intro st ac a ha
    exact Or.inl ha
  | succ n ih =>
    intro st ac a ha
    by_cases hA : isAttrLine (L.getD n []) = true
    · rw [scanAttrs_step_attr L n st ac hA] at ha
      rcases ih n (L.getD n [] :: ac) a ha with hin | hin
      · rcases List.mem_cons.mp hin with hin | hin
        · subst hin
          rcases Nat.lt_or_ge n L.length with hlt | hge
          · exact Or.inr (getD_mem_of_lt L n [] hlt)
          · rw [getD_oob L n [] hge] at hA
            exact absurd hA (by decide)
        · exact Or.inl hin
      · exact Or.inr hin
    · rw [Bool.not_eq_true] at hA
      by_cases hS : isSkipLine (L.getD n []) = true
      · rw [scanAttrs_step_skip L n st ac hA hS] at ha
        exact ih st ac a ha
      · rw [Bool.not_eq_true] at hS
        rw [scanAttrs_step_stop L n st ac hA hS] at ha
        exact Or.inl ha

theorem parse_block_mem (L : List JStr) (d : ModDecl)
    (hd : d ∈ parseModDeclarations L) : ∀ y ∈ d.fullBlock, y ∈ L := by
  rw [parse_eq_map_mkDecl] at hd
  obtain ⟨i, hi, hmk⟩ := List.mem_map.mp hd
  have hlen : i < L.length := declIdxs_lt L i hi
  subst hmk
  intro y hy
  rcases List.mem_append.mp hy with hy | hy
  · rcases scanAttrs_mem L i i [] y hy with hin | hin
    · cases hin
    · exact hin
  · rw [List.mem_singleton.mp hy]
    exact getD_mem_of_lt L i [] hlen

theorem outsideAfter_subset (L : List JStr) :
    ∀ (ds : List ModDecl) (pos : Nat), ∀ x ∈ outsideAfter L ds pos, x ∈ L := by
  intro ds
  induction ds with
  | nil =>
    intro pos x hx
    exact List.drop_subset pos L hx
  | cons d ds ih =>
    intro pos x hx
    rcases List.mem_append.mp hx with hx | hx
    · exact List.drop_subset pos L (List.take_subset _ _ hx)
    · exact ih (d.endIndex + 1) x hx

theorem sort_mem (ls : List JStr) : ∀ x ∈ sortModDeclarations ls, x ∈ ls := by
  rcases Nat.lt_or_ge (parseModDeclarations ls).length 2 with hle | hge
  · rw [sort_noop ls (by omega)]
    exact fun x hx => hx
  · rw [sort_eq ls hge]
    intro x hx
    unfold spliceInsert at hx
    have hrm : ∀ y ∈ removeDecls ls (parseModDeclarations ls), y ∈ ls := by
      rw [removeDecls_parse]
      exact outsideAfter_subset ls (parseModDeclarations ls) 0
    rcases List.mem_append.mp hx with hx | hx
    · rcases List.mem_append.mp hx with hx | hx
      · exact hrm x (List.take_subset _ _ hx)
      · obtain ⟨blk, hblk, hxblk⟩ := List.mem_flatten.mp hx
        obtain ⟨e, he, hbe⟩ := List.mem_map.mp hblk
        have hmem : e ∈ parseModDeclarations ls :=
          (List.mergeSort_perm (parseModDeclarations ls) declLe).mem_iff.mp he
        exact parse_block_mem ls e hmem x (hbe ▸ hxblk)
    · exact hrm x (List.drop_subset _ _ hx)

/-! ### Name-counting lemmas -/

theorem parse_filter_name (L : List JStr) (X : JStr) :
    ((parseModDeclarations L).filter (fun m => extractModuleName m.modLine = X)).length
      = ((L.filter isDeclLine).filter (fun l => extractModuleName l = X)).length := by
  rw [← parse_modLines, List.filter_map, List.length_map]
  rfl

theorem parse_filter_name_nil (L : List JStr) (X : JStr)
    (h : (parseModDeclarations L).filter (fun m => extractModuleName m.modLine = X) = []) :
    (L.filter isDeclLine).filter (fun l => extractModuleName l = X) = [] := by
  rw [← List.length_eq_zero, ← parse_filter_name, h]
  rfl

theorem filter2_take_drop (L : List JStr) (i : Nat) (p q : JStr → Bool) :
    ((L.take i).filter p).filter q ++ ((L.drop i).filter p).filter q
      = (L.filter p).filter q := by
  rw [← List.filter_append, ← List.filter_append, List.take_append_drop]

theorem sort_filter2_length (ls : List JStr) (q : JStr → Bool) :
    (((sortModDeclarations ls).filter isDeclLine).filter q).length
      = ((ls.filter isDeclLine).filter q).length :=
  ((sortPres ls).filter q).length_eq

/-! ### The insertion path of `addModLine` -/

theorem spliceInsert_mem {x : JStr} (L : List JStr) (i : Nat) (new : List JStr)
    (h : x ∈ spliceInsert L i new) : x ∈ L ∨ x ∈ new := by
  unfold spliceInsert at h
  rcases List.mem_append.mp h with h | h
  · rcases List.mem_append.mp h with h | h
    · exact Or.inl (List.take_subset i L h)
    · exact Or.inr h
  · exact Or.inl (List.drop_subset i L h)

theorem addLines4_cases (rule : AutomodRule) (lines newLines : List JStr) :
    ∃ (lines2 : List JStr) (idx2 : Nat),
      (lines2 = lines ∨ ∃ idx, lines2 = spliceInsert lines idx [[]])
      ∧ addLines4 rule lines newLines
        = (if rule.sort = .alpha
            then sortModDeclarations (spliceInsert lines2 idx2 newLines)
            else spliceInsert lines2 idx2 newLines) := by
  simp only [addLines4]
  by_cases hnb : addNeedBlank lines (addInsertIndex lines) = true
  · refine ⟨spliceInsert lines (addInsertIndex lines) [[]], addInsertIndex lines + 1,
      Or.inr ⟨addInsertIndex lines, rfl⟩, ?_⟩
    rw [if_pos hnb, if_pos hnb]
  · refine ⟨lines, addInsertIndex lines, Or.inl rfl, ?_⟩
    rw [if_neg hnb, if_neg hnb]

theorem addLines4_filter2 (rule : AutomodRule) (lines : List JStr) (M X : JStr)
    (hdeclM : isDeclLine M = true) (hexM : extractModuleName M = X)
    (hnodup : (lines.filter isDeclLine).filter (fun l => extractModuleName l = X) = []) :
    (((addLines4 rule lines [M]).filter isDeclLine).filter
      (fun l => extractModuleName l = X)).length = 1 := by
  obtain ⟨l2, i2, hl2, heq⟩ := addLines4_cases rule lines [M]
  have hl2f : ((l2.filter isDeclLine).filter (fun l => extractModuleName l = X)).length
      = 0 := by
    rcases hl2 with hl2 | ⟨idx, hl2⟩
    · rw [hl2, hnodup]
      rfl
    · rw [hl2]
      show (((lines.take idx ++ [[]] ++ lines.drop idx).filter isDeclLine).filter _).length = 0
      rw [List.append_assoc, List.filter_append, List.filter_append, List.length_append]
      rw [List.filter_append, List.filter_append, List.length_append]
      have hmid : (([[]] : List JStr).filter isDeclLine).filter
          (fun l => extractModuleName l = X) = [] := rfl
      rw [hmid]
      have hsum : (((lines.take idx).filter isDeclLine).filter
            (fun l => extractModuleName l = X)).length
          + (((lines.drop idx).filter isDeclLine).filter
            (fun l => extractModuleName l = X)).length
          = ((lines.filter isDeclLine).filter (fun l => extractModuleName l = X)).length := by
        rw [← List.length_append, filter2_take_drop]
      rw [hnodup] at hsum
      simp only [List.length_nil] at hsum ⊢
      omega
  have h3 : (((spliceInsert l2 i2 [M]).filter isDeclLine).filter
      (fun l => extractModuleName l = X)).length = 1 := by
    show (((l2.take i2 ++ [M] ++ l2.drop i2).filter isDeclLine).filter _).length = 1
    rw [List.append_assoc, List.filter_append, List.filter_append, List.length_append]
    rw [List.filter_append, List.filter_append, List.length_append]
    have hmid : ((([M] : List JStr).filter isDeclLine).filter
        (fun l => extractModuleName l = X)).length = 1 := by
      rw [List.filter_cons, hdeclM]
      simp only [if_true]
      rw [List.filter_nil, List.filter_cons, hexM]
      simp
    have hsum : (((l2.take i2).filter isDeclLine).filter
          (fun l => extractModuleName l = X)).length
        + (((l2.drop i2).filter isDeclLine).filter
          (fun l => extractModuleName l = X)).length
        = ((l2.filter isDeclLine).filter (fun l => extractModuleName l = X)).length := by
      rw [← List.length_append, filter2_take_drop]
    rw [hl2f] at hsum
    omega
  rw [heq]
  by_cases hs : rule.sort = .alpha
  · rw [if_pos hs, sort_filter2_length]
    exact h3
  · rw [if_neg hs]
    exact h3

theorem addLines4_free (rule : AutomodRule) (lines : List JStr) (M : JStr)
    (hlf : ∀ l ∈ lines, '\n' ∉ l ∧ '\r' ∉ l)
    (hM : '\n' ∉ M ∧ '\r' ∉ M) :
    ∀ l ∈ addLines4 rule lines [M], '\n' ∉ l ∧ '\r' ∉ l := by
  obtain ⟨l2, i2, hl2, heq⟩ := addLines4_cases rule lines [M]
  have hl2f : ∀ l ∈ l2, '\n' ∉ l ∧ '\r' ∉ l := by
    rcases hl2 with hl2 | ⟨idx, hl2⟩
    · rw [hl2]
      exact hlf
    · rw [hl2]
      intro l hl
      rcases spliceInsert_mem lines idx [[]] hl with h | h
      · exact hlf l h
      · rw [List.mem_singleton.mp h]
        simp
  have hl3f : ∀ l ∈ spliceInsert l2 i2 [M], '\n' ∉ l ∧ '\r' ∉ l := by
    intro l hl
    rcases spliceInsert_mem l2 i2 [M] hl with h | h
    · exact hl2f l h
    · rw [List.mem_singleton.mp h]
      exact hM
  rw [heq]
  by_cases hs : rule.sort = .alpha
  · rw [if_pos hs]
    intro l hl
    exact hl3f l (sort_mem _ l hl)
  · rw [if_neg hs]
    exact hl3f

theorem addLines4_ne_nil (rule : AutomodRule) (lines : List JStr) (M : JStr)
    (hdeclM : isDeclLine M = true) :
    addLines4 rule lines [M] ≠ [] := by
  obtain ⟨l2, i2, hl2, heq⟩ := addLines4_cases rule lines [M]
  have hM3 : M ∈ spliceInsert l2 i2 [M] := by
    unfold spliceInsert
    exact List.mem_append_left _ (List.mem_append_right _ (List.mem_singleton_self M))
  rw [heq]
  by_cases hs : rule.sort = .alpha
  · rw [if_pos hs]
    have hMf : M ∈ (spliceInsert l2 i2 [M]).filter isDeclLine :=
      List.mem_filter.mpr ⟨hM3, hdeclM⟩
    have hMs : M ∈ (sortModDeclarations (spliceInsert l2 i2 [M])).filter isDeclLine :=
      (sortPres (spliceInsert l2 i2 [M])).mem_iff.mpr hMf
    exact List.ne_nil_of_mem (List.mem_of_mem_filter hMs)
  · rw [if_neg hs]
    exact List.ne_nil_of_mem hM3

theorem addModLine_dup_eq (rule : AutomodRule) (content : JStr) (newLines : List JStr)
    (M : JStr) (hfind : newLines.find? (fun line => hasSub (js "mod ") line) = some M)
    (hne : extractModuleName M ≠ [])
    (hdup : (parseModDeclarations (splitRN content)).filter
      (fun m => extractModuleName m.modLine = extractModuleName M) ≠ []) :
    addModLine rule content newLines = content := by
  simp only [addModLine]
  rw [hfind, Option.getD_some, if_pos ⟨hne, hdup⟩]

theorem addModLine_new_eq (rule : AutomodRule) (content : JStr) (newLines : List JStr)
    (M : JStr) (hfind : newLines.find? (fun line => hasSub (js "mod ") line) = some M)
    (hguard : ¬(extractModuleName M ≠ []
      ∧ (parseModDeclarations (splitRN content)).filter
          (fun m => extractModuleName m.modLine = extractModuleName M) ≠ [])) :
    addModLine rule content newLines
      = (if endsNL content
          then joinNL (addLines4 rule (splitRN content) newLines) ++ js "\n"
          else joinNL (addLines4 rule (splitRN content) newLines)) := by
  simp only [addModLine]
  rw [hfind, Option.getD_some, if_neg hguard]

theorem getModDeclarations_cfg_none (rule : AutomodRule) (x : Char) (xs : JStr)
    (hcfg : rule.cfg = none) (hw : ∀ c ∈ x :: xs, isWordChar c = true) :
    ∃ M : JStr, getModDeclarations (x :: xs) rule = [M]
      ∧ isDeclLine M = true
      ∧ extractModuleName M = x :: xs
      ∧ ('\n' ∉ M ∧ '\r' ∉ M)
      ∧ hasSub (js "mod ") M = true := by
  by_cases hv : rule.visibility = .priv
  · refine ⟨js "mod " ++ ((x :: xs) ++ js ";"), ?_, isDeclLine_modLine x xs hw,
      extract_mod x xs hw, ?_, hasSub_modLine x xs⟩
    · simp only [getModDeclarations, hcfg]
      rw [if_pos hv]
      rfl
    · constructor
      · intro hmem
        exact (declline_chars_mod x xs hw '\n' hmem).1 rfl
      · intro hmem
        exact (declline_chars_mod x xs hw '\r' hmem).2.1 rfl
  · refine ⟨js "pub mod " ++ ((x :: xs) ++ js ";"), ?_, isDeclLine_pubLine x xs hw,
      extract_pub x xs hw, ?_, hasSub_pubLine x xs⟩
    · simp only [getModDeclarations, hcfg]
      rw [if_neg hv]
      rfl
    · constructor
      · intro hmem
        exact (declline_chars_pub x xs hw '\n' hmem).1 rfl
      · intro hmem
        exact (declline_chars_pub x xs hw '\r' hmem).2.1 rfl

theorem addML_insert_count (rule : AutomodRule) (content M X : JStr)
    (hsubM : hasSub (js "mod ") M = true)
    (hdeclM : isDeclLine M = true) (hexM : extractModuleName M = X) (hXne : X ≠ [])
    (hMch : '\n' ∉ M ∧ '\r' ∉ M)
    (hcr : '\r' ∉ content)
    (hnodup : (parseModDeclarations (splitRN content)).filter
      (fun m => extractModuleName m.modLine = X) = []) :
    ((parseModDeclarations (splitRN (addModLine rule content [M]))).filter
      (fun m => extractModuleName m.modLine = X)).length = 1 := by
  have hfind : ([M] : List JStr).find? (fun line => hasSub (js "mod ") line) = some M :=
    List.find?_cons_of_pos _ hsubM
  have hguard : ¬(extractModuleName M ≠ []
      ∧ (parseModDeclarations (splitRN content)).filter
          (fun m => extractModuleName m.modLine = extractModuleName M) ≠ []) := by
    rw [hexM]
    rintro ⟨-, hne⟩
    exact hne hnodup
  rw [addModLine_new_eq rule content [M] M hfind hguard]
  have hlf : ∀ l ∈ splitRN content, '\n' ∉ l ∧ '\r' ∉ l :=
    fun l hl => ⟨splitRN_no_nl content l hl, splitRN_no_cr content hcr l hl⟩
  have hfree := addLines4_free rule (splitRN content) M hlf hMch
  have hne4 := addLines4_ne_nil rule (splitRN content) M hdeclM
  have hnodup2 : ((splitRN content).filter isDeclLine).filter
      (fun l => extractModuleName l = X) = [] := parse_filter_name_nil _ X hnodup
  have hcount := addLines4_filter2 rule (splitRN content) M X hdeclM hexM hnodup2
  by_cases hend : endsNL content
  · rw [if_pos hend]
    have hjoin : joinNL (addLines4 rule (splitRN content) [M]) ++ js "\n"
        = joinNL (addLines4 rule (splitRN content) [M] ++ [[]]) := by
      rw [joinNL_snoc _ [] hne4]
      rfl
    have hfree2 : ∀ l ∈ addLines4 rule (splitRN content) [M] ++ [[]],
        '\n' ∉ l ∧ '\r' ∉ l := by
      intro l hl
      rcases List.mem_append.mp hl with h | h
      · exact hfree l h
      · rw [List.mem_singleton.mp h]
        simp
    rw [hjoin, splitRN_joinNL _ (by simp) hfree2, parse_filter_name]
    rw [List.filter_append, show (([[]] : List JStr).filter isDeclLine) = [] from rfl,
      List.append_nil]
    exact hcount
  · rw [if_neg hend, splitRN_joinNL _ hne4 hfree, parse_filter_name]
    exact hcount

/-- C1 (amended): the claim's "exactly one declaration named X" holds only
for blocks without `cfg` conditions — a rule carrying `k` conditions makes
`getModDeclarations` emit one `#[cfg]`/declaration pair per condition, so
insertion followed by re-parse yields `k` declarations named `X`, refuting
"exactly one" (see `automod_C1_counterexample`, where `k = 2`).  For the
default block (`cfg = none`, so a single declaration line `"[pub ]mod X;"`
for a nonempty word-character name `X`) over any LF-only content: (1) if no
declaration named `X` parses from the content, inserting with `addModLine`
and re-parsing yields exactly one declaration named `X`; (2) if a declaration
named `X` already parses from the content, `addModLine` returns the content
unchanged (this duplicate no-op needs no `cfg` restriction in the code, the
guard runs before the block is inserted); and (3) hence a second insertion
with the same name is a no-op (idempotence). -/
theorem automod_C1_theorem (rule : AutomodRule) (content : JStr) (x : Char) (xs : JStr)
    (hcfg : rule.cfg = none)
    (hw : ∀ c ∈ x :: xs, isWordChar c = true)
    (hcr : '\r' ∉ content) :
    ((parseModDeclarations (splitRN content)).filter
        (fun m => extractModuleName m.modLine = x :: xs) = [] →
      ((parseModDeclarations (splitRN (addModLine rule content
          (getModDeclarations (x :: xs) rule)))).filter
        (fun m => extractModuleName m.modLine = x :: xs)).length = 1)
    ∧ ((parseModDeclarations (splitRN content)).filter
        (fun m => extractModuleName m.modLine = x :: xs) ≠ [] →
      addModLine rule content (getModDeclarations (x :: xs) rule) = content)
    ∧ addModLine rule (addModLine rule content (getModDeclarations (x :: xs) rule))
        (getModDeclarations (x :: xs) rule)
      = addModLine rule content (getModDeclarations (x :: xs) rule) := by
  obtain ⟨M, hnewEq, hdeclM, hexM, hMch, hsubM⟩ :=
    getModDeclarations_cfg_none rule x xs hcfg hw
  have hfind : (getModDeclarations (x :: xs) rule).find?
      (fun line => hasSub (js "mod ") line) = some M := by
    rw [hnewEq]
    exact List.find?_cons_of_pos _ hsubM
  have hXne : (x :: xs : JStr) ≠ [] := by simp
  have hins : ∀ c : JStr, '\r' ∉ c →
      (parseModDeclarations (splitRN c)).filter
        (fun m => extractModuleName m.modLine = x :: xs) = [] →
      ((parseModDeclarations (splitRN (addModLine rule c
          (getModDeclarations (x :: xs) rule)))).filter
        (fun m => extractModuleName m.modLine = x :: xs)).length = 1 := by
    intro c hc hno
    rw [hnewEq]
    exact addML_insert_count rule c M (x :: xs) hsubM hdeclM hexM hXne hMch hc hno
  have hdupf : ∀ c : JStr,
      (parseModDeclarations (splitRN c)).filter
        (fun m => extractModuleName m.modLine = x :: xs) ≠ [] →
      addModLine rule c (getModDeclarations (x :: xs) rule) = c := by
    intro c hdup
    refine addModLine_dup_eq rule c _ M hfind ?_ ?_
    · rw [hexM]
      exact hXne
    · rw [hexM]
      exact hdup
  refine ⟨hins content hcr, hdupf content, ?_⟩
  by_cases h : (parseModDeclarations (splitRN content)).filter
      (fun m => extractModuleName m.modLine = x :: xs) = []
  · have hc1 := hins content hcr h
    refine hdupf _ ?_
    intro hnil
    rw [hnil] at hc1
    simp at hc1
  · have he := hdupf content h
    rw [he]
    exact he

/-- C1 witness: inserting `mod a;` into declaration-free content yields
exactly one declaration named `a` on re-parse. -/
theorem automod_C1_witness :
    (parseModDeclarations (splitRN (js "fn f();"))).filter
        (fun m => extractModuleName m.modLine = 'a' :: []) = []
    ∧ ((parseModDeclarations (splitRN (addModLine {} (js "fn f();")
          (getModDeclarations ('a' :: []) {})))).filter
        (fun m => extractModuleName m.modLine = 'a' :: [])).length = 1 :=
  ⟨by decide,
    (automod_C1_theorem {} (js "fn f();") 'a' [] rfl (by decide) (by decide)).1 (by decide)⟩

/-- C1 counterexample: with a `cfg`-bearing rule (two conditions, `unix` and
`windows`), the content `"fn f();"` contains no declaration named `x`, yet
inserting the block for `x` with `addModLine` and re-parsing yields **two**
declarations named `x` — one per condition — refuting the claim's "exactly
one declaration named X". -/
theorem automod_C1_counterexample :
    (parseModDeclarations (splitRN (js "fn f();"))).filter
        (fun m => extractModuleName m.modLine = 'x' :: []) = []
    ∧ ((parseModDeclarations (splitRN (addModLine
          { cfg := some [js "unix", js "windows"] } (js "fn f();")
          (getModDeclarations ('x' :: [])
            { cfg := some [js "unix", js "windows"] })))).filter
        (fun m => extractModuleName m.modLine = 'x' :: [])).length = 2 := by
  constructor
  · decide
  · decide

/-! ### Trailing newlines and line preservation -/

theorem getLast?_mem' {α : Type} : ∀ (l : List α) (a : α), l.getLast? = some a → a ∈ l := by
  intro l
  induction l with
  | nil => intro a h; cases h
  | cons b l ih =>
    intro a h
    cases l with
    | nil =>
      rw [List.getLast?_singleton] at h
      rw [← Option.some.inj h]
      exact List.mem_singleton_self b
    | cons c l2 =>
      rw [List.getLast?_cons_cons] at h
      exact List.mem_cons_of_mem b (ih a h)

theorem endsNL_true_iff (s : JStr) : endsNL s = true ↔ s.getLast? = some '\n' := by
  simp [endsNL]

theorem endsNL_concat_nl (s : JStr) : endsNL (s ++ ['\n']) = true := by
  rw [endsNL_true_iff, List.getLast?_concat]

theorem endsNL_joinNL_false : ∀ (ls : List JStr) (t : JStr), ls.getLast? = some t →
    t ≠ [] → (∀ l ∈ ls, '\n' ∉ l) → endsNL (joinNL ls) = false := by
  intro ls
  induction ls with
  | nil => intro t h; cases h
  | cons l ls ih =>
    intro t hlast ht hnl
    cases ls with
    | nil =>
      rw [List.getLast?_singleton] at hlast
      have hlt : l = t := Option.some.inj hlast
      show endsNL l = false
      rw [Bool.eq_false_iff]
      intro he
      have := getLast?_mem' l '\n' ((endsNL_true_iff l).mp he)
      exact hnl l (List.mem_cons_self l []) this
    | cons l2 ls2 =>
      rw [List.getLast?_cons_cons] at hlast
      have hJ := ih t hlast ht (fun e he => hnl e (List.mem_cons_of_mem l he))
      have hJne : joinNL (l2 :: ls2) ≠ [] := by
        cases ls2 with
        | nil =>
          show l2 ≠ []
          rw [List.getLast?_singleton] at hlast
          rw [Option.some.inj hlast]
          exact ht
        | cons l3 ls3 =>
          show l2 ++ '\n' :: joinNL (l3 :: ls3) ≠ []
          cases l2 <;> simp
      show endsNL (l ++ '\n' :: joinNL (l2 :: ls2)) = false
      rw [Bool.eq_false_iff]
      intro he
      rw [endsNL_true_iff, List.getLast?_append_of_ne_nil _ (by simp)] at he
      cases hJc : joinNL (l2 :: ls2) with
      | nil => exact hJne hJc
      | cons j1 jr =>
        rw [hJc, List.getLast?_cons_cons] at he
        rw [Bool.eq_false_iff] at hJ
        exact hJ ((endsNL_true_iff _).mpr (by rw [hJc]; exact he))

theorem splitRN_last_ne_nil : ∀ (s : JStr), s ≠ [] → endsNL s = false →
    ∀ t, (splitRN s).getLast? = some t → t ≠ [] := by
  intro s
  induction s with
  | nil => intro h; exact absurd rfl h
  | cons c cs ih =>
    intro _ hend t hlast
    cases hcs : cs with
    | nil =>
      subst hcs
      have hc : c ≠ '\n' := by
        intro he
        subst he
        exact absurd (by decide : endsNL ['\n'] = true) (by rw [hend]; decide)
      have hnot : ¬(c = '\r' ∧ ∃ cs2, ([] : JStr) = '\n' :: cs2) := by
        rintro ⟨-, cs2, hcs2⟩
        cases hcs2
      rw [splitRN_cons_other c [] hc hnot] at hlast
      have : t = [c] := by
        have h2 : (consHd c (splitRN [])).getLast? = some [c] := rfl
        rw [h2] at hlast
        exact (Option.some.inj hlast).symm
      rw [this]
      simp
    | cons c2 cs2 =>
      subst hcs
      have hend2 : endsNL (c2 :: cs2) = false := by
        rw [Bool.eq_false_iff] at hend ⊢
        intro he
        refine hend ?_
        rw [endsNL_true_iff] at he ⊢
        rw [List.getLast?_cons_cons]
        exact he
      have ihcs := ih (by simp) hend2
      by_cases hc : c = '\n'
      · subst hc
        rw [splitRN_nl] at hlast
        cases hsp : splitRN (c2 :: cs2) with
        | nil => exact absurd hsp (splitRN_ne_nil _)
        | cons s1 sr =>
          rw [hsp, List.getLast?_cons_cons] at hlast
          exact ihcs t (by rw [hsp]; exact hlast)
      · by_cases hrn : c = '\r' ∧ ∃ cs3, c2 :: cs2 = '\n' :: cs3
        · obtain ⟨hce, cs3, hcs3⟩ := hrn
          subst hce
          injection hcs3 with h1 h2
          subst h1
          rw [splitRN_rn] at hlast
          exact ihcs t (by rw [splitRN_nl]; exact hlast)
        · rw [splitRN_cons_other c _ hc hrn] at hlast
          cases hsp : splitRN (c2 :: cs2) with
          | nil => exact absurd hsp (splitRN_ne_nil _)
          | cons s1 sr =>
            rw [hsp] at hlast
            cases hsr : sr with
            | nil =>
              rw [hsr] at hlast
              have : t = c :: s1 := by
                have h2 : (consHd c [s1]).getLast? = some (c :: s1) := rfl
                rw [h2] at hlast
                exact (Option.some.inj hlast).symm
              rw [this]
              simp
            | cons s2 sr2 =>
              subst hsr
              have hl2 : (consHd c (s1 :: s2 :: sr2)).getLast?
                  = (s1 :: s2 :: sr2).getLast? := by
                show ((c :: s1) :: s2 :: sr2).getLast? = _
                rw [List.getLast?_cons_cons, List.getLast?_cons_cons]
              rw [hl2] at hlast
              exact ihcs t (by rw [hsp]; exact hlast)

theorem spliceInsert_length (L new : List JStr) (i : Nat) (h : i ≤ L.length) :
    (spliceInsert L i new).length = L.length + new.length := by
  unfold spliceInsert
  rw [List.length_append, List.length_append, List.length_take, List.length_drop]
  omega

theorem getLast_spliceInsert (L new : List JStr) (i : Nat) (hnew : new ≠ []) :
    (spliceInsert L i new).getLast?
      = (if i < L.length then L.getLast? else new.getLast?) := by
  unfold spliceInsert
  by_cases h : i < L.length
  · rw [if_pos h]
    have hd : L.drop i ≠ [] := by
      intro he
      have := List.drop_eq_nil_iff_le.mp he
      omega
    rw [List.append_assoc, List.getLast?_append_of_ne_nil _ (by
      intro he
      rcases List.append_eq_nil.mp he with ⟨-, h2⟩
      exact hd h2)]
    rw [List.getLast?_append_of_ne_nil _ hd]
    rw [List.getLast?_eq_getElem?, List.getLast?_eq_getElem?, List.getElem?_drop,
      List.length_drop]
    congr 1
    omega
  · rw [if_neg h]
    rw [List.take_of_length_le (by omega), List.drop_eq_nil_of_le (by omega),
      List.append_nil]
    exact List.getLast?_append_of_ne_nil _ hnew

theorem sublist_spliceInsert (L : List JStr) (i : Nat) (new : List JStr) :
    List.Sublist L (spliceInsert L i new) := by
  unfold spliceInsert
  rw [List.append_assoc]
  conv_lhs => rw [← List.take_append_drop i L]
  exact (List.sublist_append_right new (L.drop i)).append_left (L.take i)

theorem addLines4_sublist (rule : AutomodRule) (lines newLines : List JStr)
    (hs : rule.sort ≠ .alpha) :
    List.Sublist lines (addLines4 rule lines newLines) := by
  obtain ⟨l2, i2, hl2, heq⟩ := addLines4_cases rule lines newLines
  rw [heq, if_neg hs]
  have h2 : List.Sublist lines l2 := by
    rcases hl2 with hl2 | ⟨idx, hl2⟩
    · rw [hl2]
    · rw [hl2]
      exact sublist_spliceInsert lines idx [[]]
  exact h2.trans (sublist_spliceInsert l2 i2 newLines)

theorem addLines4_getLast (rule : AutomodRule) (lines newLines : List JStr)
    (hs : rule.sort ≠ .alpha) (hnew : newLines ≠ []) :
    ((addLines4 rule lines newLines).getLast? = lines.getLast?
        ∧ addInsertIndex lines < lines.length)
    ∨ (addLines4 rule lines newLines).getLast? = newLines.getLast? := by
  simp only [addLines4]
  rw [if_neg hs]
  by_cases hnb : addNeedBlank lines (addInsertIndex lines) = true
  · rw [if_pos hnb, if_pos hnb]
    by_cases hidx : addInsertIndex lines ≤ lines.length
    · have hlen2 : (spliceInsert lines (addInsertIndex lines) [[]]).length
          = lines.length + 1 := by
        rw [spliceInsert_length lines [[]] _ hidx]
        rfl
      rw [getLast_spliceInsert _ newLines _ hnew, hlen2]
      by_cases h : addInsertIndex lines < lines.length
      · rw [if_pos (by omega)]
        rw [getLast_spliceInsert lines [[]] _ (by simp), if_pos h]
        exact Or.inl ⟨rfl, h⟩
      · rw [if_neg (by omega)]
        exact Or.inr rfl
    · have hlen2 : (spliceInsert lines (addInsertIndex lines) [[]]).length
          = lines.length + 1 := by
        unfold spliceInsert
        rw [List.length_append, List.length_append, List.length_take, List.length_drop,
          List.length_singleton]
        omega
      rw [getLast_spliceInsert _ newLines _ hnew, hlen2]
      rw [if_neg (by omega)]
      exact Or.inr rfl
  · rw [if_neg hnb, if_neg hnb]
    rw [getLast_spliceInsert lines newLines _ hnew]
    by_cases h : addInsertIndex lines < lines.length
    · rw [if_pos h]
      exact Or.inl ⟨rfl, h⟩
    · rw [if_neg h]
      exact Or.inr rfl

theorem addModLine_guard_eq (rule : AutomodRule) (content : JStr) (newLines : List JStr)
    (hguard : extractModuleName ((newLines.find?
        (fun line => hasSub (js "mod ") line)).getD []) ≠ []
      ∧ (parseModDeclarations (splitRN content)).filter
          (fun m => extractModuleName m.modLine
            = extractModuleName ((newLines.find?
                (fun line => hasSub (js "mod ") line)).getD [])) ≠ []) :
    addModLine rule content newLines = content := by
  simp only [addModLine]
  rw [if_pos hguard]

theorem addModLine_val (rule : AutomodRule) (content : JStr) (newLines : List JStr)
    (hguard : ¬(extractModuleName ((newLines.find?
        (fun line => hasSub (js "mod ") line)).getD []) ≠ []
      ∧ (parseModDeclarations (splitRN content)).filter
          (fun m => extractModuleName m.modLine
            = extractModuleName ((newLines.find?
                (fun line => hasSub (js "mod ") line)).getD [])) ≠ [])) :
    addModLine rule content newLines
      = (if endsNL content
          then joinNL (addLines4 rule (splitRN content) newLines) ++ js "\n"
          else joinNL (addLines4 rule (splitRN content) newLines)) := by
  simp only [addModLine]
  rw [if_neg hguard]

theorem addLines4_mem (rule : AutomodRule) (lines newLines : List JStr) :
    ∀ l ∈ addLines4 rule lines newLines, l ∈ lines ∨ l = [] ∨ l ∈ newLines := by
  obtain ⟨l2, i2, hl2, heq⟩ := addLines4_cases rule lines newLines
  have hl2m : ∀ l ∈ l2, l ∈ lines ∨ l = [] := by
    rcases hl2 with hl2 | ⟨idx, hl2⟩
    · rw [hl2]
      exact fun l hl => Or.inl hl
    · rw [hl2]
      intro l hl
      rcases spliceInsert_mem lines idx [[]] hl with h | h
      · exact Or.inl h
      · exact Or.inr (List.mem_singleton.mp h)
  have hl3m : ∀ l ∈ spliceInsert l2 i2 newLines, l ∈ lines ∨ l = [] ∨ l ∈ newLines := by
    intro l hl
    rcases spliceInsert_mem l2 i2 newLines hl with h | h
    · rcases hl2m l h with h2 | h2
      · exact Or.inl h2
      · exact Or.inr (Or.inl h2)
    · exact Or.inr (Or.inr h)
  rw [heq]
  by_cases hsrt : rule.sort = .alpha
  · rw [if_pos hsrt]
    intro l hl
    exact hl3m l (sort_mem _ l hl)
  · rw [if_neg hsrt]
    exact hl3m

theorem splitRN_concat_nl (c : JStr) (hcr : '\r' ∉ c) :
    splitRN (c ++ ['\n']) = splitRN c ++ [[]] := by
  induction c with
  | nil => rfl
  | cons a cs ih =>
    have hacr : a ≠ '\r' := by
      intro he
      exact hcr (he ▸ List.mem_cons_self a cs)
    have hcscr : '\r' ∉ cs := fun he => hcr (List.mem_cons_of_mem a he)
    by_cases ha : a = '\n'
    · subst ha
      rw [List.cons_append, splitRN_nl, ih hcscr, splitRN_nl]
      rfl
    · have hnot1 : ¬(a = '\r' ∧ ∃ cs2, cs ++ ['\n'] = '\n' :: cs2) := by
        rintro ⟨hce, -⟩
        exact hacr hce
      have hnot2 : ¬(a = '\r' ∧ ∃ cs2, cs = '\n' :: cs2) := by
        rintro ⟨hce, -⟩
        exact hacr hce
      rw [List.cons_append, splitRN_cons_other a _ ha hnot1, ih hcscr,
        splitRN_cons_other a cs ha hnot2]
      cases hsp : splitRN cs with
      | nil => exact absurd hsp (splitRN_ne_nil cs)
      | cons s1 sr => rfl

theorem legacy_root_form (rc lineToRemove : JStr) :
    handleFileDeleteLegacy true false false rc [] lineToRemove
      = some (FileAction.write (joinNL ((splitRN rc).filter
          (fun line => trimL line ≠ [] ∧ trimL line ≠ lineToRemove))
        ++ (if trimL (joinNL ((splitRN rc).filter
            (fun line => trimL line ≠ [] ∧ trimL line ≠ lineToRemove))) ≠ []
          then js "\n" else []))) := by
  rw [handleFileDeleteLegacy, if_pos (show ((true : Bool) || false) = true from rfl)]

theorem legacy_trailing_insensitive (rootContent lineToRemove : JStr)
    (hcr : '\r' ∉ rootContent) :
    handleFileDeleteLegacy true false false (rootContent ++ js "\n") [] lineToRemove
      = handleFileDeleteLegacy true false false rootContent [] lineToRemove := by
  rw [legacy_root_form, legacy_root_form]
  have hsp : splitRN (rootContent ++ js "\n") = splitRN rootContent ++ [[]] := by
    rw [show js "\n" = ['\n'] from rfl]
    exact splitRN_concat_nl rootContent hcr
  rw [hsp, List.filter_append, show (([[]] : List JStr).filter
      (fun line => trimL line ≠ [] ∧ trimL line ≠ lineToRemove)) = [] from rfl,
    List.append_nil]

/-- C4: corrected frame and trailing-newline behaviour of a single insert or
remove edit.  `addModLine` (with sorting disabled and a well-formed nonempty
block) preserves the original lines as a sublist of the output lines and
preserves the trailing-newline convention.  The legacy remove
(`handleFileDelete` in `automod.ts`, root-file branch) does **not** preserve
either: its output is insensitive to the original trailing newline (it
newline-terminates any output with non-blank content regardless), and, as
`automod_C4_counterexample` shows, it also drops every blank line, destroying
bytes outside the edited declaration region. -/
theorem automod_C4_theorem (rule : AutomodRule) (content rootContent lineToRemove : JStr)
    (newLines : List JStr)
    (hs : rule.sort ≠ .alpha)
    (hnew : newLines ≠ [])
    (hnl : ∀ l ∈ newLines, '\n' ∉ l)
    (hlastNe : newLines.getLastD [] ≠ [])
    (hcr : '\r' ∉ rootContent) :
    (addModLine rule content newLines = content
      ∨ ∃ lines4, List.Sublist (splitRN content) lines4
          ∧ addModLine rule content newLines
            = (if endsNL content then joinNL lines4 ++ js "\n" else joinNL lines4))
    ∧ endsNL (addModLine rule content newLines) = endsNL content
    ∧ handleFileDeleteLegacy true false false (rootContent ++ js "\n") [] lineToRemove
        = handleFileDeleteLegacy true false false rootContent [] lineToRemove := by
  have hfreeNL : ∀ l ∈ addLines4 rule (splitRN content) newLines, '\n' ∉ l := by
    intro l hl
    rcases addLines4_mem rule (splitRN content) newLines l hl with h | h | h
    · exact splitRN_no_nl content l h
    · rw [h]
      simp
    · exact hnl l h
  refine ⟨?_, ?_, legacy_trailing_insensitive rootContent lineToRemove hcr⟩
  · by_cases hg : extractModuleName ((newLines.find?
        (fun line => hasSub (js "mod ") line)).getD []) ≠ []
      ∧ (parseModDeclarations (splitRN content)).filter
          (fun m => extractModuleName m.modLine
            = extractModuleName ((newLines.find?
                (fun line => hasSub (js "mod ") line)).getD [])) ≠ []
    · exact Or.inl (addModLine_guard_eq rule content newLines hg)
    · exact Or.inr ⟨addLines4 rule (splitRN content) newLines,
        addLines4_sublist rule (splitRN content) newLines hs,
        addModLine_val rule content newLines hg⟩
  · by_cases hg : extractModuleName ((newLines.find?
        (fun line => hasSub (js "mod ") line)).getD []) ≠ []
      ∧ (parseModDeclarations (splitRN content)).filter
          (fun m => extractModuleName m.modLine
            = extractModuleName ((newLines.find?
                (fun line => hasSub (js "mod ") line)).getD [])) ≠ []
    · rw [addModLine_guard_eq rule content newLines hg]
    · rw [addModLine_val rule content newLines hg]
      by_cases hend : endsNL content = true
      · rw [if_pos hend, hend, show js "\n" = ['\n'] from rfl]
        exact endsNL_concat_nl _
      · have hendf : endsNL content = false := by rwa [Bool.not_eq_true] at hend
        rw [if_neg hend, hendf]
        rcases addLines4_getLast rule (splitRN content) newLines hs hnew with
          ⟨heq, hlt⟩ | heq
        · by_cases hcnil : content = []
          · subst hcnil
            have h1 : addInsertIndex (splitRN ([] : JStr)) = 1 := by decide
            have h2 : (splitRN ([] : JStr)).length = 1 := by decide
            rw [h1, h2] at hlt
            omega
          · cases hlc : (splitRN content).getLast? with
            | none => exact absurd (List.getLast?_eq_none.mp hlc) (splitRN_ne_nil content)
            | some t =>
              have ht : t ≠ [] := splitRN_last_ne_nil content hcnil hendf t hlc
              refine endsNL_joinNL_false _ t ?_ ht hfreeNL
              rw [heq, hlc]
        · cases hlc : newLines.getLast? with
          | none => exact absurd (List.getLast?_eq_none.mp hlc) hnew
          | some t =>
            have ht : t ≠ [] := by
              rw [List.getLastD_eq_getLast?, hlc, Option.getD_some] at hlastNe
              exact hlastNe
            refine endsNL_joinNL_false _ t ?_ ht hfreeNL
            rw [heq, hlc]

/-- C4 counterexample: the legacy remove introduces a trailing newline into
content that had none, and it drops a blank line that lies outside the edited
declaration region. -/
theorem automod_C4_counterexample :
    endsNL (js "mod a;\nmod b;") = false
    ∧ handleFileDeleteLegacy true false false (js "mod a;\nmod b;") [] (js "mod a;")
        = some (FileAction.write (js "mod b;\n"))
    ∧ handleFileDeleteLegacy true false false (js "mod a;\n\nfn f();\n") [] (js "mod a;")
        = some (FileAction.write (js "fn f();\n")) := by
  decide

/-- C4 witness: `addModLine` on newline-less content with a fresh declaration
preserves the absent trailing newline, and the legacy remove is insensitive
to an appended trailing newline on a concrete input. -/
theorem automod_C4_witness :
    endsNL (addModLine {} (js "mod a;") [js "mod b;"]) = endsNL (js "mod a;")
    ∧ handleFileDeleteLegacy true false false (js "mod x;" ++ js "\n") [] (js "mod x;")
        = handleFileDeleteLegacy true false false (js "mod x;") [] (js "mod x;") :=
  ⟨(automod_C4_theorem {} (js "mod a;") (js "mod x;") (js "mod x;") [js "mod b;"]
      (by decide) (by decide) (by decide) (by decide) (by decide)).2.1,
   (automod_C4_theorem {} (js "mod a;") (js "mod x;") (js "mod x;") [js "mod b;"]
      (by decide) (by decide) (by decide) (by decide) (by decide)).2.2⟩

/-- C7 counterexample: deleting module `a` from a `mod.rs` holding only
`mod a;` leaves no non-blank content, yet the current handler writes the
emptied content back instead of deleting the index file. -/
theorem automod_C7_counterexample :
    (∀ l ∈ removeDecls (splitRN (js "mod a;\n"))
        ((parseModDeclarations (splitRN (js "mod a;\n"))).filter
          (fun m => extractModuleName m.modLine = js "a")), trimL l = [])
    ∧ handleFileDeleteCurrent (js "mod a;\n") (js "a")
        = some (FileAction.write (js "\n")) := by
  decide

end RustAutomod
